import Mathlib

/-!
Shallow embedding of the theine-core cache engine (Rust sources under src/):
the ordered-list primitive (src/metadata.rs), count-min sketch (src/sketch.rs),
timer wheel (src/timerwheel.rs), LRU/SLRU regions (src/lru.rs), TinyLFU policy
(src/tlfu.rs) and the cache facade (src/core.rs).

Machine integers (u64/usize, both 64-bit here) are modelled as Nat together
with the saturating/wrapping operations the source uses; every table word is
kept below 2 ^ 64 by the operations themselves.  The intrusive dlv_list
indices are modelled by the keys they stably point to: each region list is the
sequence of keys front-to-back, an Entry records whether its index is present,
and index-based operations (touch, remove, prev) act on the entry key's
position, which is what the stable index designates.  The f32/f64 hill-climber
quantities (hr, step) never influence the integer state except through the
truncated amount fed to the clamp and resizer, so that integer amount is taken
as an explicit parameter wherever the source computes it from floats.
-/

namespace Theine

/-- usize::MAX = u64::MAX on the 64-bit targets the crate builds for. -/
def USIZE_MAX : Nat := 2 ^ 64 - 1

/-- u64/usize saturating addition. -/
def satAdd (a b : Nat) : Nat := min (a + b) USIZE_MAX

/-- u64/usize saturating subtraction (Nat subtraction already saturates at 0). -/
def satSub (a b : Nat) : Nat := a - b

/-- usize saturating multiplication. -/
def satMul (a b : Nat) : Nat := min (a * b) USIZE_MAX

/-- usize::saturating_add_signed: add an isize, saturating at 0 and usize::MAX. -/
def satAddSigned (a : Nat) (b : Int) : Nat :=
  (min (max ((a : Int) + b) 0) (USIZE_MAX : Int)).toNat

/-- u64 wrapping multiplication. -/
def wrapMul64 (a b : Nat) : Nat := (a * b) % 2 ^ 64

/-- Helper loop for nextPowerOfTwo: double p until it reaches n (64 doublings
cover the whole u64 range). -/
def nextPowerOfTwoAux (n : Nat) : Nat → Nat → Nat
  | 0, p => p
  | fuel + 1, p => if n ≤ p then p else nextPowerOfTwoAux n fuel (p * 2)

/-- Rust usize::next_power_of_two: least power of two that is >= n. -/
def nextPowerOfTwo (n : Nat) : Nat := nextPowerOfTwoAux n 64 1

/-- u64::count_ones, for words below 2 ^ 64: the number of set bits. -/
def countOnes64 (w : Nat) : Nat :=
  ((List.range 64).map (fun b => w / 2 ^ b % 2)).sum

/-!  src/metadata.rs: Entry and the ordered-list primitive List<T>. -/

/-- Per-key metadata record (src/metadata.rs, struct Entry).  The two dlv_list
index fields are modelled by presence flags; the position each one designates
is recovered from the key's place in the corresponding list. -/
structure Entry where
  policy_list_id : Nat
  policy_list_index : Bool
  wheel_list_index : Bool
  wheel_index : Nat × Nat
  expire : Nat
deriving Repr, DecidableEq

/-- Entry::new. -/
def Entry.mk0 : Entry :=
  { policy_list_id := 0, policy_list_index := false, wheel_list_index := false,
    wheel_index := (0, 0), expire := 0 }

/-- The bounded ordered list (src/metadata.rs, struct List<T>): the sequence of
keys front-to-back plus the informational capacity field. -/
structure PList where
  items : List Nat
  capacity : Nat
deriving Repr, DecidableEq

/-- List::new: capacity 0 is raised to 1. -/
def PList.new (capacity : Nat) : PList :=
  { items := [], capacity := if capacity = 0 then 1 else capacity }

/-- List::insert_front. -/
def PList.insertFront (l : PList) (k : Nat) : PList :=
  { l with items := k :: l.items }

/-- List::remove at the index of key k (no-op when the index is stale, i.e. the
key is no longer in the list, matching dlv_list's tolerant removal). -/
def PList.removeKey (l : PList) (k : Nat) : PList :=
  { l with items := l.items.erase k }

/-- List::tail. -/
def PList.tailKey (l : PList) : Option Nat := l.items.getLast?

/-- List::pop_tail. -/
def PList.popTail (l : PList) : PList × Option Nat :=
  ({ l with items := l.items.dropLast }, l.items.getLast?)

/-- List::touch at the index of key k: move to front unless already there. -/
def PList.touch (l : PList) (k : Nat) : PList :=
  if l.items.contains k then { l with items := k :: l.items.erase k } else l

/-- List::prev at the index of key k: the neighbouring value toward the front. -/
def PList.prevOf (l : PList) (k : Nat) : Option Nat :=
  match l.items.findIdx? (fun x => x = k) with
  | none => none
  | some i => if i = 0 then none else l.items.get? (i - 1)

/-- List::len. -/
def PList.len (l : PList) : Nat := l.items.length

/-!  The entries store: HashMap<u64, Entry> as an association list with unique
keys.  Iteration order is never observed by the modelled claims. -/

def EntriesMap : Type := List (Nat × Entry)

instance : DecidableEq EntriesMap := by unfold EntriesMap; infer_instance

instance : Repr EntriesMap := by unfold EntriesMap; infer_instance

/-- HashMap::get. -/
def EntriesMap.find (m : EntriesMap) (k : Nat) : Option Entry :=
  match m with
  | [] => none
  | (k2, e) :: rest => if k2 = k then some e else EntriesMap.find rest k

/-- HashMap::insert (replacing any existing binding of the key). -/
def EntriesMap.insert (m : EntriesMap) (k : Nat) (e : Entry) : EntriesMap :=
  match m with
  | [] => [(k, e)]
  | (k2, e2) :: rest =>
    if k2 = k then (k, e) :: rest else (k2, e2) :: EntriesMap.insert rest k e

/-- HashMap::remove, dropping the binding.  HashMap keys are unique, so
dropping every pair carrying the key coincides with dropping its binding on
every map the model ever builds. -/
def EntriesMap.erase (m : EntriesMap) (k : Nat) : EntriesMap :=
  m.filter (fun p => p.1 ≠ k)

/-- HashMap::contains_key. -/
def EntriesMap.mem (m : EntriesMap) (k : Nat) : Bool :=
  (EntriesMap.find m k).isSome

/-- Update the entry stored under k in place (get_mut followed by mutation). -/
def EntriesMap.adjust (m : EntriesMap) (k : Nat) (f : Entry → Entry) : EntriesMap :=
  match m with
  | [] => []
  | (k2, e2) :: rest =>
    if k2 = k then (k2, f e2) :: rest else (k2, e2) :: EntriesMap.adjust rest k f

/-- HashMap::len. -/
def EntriesMap.size (m : EntriesMap) : Nat := m.length

/-!  src/sketch.rs: the blocked count-min sketch with 4-bit counters. -/

def RESET_MASK : Nat := 0x7777777777777777
def ONE_MASK : Nat := 0x1111111111111111

structure CountMinSketch where
  block_mask : Nat
  table : List Nat
  additions : Nat
  sample_size : Nat
deriving Repr, DecidableEq

/-- CountMinSketch::new. -/
def CountMinSketch.new (size : Nat) : CountMinSketch :=
  let sketch_size := if size < 64 then 64 else size
  let counter_size := nextPowerOfTwo sketch_size
  let block_mask := satSub (counter_size >>> 3) 1
  let table := List.replicate counter_size 0
  let sample_size := satMul counter_size 10
  { additions := 0, sample_size := sample_size, table := table,
    block_mask := block_mask }

/-- fn rehash (src/sketch.rs). -/
def rehash (h : Nat) : Nat :=
  let h1 := wrapMul64 h 0x94d049bb133111eb
  h1 ^^^ (h1 >>> 31)

/-- CountMinSketch::index_of: the (word index, counter offset) pair chosen for
one of the four derivations, with the source's out-of-range fallbacks. -/
def CountMinSketch.index_of (s : CountMinSketch) (counter_hash block : Nat)
    (offset : Nat) : Nat × Nat :=
  if offset > 3 then (0, 0)
  else
    let h := counter_hash >>> (offset <<< 3)
    let index := satAdd (satAdd block (h &&& 1)) (offset <<< 1)
    let index_safe := if index ≥ s.table.length then 0 else index
    let offset_val := (h >>> 1) &&& 0xf
    (index_safe, offset_val)

/-- CountMinSketch::inc: increment the 4-bit counter unless saturated at 15;
returns the updated table and whether an increment happened. -/
def CountMinSketch.inc (s : CountMinSketch) (index offset : Nat) :
    CountMinSketch × Bool :=
  if index ≥ s.table.length then (s, false)
  else if offset > 15 then (s, false)
  else
    let off := offset <<< 2
    let mask := 0xF <<< off
    let w := s.table.getD index 0
    if w &&& mask ≠ mask then
      ({ s with table := s.table.set index (satAdd w (1 <<< off)) }, true)
    else (s, false)

/-- CountMinSketch::reset (the aging step): halve every counter word-wise and
shrink the additions counter by the odd-counter correction. -/
def CountMinSketch.reset (s : CountMinSketch) : CountMinSketch :=
  let count := (s.table.map (fun w => countOnes64 (w &&& ONE_MASK))).sum
  let table := s.table.map (fun w => (w >>> 1) &&& RESET_MASK)
  let additions := satSub s.additions (count >>> 2) >>> 1
  { s with table := table, additions := additions }

/-- The four counter increments of CountMinSketch::add (everything before
the additions bookkeeping): the updated sketch and whether any increment
succeeded. -/
def CountMinSketch.incFour (s : CountMinSketch) (h : Nat) :
    CountMinSketch × Bool :=
  let counter_hash := rehash h
  let block := satMul (h &&& s.block_mask) 8
  let p0 := s.index_of counter_hash block 0
  let p1 := s.index_of counter_hash block 1
  let p2 := s.index_of counter_hash block 2
  let p3 := s.index_of counter_hash block 3
  let r0 := s.inc p0.1 p0.2
  let r1 := r0.1.inc p1.1 p1.2
  let r2 := r1.1.inc p2.1 p2.2
  let r3 := r2.1.inc p3.1 p3.2
  (r3.1, r0.2 || r1.2 || r2.2 || r3.2)

/-- CountMinSketch::add. -/
def CountMinSketch.add (s : CountMinSketch) (h : Nat) : CountMinSketch :=
  let r := s.incFour h
  if r.2 then
    let s2 : CountMinSketch := { r.1 with additions := satAdd r.1.additions 1 }
    if s2.sample_size ≤ s2.additions then s2.reset else s2
  else r.1

/-- CountMinSketch::count: read one 4-bit counter. -/
def CountMinSketch.count (s : CountMinSketch) (h block : Nat) (offset : Nat) : Nat :=
  let p := s.index_of h block offset
  if p.1 ≥ s.table.length then 0
  else if p.2 > 15 then 0
  else (s.table.getD p.1 0 >>> (p.2 <<< 2)) &&& 0xF

/-- CountMinSketch::estimate: minimum of the four selected counters. -/
def CountMinSketch.estimate (s : CountMinSketch) (h : Nat) : Nat :=
  let counter_hash := rehash h
  let block := satMul (h &&& s.block_mask) 8
  let c0 := s.count counter_hash block 0
  let c1 := s.count counter_hash block 1
  let c2 := s.count counter_hash block 2
  let c3 := s.count counter_hash block 3
  min (min (min c0 c1) c2) c3

/-- The 4-bit counter j of a backing word. -/
def counterOf (w : Nat) (j : Nat) : Nat := (w >>> (4 * j)) &&& 0xF

/-!  src/lru.rs: the window LRU and the main SLRU (probation + protected). -/

/-- Window LRU region (policy list id 1). -/
structure Lru where
  list : PList
deriving Repr, DecidableEq

/-- Lru::new (maxsize floored to 1). -/
def Lru.new (maxsize : Nat) : Lru := { list := PList.new (max maxsize 1) }

/-- Lru::insert: push the key to the front and record id/index on the entry. -/
def Lru.insert (l : Lru) (k : Nat) (e : Entry) : Lru × Entry :=
  ({ list := l.list.insertFront k },
   { e with policy_list_index := true, policy_list_id := 1 })

/-- Lru::access: move the entry's position to the front. -/
def Lru.access (l : Lru) (k : Nat) : Lru := { list := l.list.touch k }

/-- Lru::remove; none models the missing-policy_list_index error. -/
def Lru.remove (l : Lru) (e : Entry) (k : Nat) : Option Lru :=
  if e.policy_list_index then some { list := l.list.removeKey k } else none

/-- Main SLRU region: probation (id 2) and protected (id 3) lists. -/
structure Slru where
  probation : PList
  protectedList : PList
deriving Repr, DecidableEq

/-- Slru::new.  The source computes the protected capacity as
(maxsize as f64 * 0.8) as usize, which for every maxsize below 2 ^ 50 equals
maxsize * 8 / 10 in exact arithmetic (0.8_f64 is slightly above 4/5 and the
rounding of the product never crosses an integer boundary at these sizes). -/
def Slru.new (maxsize : Nat) : Slru :=
  let m := max maxsize 1
  { probation := PList.new m, protectedList := PList.new (m * 8 / 10) }

/-- Slru::insert: new keys enter the probation front. -/
def Slru.insert (s : Slru) (k : Nat) (e : Entry) : Slru × Entry :=
  ({ s with probation := s.probation.insertFront k },
   { e with policy_list_index := true, policy_list_id := 2 })

/-- Slru::remove; none models the missing-index / unknown-id errors. -/
def Slru.remove (s : Slru) (e : Entry) (k : Nat) : Option Slru :=
  if ¬ e.policy_list_index then none
  else if e.policy_list_id = 2 then
    some { s with probation := s.probation.removeKey k }
  else if e.policy_list_id = 3 then
    some { s with protectedList := s.protectedList.removeKey k }
  else none

/-- Slru::access via handle_access: probation promotes to the protected
front, protected is touched; none models the error cases. -/
def Slru.access (s : Slru) (k : Nat) (es : EntriesMap) :
    Option (Slru × EntriesMap) :=
  match es.find k with
  | none => none
  | some e =>
    if e.policy_list_id = 2 then
      if ¬ e.policy_list_index then none
      else
        some ({ s with probation := s.probation.removeKey k,
                       protectedList := s.protectedList.insertFront k },
              es.adjust k (fun e2 =>
                { e2 with policy_list_index := true, policy_list_id := 3 }))
    else if e.policy_list_id = 3 then
      if ¬ e.policy_list_index then none
      else some ({ s with protectedList := s.protectedList.touch k }, es)
    else none

/-!  src/tlfu.rs: the TinyLFU policy coordinator.

The f32 fields hr and step only feed the pre-clamp climber amount, which is
taken as an explicit parameter (rawAmount) wherever the source derives it;
the isize field amount is part of the state because resize_window reads and
writes it. -/

def ADMIT_HASHDOS_THRESHOLD : Nat := 6

inductive PolicyQueue where
  | Window
  | Probation
  | Protected
deriving Repr, DecidableEq

structure TinyLfu where
  size : Nat
  capacity : Nat
  window : Lru
  main : Slru
  sketch : CountMinSketch
  hit_in_sample : Nat
  misses_in_sample : Nat
  amount : Int
deriving Repr, DecidableEq

/-- TinyLfu::new.  (capacity as f64 * 0.01) as usize equals capacity / 100
for every capacity below 2 ^ 50 (0.01_f64 is slightly above 1/100 and the
product's rounding never crosses an integer boundary at these sizes). -/
def TinyLfu.new (size : Nat) : TinyLfu :=
  let capacity := if size = 0 then 1 else size
  let lru_size0 := capacity / 100
  let lru_size := if lru_size0 = 0 then 1 else lru_size0
  let slru_size := capacity - lru_size
  { size := 0, capacity := capacity, window := Lru.new lru_size,
    main := Slru.new slru_size, sketch := CountMinSketch.new capacity,
    hit_in_sample := 0, misses_in_sample := 0, amount := 0 }

/-- TinyLfu::increase_window's loop, structured over the remaining amount:
move keys from the probation (or protected) tail into the window front.
Returns the residual amount. -/
def TinyLfu.increaseWindowLoop : Nat → TinyLfu → EntriesMap →
    TinyLfu × EntriesMap × Nat
  | 0, t, es => (t, es, 0)
  | n + 1, t, es =>
    let key := match t.main.probation.tailKey with
               | some k => some k
               | none => t.main.protectedList.tailKey
    match key with
    | none => (t, es, n + 1)
    | some k =>
      match es.find k with
      | none => TinyLfu.increaseWindowLoop n t es
      | some e =>
        match t.main.remove e k with
        | none => TinyLfu.increaseWindowLoop n t es
        | some main2 =>
          let we := t.window.insert k e
          TinyLfu.increaseWindowLoop n { t with window := we.1, main := main2 }
            (es.adjust k (fun _ => we.2))

/-- TinyLfu::decrease_window's loop: move keys from the window tail into the
probation front.  Returns the residual amount. -/
def TinyLfu.decreaseWindowLoop : Nat → TinyLfu → EntriesMap →
    TinyLfu × EntriesMap × Nat
  | 0, t, es => (t, es, 0)
  | n + 1, t, es =>
    match t.window.list.tailKey with
    | none => (t, es, n + 1)
    | some k =>
      match es.find k with
      | none => TinyLfu.decreaseWindowLoop n t es
      | some e =>
        match t.window.remove e k with
        | none => TinyLfu.decreaseWindowLoop n t es
        | some w2 =>
          let me := t.main.insert k e
          TinyLfu.decreaseWindowLoop n { t with window := w2, main := me.1 }
            (es.adjust k (fun _ => me.2))

/-- TinyLfu::demote_from_protected's loop (fuel-indexed; the source's while
loop pops one protected tail per iteration, so the protected length is enough
fuel): demote protected tails into the probation front until the protected
list fits its capacity. -/
def TinyLfu.demoteLoop : Nat → TinyLfu → EntriesMap → TinyLfu × EntriesMap
  | 0, t, es => (t, es)
  | n + 1, t, es =>
    if t.main.protectedList.len ≤ t.main.protectedList.capacity then (t, es)
    else
      let pr := t.main.protectedList.popTail
      match pr.2 with
      | none => (t, es)
      | some k =>
        let t2 := { t with main := { t.main with protectedList := pr.1 } }
        match es.find k with
        | none => (t2, es)
        | some e =>
          let me := t2.main.insert k e
          TinyLfu.demoteLoop n { t2 with main := me.1 }
            (es.adjust k (fun _ => me.2))

/-- TinyLfu::demote_from_protected. -/
def TinyLfu.demoteFromProtected (t : TinyLfu) (es : EntriesMap) :
    TinyLfu × EntriesMap :=
  TinyLfu.demoteLoop t.main.protectedList.len t es

/-- The tentative capacity shift opening TinyLfu::resize_window: both new
capacities floored at 1 via saturating arithmetic. -/
def TinyLfu.resizeShift (t : TinyLfu) : TinyLfu :=
  { t with
    window := { list := { t.window.list with
      capacity := max (satAddSigned t.window.list.capacity t.amount) 1 } },
    main := { t.main with protectedList := { t.main.protectedList with
      capacity :=
        max (satAddSigned t.main.protectedList.capacity (-t.amount)) 1 } } }

/-- The increase/decrease dispatch of TinyLfu::resize_window, leaving the
residual in the amount field. -/
def TinyLfu.resizeMove (t2 : TinyLfu) (es2 : EntriesMap) :
    TinyLfu × EntriesMap :=
  if 0 < t2.amount then
    let r := TinyLfu.increaseWindowLoop t2.amount.toNat t2 es2
    ({ r.1 with amount := (r.2.2 : Int) }, r.2.1)
  else if t2.amount < 0 then
    let r := TinyLfu.decreaseWindowLoop (-t2.amount).toNat t2 es2
    ({ r.1 with amount := -(r.2.2 : Int) }, r.2.1)
  else (t2, es2)

/-- The closing residual reconciliation of TinyLfu::resize_window. -/
def TinyLfu.resizeFinish (t3 : TinyLfu) : TinyLfu :=
  { t3 with
    window := { list := { t3.window.list with
      capacity := satAddSigned t3.window.list.capacity (-t3.amount) } },
    main := { t3.main with protectedList := { t3.main.protectedList with
      capacity := satAddSigned t3.main.protectedList.capacity t3.amount } } }

/-- TinyLfu::resize_window, driven by the amount field: tentative capacity
shift floored at 1, demotion, the increase/decrease moves, and the residual
reconciliation of both capacities. -/
def TinyLfu.resizeWindow (t : TinyLfu) (es : EntriesMap) : TinyLfu × EntriesMap :=
  let de := TinyLfu.demoteFromProtected (TinyLfu.resizeShift t) es
  let step := TinyLfu.resizeMove de.1 de.2
  (TinyLfu.resizeFinish step.1, step.2)

/-- TinyLfu::climb.  The pre-clamp amount (f32 step negated or not by the
hit-ratio delta, then truncated to isize) is the rawAmount parameter;
protectedVecCap is the protected dlv_list's allocated capacity
(VecList::capacity()), which the positive clamp reads.  The negative clamp
subtracts 1 from the window capacity in usize arithmetic (well-defined since
the window capacity is at least 1 from construction on). -/
def TinyLfu.climb (t : TinyLfu) (rawAmount : Int) (protectedVecCap : Nat) :
    TinyLfu :=
  let t1 : TinyLfu := { t with hit_in_sample := 0, misses_in_sample := 0 }
  let a0 := rawAmount
  let a1 := if 0 < a0 ∧ protectedVecCap < a0.toNat then (protectedVecCap : Int)
            else a0
  let a2 := if a1 < 0 ∧ t1.window.list.capacity - 1 < a1.natAbs then
              -(((t1.window.list.capacity - 1) : Nat) : Int)
            else a1
  { t1 with amount := a2 }

/-- TinyLfu::remove: dispatch on the region tag, decrement size; none models
the propagated error (missing index or unknown id). -/
def TinyLfu.removeEntry (t : TinyLfu) (e : Entry) (k : Nat) : Option TinyLfu :=
  if e.policy_list_id = 0 then some t
  else if e.policy_list_id = 1 then
    match t.window.remove e k with
    | none => none
    | some w2 => some { t with window := w2, size := satSub t.size 1 }
  else if e.policy_list_id = 2 ∨ e.policy_list_id = 3 then
    match t.main.remove e k with
    | none => none
    | some m2 => some { t with main := m2, size := satSub t.size 1 }
  else none

/-- TinyLfu::prev_key: the neighbour toward the front in the list the entry's
region tag names.  The outer none models the unreachable! panic on a tag
outside 1..3; the inner option is the source's return value. -/
def TinyLfu.prevKey (t : TinyLfu) (es : EntriesMap) (key : Option Nat) :
    Option (Option Nat) :=
  match key with
  | none => some none
  | some k =>
    match es.find k with
    | none => some none
    | some e =>
      if e.policy_list_id = 1 then
        some (if e.policy_list_index then t.window.list.prevOf k else none)
      else if e.policy_list_id = 2 then
        some (if e.policy_list_index then t.main.probation.prevOf k else none)
      else if e.policy_list_id = 3 then
        some (if e.policy_list_index then t.main.protectedList.prevOf k else none)
      else none

/-- TinyLfu::admit: frequency comparison with the deterministic hash-DoS
tiebreak on the wrapping sum of the two keys. -/
def TinyLfu.admit (t : TinyLfu) (candidate victim : Nat) : Bool :=
  let victim_freq := t.sketch.estimate victim
  let candidate_freq := t.sketch.estimate candidate
  if victim_freq < candidate_freq then true
  else if ADMIT_HASHDOS_THRESHOLD < candidate_freq then
    ((candidate + victim) % 2 ^ 64) &&& 127 = 0
  else false

/-- Cursor state of the candidate-versus-victim loop in evict_from_main. -/
structure EvictCursor where
  victim_queue : PolicyQueue
  candidate_queue : PolicyQueue
  victim : Option Nat
  candidate : Option Nat
  evicted : Option Nat
deriving Repr, DecidableEq

/-- Outcome of the eviction loop: ok is a normal return, err is a propagated
remove error or the unreachable-tag panic (either way the call produces no
eviction value in the source), fuelOut marks the source's loop not having
terminated within the given number of iterations. -/
inductive EvictOutcome where
  | ok (t : TinyLfu) (es : EntriesMap) (evicted : Option Nat)
  | err (t : TinyLfu) (es : EntriesMap)
  | fuelOut (t : TinyLfu) (es : EntriesMap)
deriving Repr, DecidableEq

/-- The policy state an eviction outcome carries. -/
def EvictOutcome.policy : EvictOutcome → TinyLfu
  | .ok t _ _ => t
  | .err t _ => t
  | .fuelOut t _ => t

/-- The entries map an eviction outcome carries. -/
def EvictOutcome.entriesOf : EvictOutcome → EntriesMap
  | .ok _ es _ => es
  | .err _ es => es
  | .fuelOut _ es => es

/-- One eviction of the key ev (if present in the entries map), recording it
as the latest evicted key; shared shape of the four eviction sites. -/
def TinyLfu.evictOne (t : TinyLfu) (es : EntriesMap) (ev : Option Nat)
    (old : Option Nat) : Option (TinyLfu × Option Nat) :=
  match ev with
  | none => some (t, old)
  | some k =>
    match es.find k with
    | none => some (t, old)
    | some e =>
      match t.removeEntry e k with
      | none => none
      | some t2 => some (t2, some k)

/-- TinyLfu::evict_from_main's while loop, one constructor-iteration per
source-loop iteration (fuel-indexed: running out of fuel reports fuelOut,
the source would still be looping). -/
def TinyLfu.evictFromMainLoop : Nat → TinyLfu → EntriesMap → EvictCursor →
    EvictOutcome
  | 0, t, es, c =>
    if t.size ≤ t.capacity then .ok t es c.evicted else .fuelOut t es
  | n + 1, t, es, c =>
    if t.size ≤ t.capacity then .ok t es c.evicted
    else
      let c :=
        if c.candidate = none ∧ c.candidate_queue = PolicyQueue.Probation then
          { c with candidate := t.window.list.tailKey,
                   candidate_queue := PolicyQueue.Window }
        else c
      if c.candidate = none ∧ c.victim = none ∧
          c.victim_queue = PolicyQueue.Probation then
        TinyLfu.evictFromMainLoop n t es
          { c with victim := t.main.protectedList.tailKey,
                   victim_queue := PolicyQueue.Protected }
      else if c.candidate = none ∧ c.victim = none ∧
          c.victim_queue = PolicyQueue.Protected then
        TinyLfu.evictFromMainLoop n t es
          { c with victim := t.window.list.tailKey,
                   victim_queue := PolicyQueue.Window }
      else if c.victim = none then
        match t.prevKey es c.candidate with
        | none => .err t es
        | some prev =>
          match t.evictOne es c.candidate c.evicted with
          | none => .err t es
          | some r =>
            TinyLfu.evictFromMainLoop n r.1 es
              { c with candidate := prev, evicted := r.2 }
      else if c.candidate = none then
        match t.prevKey es c.victim with
        | none => .err t es
        | some prev =>
          match t.evictOne es c.victim c.evicted with
          | none => .err t es
          | some r =>
            TinyLfu.evictFromMainLoop n r.1 es
              { c with victim := prev, evicted := r.2 }
      else if c.victim = c.candidate then
        match t.prevKey es c.victim with
        | none => .err t es
        | some prev =>
          match t.evictOne es c.candidate c.evicted with
          | none => .err t es
          | some r =>
            TinyLfu.evictFromMainLoop n r.1 es
              { c with victim := prev, candidate := none, evicted := r.2 }
      else
        match c.candidate, c.victim with
        | some ck, some vk =>
          if t.admit ck vk then
            match t.prevKey es c.victim with
            | none => .err t es
            | some prevV =>
              match t.evictOne es c.victim c.evicted with
              | none => .err t es
              | some r =>
                match r.1.prevKey es c.candidate with
                | none => .err r.1 es
                | some prevC =>
                  TinyLfu.evictFromMainLoop n r.1 es
                    { c with victim := prevV, candidate := prevC,
                             evicted := r.2 }
          else
            match t.prevKey es c.candidate with
            | none => .err t es
            | some prevC =>
              match t.evictOne es c.candidate c.evicted with
              | none => .err t es
              | some r =>
                TinyLfu.evictFromMainLoop n r.1 es
                  { c with candidate := prevC, evicted := r.2 }
        | _, _ => .err t es

/-- TinyLfu::evict_from_window (fuel-indexed on the window length, one pop
per iteration): drain window overflow into the probation front, remembering
the first drained key. -/
def TinyLfu.evictFromWindowLoop : Nat → TinyLfu → EntriesMap → Option Nat →
    TinyLfu × EntriesMap × Option Nat
  | 0, t, es, first => (t, es, first)
  | n + 1, t, es, first =>
    if t.window.list.len ≤ t.window.list.capacity then (t, es, first)
    else
      let pr := t.window.list.popTail
      match pr.2 with
      | none => TinyLfu.evictFromWindowLoop n t es first
      | some k =>
        let t2 : TinyLfu := { t with window := { list := pr.1 } }
        let first2 := match first with
                      | none => some k
                      | some f => some f
        match es.find k with
        | none => TinyLfu.evictFromWindowLoop n t2 es first2
        | some e =>
          let me := t2.main.insert k e
          TinyLfu.evictFromWindowLoop n { t2 with main := me.1 }
            (es.adjust k (fun _ => me.2)) first2

/-- Fuel that over-approximates every terminating run of the eviction loop. -/
def TinyLfu.evictFuel (t : TinyLfu) : Nat := t.size + 3 * t.capacity + 3

/-- TinyLfu::evict_entries: window drain, then the main eviction loop seeded
with the first drained key as candidate and the probation tail as victim. -/
def TinyLfu.evictEntries (t : TinyLfu) (es : EntriesMap) : EvictOutcome :=
  let wr := TinyLfu.evictFromWindowLoop t.window.list.len t es none
  let t1 := wr.1
  let es1 := wr.2.1
  let first := wr.2.2
  TinyLfu.evictFromMainLoop (TinyLfu.evictFuel t1) t1 es1
    { victim_queue := PolicyQueue.Probation,
      candidate_queue := PolicyQueue.Probation,
      victim := t1.main.probation.tailKey, candidate := first, evicted := none }

/-- The adaptation trigger shared by TinyLfu::set and TinyLfu::access: when
the sample window is full, climb then resize. -/
def TinyLfu.setTrigger (t : TinyLfu) (es : EntriesMap) (rawAmount : Int)
    (protectedVecCap : Nat) : TinyLfu × EntriesMap :=
  if t.sketch.sample_size < t.hit_in_sample + t.misses_in_sample then
    TinyLfu.resizeWindow (TinyLfu.climb t rawAmount protectedVecCap) es
  else (t, es)

/-- The admission step of TinyLfu::set: a key whose entry carries region tag
0 is counted as a miss, pushed to the window front and added to the
sketch. -/
def TinyLfu.setAdmit (t1 : TinyLfu) (key : Nat) (es1 : EntriesMap) :
    TinyLfu × EntriesMap :=
  match es1.find key with
  | some e =>
    if e.policy_list_id = 0 then
      let t2 : TinyLfu :=
        { t1 with misses_in_sample := satAdd t1.misses_in_sample 1 }
      let we := t2.window.insert key e
      let t3 : TinyLfu := { t2 with window := we.1, size := satAdd t2.size 1 }
      ({ t3 with sketch := t3.sketch.add key }, es1.adjust key (fun _ => we.2))
    else (t1, es1)
  | none => (t1, es1)

/-- TinyLfu::set: possible climb + resize, window admission of a fresh key,
demotion, then the eviction protocol.  rawAmount/protectedVecCap feed the
climber as in TinyLfu.climb; the Bool is false when the eviction protocol
returned an error (the source's Err, which the facade's .ok() turns into
no eviction) or span past the fuel. -/
def TinyLfu.set (t : TinyLfu) (key : Nat) (es : EntriesMap) (rawAmount : Int)
    (protectedVecCap : Nat) : TinyLfu × EntriesMap × Option Nat × Bool :=
  let s0 := TinyLfu.setTrigger t es rawAmount protectedVecCap
  let s1 := TinyLfu.setAdmit s0.1 key s0.2
  let de := TinyLfu.demoteFromProtected s1.1 s1.2
  match TinyLfu.evictEntries de.1 de.2 with
  | .ok t es ev => (t, es, ev, true)
  | .err t es => (t, es, none, false)
  | .fuelOut t es => (t, es, none, false)

/-- TinyLfu::access: possible climb + resize, sketch add, then touch or
SLRU promotion; the Bool is false on the source's error returns (state
mutated so far is kept, matching the source's in-place mutation). -/
def TinyLfu.access (t : TinyLfu) (key : Nat) (now : Nat) (es : EntriesMap)
    (rawAmount : Int) (protectedVecCap : Nat) :
    TinyLfu × EntriesMap × Bool :=
  let s0 := TinyLfu.setTrigger t es rawAmount protectedVecCap
  let t1 : TinyLfu := { s0.1 with sketch := s0.1.sketch.add key }
  let es1 := s0.2
  match es1.find key with
  | none => (t1, es1, true)
  | some e =>
    let t2 : TinyLfu := { t1 with hit_in_sample := satAdd t1.hit_in_sample 1 }
    if e.expire ≠ 0 ∧ e.expire ≤ now then (t2, es1, true)
    else if e.policy_list_index then
      if e.policy_list_id = 1 then
        ({ t2 with window := t2.window.access key }, es1, true)
      else if e.policy_list_id = 2 ∨ e.policy_list_id = 3 then
        match t2.main.access key es1 with
        | none => (t2, es1, false)
        | some r => ({ t2 with main := r.1 }, r.2, true)
      else (t2, es1, false)
    else (t2, es1, false)

/-!  src/timerwheel.rs: clock and the five-level hierarchical timer wheel.

Clock::now_ns reads a monotonic hardware clock; every facade operation takes
the nanosecond reading(s) it observes as an explicit now parameter.  The
level spans are the next powers of two of 1s, 60s, 1h, 1d and 4d in
nanoseconds: 2^30, 2^36, 2^42, 2^47 and 2^49. -/

/-- Clock::expire_ns at clock reading now: now + ttl saturating, or 0 for
ttl = 0 (never expire). -/
def expireNs (now ttl : Nat) : Nat := if 0 < ttl then satAdd now ttl else 0

def wheelBucketCounts : List Nat := [64, 64, 32, 4, 1]

def wheelSpans : List Nat := [2 ^ 30, 2 ^ 36, 2 ^ 42, 2 ^ 47, 2 ^ 49, 2 ^ 49]

def wheelShift : List Nat := [30, 36, 42, 47, 49, 49]

structure TimerWheel where
  wheel : List (List PList)
  nanos : Nat
deriving Repr, DecidableEq

/-- TimerWheel::new, at the clock reading observed during construction
(construction samples now_ns once into the nanos field). -/
def TimerWheel.new (startNanos : Nat) : TimerWheel :=
  { wheel := wheelBucketCounts.map (fun b => List.replicate b (PList.new 8)),
    nanos := startNanos }

/-- Bucket (level, slot) of the wheel (out-of-range reads give the empty
bucket, mirroring the source's checked get). -/
def TimerWheel.bucket (w : TimerWheel) (level slot : Nat) : PList :=
  ((w.wheel.getD level []).getD slot (PList.new 8))

/-- Apply f to bucket (level, slot) when both are in range, else leave the
wheel unchanged (the source logs and skips). -/
def TimerWheel.modifyBucket (w : TimerWheel) (level slot : Nat)
    (f : PList → PList) : TimerWheel :=
  match w.wheel.get? level with
  | none => w
  | some lv =>
    match lv.get? slot with
    | none => w
    | some b => { w with wheel := w.wheel.set level (lv.set slot (f b)) }

/-- TimerWheel::find_index: scan the five levels for the first whose next
span exceeds the remaining duration. -/
def TimerWheel.findIndex (w : TimerWheel) (expire : Nat) : Nat × Nat :=
  let duration := satSub expire w.nanos
  if duration < 2 ^ 36 then (0, (expire >>> 30) &&& 63)
  else if duration < 2 ^ 42 then (1, (expire >>> 36) &&& 63)
  else if duration < 2 ^ 47 then (2, (expire >>> 42) &&& 31)
  else if duration < 2 ^ 49 then (3, (expire >>> 47) &&& 3)
  else if duration < 2 ^ 49 then (4, (expire >>> 49) &&& 0)
  else (4, 0)

/-- TimerWheel::deschedule: remove the entry's key from its recorded bucket
(when an index is recorded) and clear the wheel fields. -/
def TimerWheel.deschedule (w : TimerWheel) (k : Nat) (e : Entry) :
    TimerWheel × Entry :=
  let w2 := if e.wheel_list_index then
              w.modifyBucket e.wheel_index.1 e.wheel_index.2
                (fun b => b.removeKey k)
            else w
  (w2, { e with wheel_list_index := false, wheel_index := (0, 0) })

/-- TimerWheel::schedule: deschedule, then (for a nonzero expiration) insert
the key at the front of the bucket find_index selects and record it. -/
def TimerWheel.schedule (w : TimerWheel) (k : Nat) (e : Entry) :
    TimerWheel × Entry :=
  let de := w.deschedule k e
  let w1 := de.1
  let e1 := de.2
  if 0 < e1.expire then
    let wi := w1.findIndex e1.expire
    match (w1.wheel.get? wi.1).bind (fun lv => lv.get? wi.2) with
    | some _ =>
      (w1.modifyBucket wi.1 wi.2 (fun b => b.insertFront k),
       { e1 with wheel_index := wi, wheel_list_index := true })
    | none => (w1, e1)
  else (w1, e1)

/-- One bucket pass of TimerWheel::expire: partition the bucket's keys into
expired (removed) and still-live (modified), deschedule the former,
reschedule the latter. -/
def TimerWheel.expireBucket (w : TimerWheel) (bucketIdx : Nat × Nat)
    (es : EntriesMap) : TimerWheel × EntriesMap × List Nat :=
  let keys := (w.bucket bucketIdx.1 bucketIdx.2).items
  let removed := keys.filter (fun k =>
    match es.find k with
    | some e => decide (e.expire ≤ w.nanos)
    | none => false)
  let modified := keys.filter (fun k =>
    match es.find k with
    | some e => decide (w.nanos < e.expire)
    | none => false)
  let step1 := removed.foldl (fun (acc : TimerWheel × EntriesMap) k =>
    match acc.2.find k with
    | some e =>
      let de := acc.1.deschedule k e
      (de.1, acc.2.adjust k (fun _ => de.2))
    | none => acc) (w, es)
  let step2 := modified.foldl (fun (acc : TimerWheel × EntriesMap) k =>
    match acc.2.find k with
    | some e =>
      let sc := acc.1.schedule k e
      (sc.1, acc.2.adjust k (fun _ => sc.2))
    | none => acc) step1
  (step2.1, step2.2, removed)

/-- TimerWheel::expire at one level: scan min(delta + 1, buckets) consecutive
buckets from prev_ticks & mask, collecting the expired keys. -/
def TimerWheel.expireLevel (w : TimerWheel) (index prevTicks delta : Nat)
    (es : EntriesMap) : TimerWheel × EntriesMap × List Nat :=
  if w.wheel.length ≤ index then (w, es, [])
  else
    let bcount := wheelBucketCounts.getD index 1
    let mask := bcount - 1
    let steps := min (delta + 1) bcount
    let start := prevTicks &&& mask
    (List.range steps).foldl
      (fun (acc : TimerWheel × EntriesMap × List Nat) j =>
        let i := start + j
        let bucketIdx := i &&& mask
        if (acc.1.wheel.getD index []).length ≤ bucketIdx then acc
        else
          let r := acc.1.expireBucket (index, bucketIdx) acc.2.1
          (r.1, r.2.1, acc.2.2 ++ r.2.2))
      (w, es, [])

/-- The level loop of TimerWheel::advance (stops at the first level whose
tick counter did not advance). -/
def TimerWheel.advanceLevels : List Nat → TimerWheel → Nat → Nat →
    EntriesMap → TimerWheel × EntriesMap × List Nat
  | [], w, _, _, es => (w, es, [])
  | i :: rest, w, previous, now, es =>
    let sh := wheelShift.getD i 0
    let prevTicks := previous >>> sh
    let curTicks := now >>> sh
    if curTicks ≤ prevTicks then (w, es, [])
    else
      let r := w.expireLevel i prevTicks (curTicks - prevTicks) es
      let r2 := TimerWheel.advanceLevels rest r.1 previous now r.2.1
      (r2.1, r2.2.1, r.2.2 ++ r2.2.2)

/-- TimerWheel::advance to the clock reading now. -/
def TimerWheel.advance (w : TimerWheel) (now : Nat) (es : EntriesMap) :
    TimerWheel × EntriesMap × List Nat :=
  let previous := w.nanos
  let w1 : TimerWheel := { w with nanos := now }
  TimerWheel.advanceLevels [0, 1, 2, 3, 4] w1 previous now es

/-- All keys present anywhere in the wheel. -/
def TimerWheel.allKeys (w : TimerWheel) : List Nat :=
  (w.wheel.map (fun lv => (lv.map PList.items).flatten)).flatten

/-- The key appears in no bucket of the wheel (decidable, so concrete wheels
can be checked by evaluation). -/
def TimerWheel.keyAbsent (w : TimerWheel) (k : Nat) : Prop :=
  ∀ lv ∈ w.wheel, ∀ b ∈ lv, k ∉ b.items

instance (w : TimerWheel) (k : Nat) : Decidable (w.keyAbsent k) := by
  unfold TimerWheel.keyAbsent
  infer_instance

/-!  src/core.rs: the TlfuCore facade. -/

structure TlfuCore where
  policy : TinyLfu
  wheel : TimerWheel
  entries : EntriesMap
deriving Repr, DecidableEq

/-- TlfuCore::new at the construction-time clock reading. -/
def TlfuCore.new (size : Nat) (startNanos : Nat) : TlfuCore :=
  { policy := TinyLfu.new size, wheel := TimerWheel.new startNanos,
    entries := [] }

/-- The .inspect body of TlfuCore::set_entry: deschedule the evicted entry
when it is present, then drop it from the entries map. -/
def TlfuCore.dropEvicted (c2 : TlfuCore) (ek : Nat) : TlfuCore :=
  match c2.entries.find ek with
  | some e3 =>
    { c2 with
      wheel := (c2.wheel.deschedule ek e3).1,
      entries := (c2.entries.adjust ek
        (fun _ => (c2.wheel.deschedule ek e3).2)).erase ek }
  | none => { c2 with entries := c2.entries.erase ek }

/-- The tail of TlfuCore::set_entry after the policy ran: on a successful
eviction, deschedule and drop the evicted key (evb is the
evicted-key/success pair the policy produced). -/
def TlfuCore.setEntryOutcome (c2 : TlfuCore) (evb : Option Nat × Bool) :
    TlfuCore × Option Nat :=
  if evb.2 then
    match evb.1 with
    | some ek => (TlfuCore.dropEvicted c2 ek, some ek)
    | none => (c2, none)
  else (c2, none)

/-- The fresh-key path of TlfuCore::set_entry after the entry was scheduled
and inserted: run the policy, then handle its eviction. -/
def TlfuCore.setEntryFinish (c1 : TlfuCore) (key : Nat) (rawAmount : Int)
    (protectedVecCap : Nat) : TlfuCore × Option Nat :=
  TlfuCore.setEntryOutcome
    { c1 with
      policy := (c1.policy.set key c1.entries rawAmount protectedVecCap).1,
      entries := (c1.policy.set key c1.entries rawAmount protectedVecCap).2.1 }
    (c1.policy.set key c1.entries rawAmount protectedVecCap).2.2

/-- The existing-key path of TlfuCore::set_entry: refresh the expiration in
place and reschedule; the policy is not consulted. -/
def TlfuCore.setEntryExisting (c : TlfuCore) (key ttl now : Nat) :
    TlfuCore × Option Nat :=
  match (c.entries.adjust key
      (fun e => { e with expire := expireNs now ttl })).find key with
  | some e =>
    ({ c with
       wheel := (c.wheel.schedule key e).1,
       entries := (c.entries.adjust key
         (fun e2 => { e2 with expire := expireNs now ttl })).adjust key
           (fun _ => (c.wheel.schedule key e).2) }, none)
  | none =>
    ({ c with
       entries := c.entries.adjust key
         (fun e => { e with expire := expireNs now ttl }) }, none)

/-- TlfuCore::set_entry at clock reading now (ttl already unsigned).  An
existing key only has its expiration refreshed and is rescheduled; a fresh
key is created, scheduled, inserted and offered to the policy, and the
policy's evicted key (if any) is descheduled and dropped from the entries
map.  rawAmount/protectedVecCap feed TinyLfu.climb when the adaptation
trigger fires. -/
def TlfuCore.setEntry (c : TlfuCore) (key ttl now : Nat) (rawAmount : Int)
    (protectedVecCap : Nat) : TlfuCore × Option Nat :=
  match c.entries.find key with
  | some _ => TlfuCore.setEntryExisting c key ttl now
  | none =>
    TlfuCore.setEntryFinish
      { c with
        wheel := (c.wheel.schedule key
          { Entry.mk0 with expire := expireNs now ttl }).1,
        entries := c.entries.insert key (c.wheel.schedule key
          { Entry.mk0 with expire := expireNs now ttl }).2 }
      key rawAmount protectedVecCap

/-- TlfuCore::remove_internal: drop from the entries map, the policy (errors
are logged and swallowed; the policy's error paths mutate nothing) and the
wheel. -/
def TlfuCore.removeInternal (c : TlfuCore) (key : Nat) : TlfuCore :=
  match c.entries.find key with
  | none => c
  | some e =>
    let es1 := c.entries.erase key
    let p1 := match c.policy.removeEntry e key with
              | some p => p
              | none => c.policy
    let de := c.wheel.deschedule key e
    { policy := p1, wheel := de.1, entries := es1 }

/-- One batch element of TlfuCore::set: ttl = -1 removes, otherwise the key
is processed unless it is already in the evicted set. -/
def TlfuCore.setStep (c : TlfuCore) (evicted : List Nat) (key : Nat)
    (ttl : Int) (now : Nat) (rawAmount : Int) (protectedVecCap : Nat) :
    TlfuCore × List Nat :=
  if ttl = -1 then (c.removeInternal key, evicted)
  else if evicted.contains key then (c, evicted)
  else
    let r := c.setEntry key ttl.natAbs now rawAmount protectedVecCap
    match r.2 with
    | some ek => (r.1, if evicted.contains ek then evicted else evicted ++ [ek])
    | none => (r.1, evicted)

/-- The final retention pass of TlfuCore::set: keep (and remove from the
entries map) only evicted keys that still exist. -/
def TlfuCore.retainEvicted (c : TlfuCore) (evicted : List Nat) :
    TlfuCore × List Nat :=
  evicted.foldl
    (fun (acc : TlfuCore × List Nat) k =>
      if acc.1.entries.mem k then
        ({ acc.1 with entries := acc.1.entries.erase k }, acc.2 ++ [k])
      else acc)
    (c, [])

/-- TlfuCore::set over a batch, at clock reading now: returns the retained
evicted keys. -/
def TlfuCore.set (c : TlfuCore) (batch : List (Nat × Int)) (now : Nat)
    (rawAmount : Int) (protectedVecCap : Nat) : TlfuCore × List Nat :=
  let run := batch.foldl
    (fun (acc : TlfuCore × List Nat) kv =>
      TlfuCore.setStep acc.1 acc.2 kv.1 kv.2 now rawAmount protectedVecCap)
    (c, [])
  TlfuCore.retainEvicted run.1 run.2

/-- TlfuCore::remove. -/
def TlfuCore.remove (c : TlfuCore) (key : Nat) : TlfuCore × Option Nat :=
  match c.entries.find key with
  | none => (c, none)
  | some _ => (c.removeInternal key, some key)

/-- TlfuCore::access over a key list at clock reading now (policy errors are
logged and swallowed, keeping the partial mutation). -/
def TlfuCore.access (c : TlfuCore) (keys : List Nat) (now : Nat)
    (rawAmount : Int) (protectedVecCap : Nat) : TlfuCore :=
  keys.foldl
    (fun acc k =>
      let r := acc.policy.access k now acc.entries rawAmount protectedVecCap
      { acc with policy := r.1, entries := r.2.1 })
    c

/-- TlfuCore::advance at clock reading now: expire via the wheel, then drop
each expired key from the entries map and the policy. -/
def TlfuCore.advance (c : TlfuCore) (now : Nat) : TlfuCore × List Nat :=
  let wr := c.wheel.advance now c.entries
  let c1 : TlfuCore := { c with wheel := wr.1, entries := wr.2.1 }
  let expired := wr.2.2
  let c2 := expired.foldl
    (fun (acc : TlfuCore) k =>
      match acc.entries.find k with
      | none => acc
      | some e =>
        let p1 := match acc.policy.removeEntry e k with
                  | some p => p
                  | none => acc.policy
        { acc with policy := p1, entries := acc.entries.erase k })
    c1
  (c2, expired)

/-- TlfuCore::len. -/
def TlfuCore.len (c : TlfuCore) : Nat := c.entries.size

/-!  Well-formedness and invariant predicates used by the theorems. -/

/-- Structural well-formedness of a sketch, as established by
CountMinSketch::new: table of at least 64 words (a power of two, hence a
multiple of 8, and small enough that the block arithmetic cannot saturate),
the matching block mask, and 64-bit words. -/
def CountMinSketch.WF (s : CountMinSketch) : Prop :=
  64 ≤ s.table.length ∧ s.table.length ≤ 2 ^ 60 ∧ 8 ∣ s.table.length ∧
  s.block_mask = s.table.length / 8 - 1 ∧ ∀ w ∈ s.table, w < 2 ^ 64

instance (s : CountMinSketch) : Decidable s.WF := by
  unfold CountMinSketch.WF
  infer_instance

/-- The entry stored for k carries the given region tag and a live policy
index. -/
def entryTagged (es : EntriesMap) (k : Nat) (id : Nat) : Bool :=
  match es.find k with
  | some e => e.policy_list_id == id && e.policy_list_index
  | none => false

/-- The region-list/metadata coherence the spec requires at quiescent points
(section 3 invariants): the three region lists are disjoint and duplicate
free, every listed key has an entry whose tag and index match its list, and
the policy size counter equals the total listed length. -/
def TinyLfu.coherent (t : TinyLfu) (es : EntriesMap) : Prop :=
  (t.window.list.items ++ t.main.probation.items ++
    t.main.protectedList.items).Nodup ∧
  (∀ k ∈ t.window.list.items, entryTagged es k 1 = true) ∧
  (∀ k ∈ t.main.probation.items, entryTagged es k 2 = true) ∧
  (∀ k ∈ t.main.protectedList.items, entryTagged es k 3 = true) ∧
  t.size = t.window.list.len + t.main.probation.len + t.main.protectedList.len

/-- Size bounds at a policy set call: positive capacity and at most one entry
of overshoot (each set admits at most one fresh key past a quiescent state
with size at most capacity). -/
def TinyLfu.reachableSize (t : TinyLfu) : Prop :=
  1 ≤ t.capacity ∧ t.size ≤ t.capacity + 1

instance (t : TinyLfu) (es : EntriesMap) : Decidable (t.coherent es) := by
  unfold TinyLfu.coherent
  infer_instance

instance (t : TinyLfu) : Decidable t.reachableSize := by
  unfold TinyLfu.reachableSize
  infer_instance

/-- The policy fields that the list-shuffling loops (demote, increase,
decrease, window drain) never change: the three list capacities, the climber
amount, the total capacity, the size counter, the sketch and the sample
counters. -/
def TinyLfu.capsView (t : TinyLfu) :
    Nat × Nat × Nat × Int × Nat × Nat × CountMinSketch × Nat × Nat :=
  (t.window.list.capacity, t.main.protectedList.capacity,
   t.main.probation.capacity, t.amount, t.capacity, t.size, t.sketch,
   t.hit_in_sample, t.misses_in_sample)

/-- The keys of the entries map, in storage order. -/
def EntriesMap.keys (es : EntriesMap) : List Nat := es.map Prod.fst

/-- Every stored entry is accounted for relative to the three given region
lists: it either belongs to the exception set X (a freshly created entry the
policy has not admitted yet: region tag 0, no live index), or it carries a
live index with the region tag of the one region list that contains its
key. -/
def trackedIn (W Pb Pt : List Nat) (es : EntriesMap) (X : Nat → Prop) : Prop :=
  ∀ k e, es.find k = some e →
    (X k ∧ e.policy_list_index = false ∧ e.policy_list_id = 0) ∨
    (e.policy_list_index = true ∧
      ((e.policy_list_id = 1 ∧ k ∈ W) ∨
       (e.policy_list_id = 2 ∧ k ∈ Pb) ∨
       (e.policy_list_id = 3 ∧ k ∈ Pt)))

/-- Tracking instantiated at the policy's region lists. -/
def entriesTracked (t : TinyLfu) (es : EntriesMap) (X : Nat → Prop) : Prop :=
  trackedIn t.window.list.items t.main.probation.items
    t.main.protectedList.items es X

/-- Two-sided policy/entries synchronisation: region-list coherence plus the
tracking of every stored entry (modulo the exception set X). -/
def TinyLfu.synced (t : TinyLfu) (es : EntriesMap) (X : Nat → Prop) : Prop :=
  t.coherent es ∧ entriesTracked t es X

/-- The key sits in one of the three region lists. -/
def TinyLfu.listedIn (t : TinyLfu) (k : Nat) : Prop :=
  k ∈ t.window.list.items ∨ k ∈ t.main.probation.items ∨
  k ∈ t.main.protectedList.items

/-- Two entries maps with the same keys whose entries agree on the policy
region tag and index fields pointwise (the wheel rewrites only the wheel
fields, so its entries-map output stays in this relation to its input). -/
def entriesTagEq (es es2 : EntriesMap) : Prop :=
  es2.keys = es.keys ∧
  ∀ k e2, es2.find k = some e2 → ∃ e, es.find k = some e ∧
    e2.policy_list_id = e.policy_list_id ∧
    e2.policy_list_index = e.policy_list_index

/-- The quiescent-state invariant of the facade: policy and entries map
synchronised with no exceptions, unique keys, the entry count equal to the
policy size counter, and the size within the (positive) capacity.  The
capacity bound below usize::MAX keeps the saturating size increment exact;
TlfuCore::new is given a usize, and at usize::MAX itself the modelled
unbounded key space admits more distinct keys than any machine map can
hold. -/
def TlfuCore.Inv (c : TlfuCore) : Prop :=
  c.policy.synced c.entries (fun _ => False) ∧
  c.entries.keys.Nodup ∧
  c.entries.size = c.policy.size ∧
  c.policy.size ≤ c.policy.capacity ∧
  1 ≤ c.policy.capacity ∧
  c.policy.capacity < USIZE_MAX

/-- One public facade call, with its clock reading and climber inputs. -/
inductive FacadeOp where
  | setBatch (batch : List (Nat × Int)) (now : Nat) (raw : Int) (pvc : Nat)
  | accessKeys (keys : List Nat) (now : Nat) (raw : Int) (pvc : Nat)
  | advanceTo (now : Nat)
  | removeKey (key : Nat)

/-- Apply one public facade call. -/
def FacadeOp.apply (c : TlfuCore) : FacadeOp → TlfuCore
  | .setBatch batch now raw pvc => (c.set batch now raw pvc).1
  | .accessKeys keys now raw pvc => c.access keys now raw pvc
  | .advanceTo now => (c.advance now).1
  | .removeKey key => (c.remove key).1

/-- Run a sequence of public facade calls. -/
def TlfuCore.runOps (c : TlfuCore) : List FacadeOp → TlfuCore
  | [] => c
  | op :: rest => TlfuCore.runOps (FacadeOp.apply c op) rest

/-!  #  Theorems.

First the generic lemmas about the entries map and the wheel entry fields,
then the claim theorems. -/

theorem EntriesMap.find_adjust (m : EntriesMap) (k : Nat) (f : Entry → Entry)
    (k2 : Nat) :
    (m.adjust k f).find k2 = if k2 = k then (m.find k2).map f else m.find k2 := by
  induction m with
  | nil => by_cases h : k2 = k <;> simp [EntriesMap.adjust, EntriesMap.find, h]
  | cons p rest ih =>
    obtain ⟨pk, pe⟩ := p
    by_cases hpk : pk = k
    · subst hpk
      by_cases h2 : k2 = pk
      · subst h2; simp [EntriesMap.adjust, EntriesMap.find]
      · simp [EntriesMap.adjust, EntriesMap.find, h2, Ne.symm h2]
    · by_cases h2 : k2 = pk
      · subst h2
        have hne : ¬ (k2 = k) := hpk
        simp [EntriesMap.adjust, EntriesMap.find, hpk, hne]
      · simp [EntriesMap.adjust, EntriesMap.find, hpk, Ne.symm h2, h2, ih]

theorem EntriesMap.find_insert (m : EntriesMap) (k : Nat) (e : Entry)
    (k2 : Nat) :
    (m.insert k e).find k2 = if k2 = k then some e else m.find k2 := by
  induction m with
  | nil =>
    by_cases h : k2 = k <;>
      simp [EntriesMap.insert, EntriesMap.find, h, Ne.symm]
  | cons p rest ih =>
    obtain ⟨pk, pe⟩ := p
    by_cases hpk : pk = k
    · subst hpk
      by_cases h2 : k2 = pk
      · subst h2; simp [EntriesMap.insert, EntriesMap.find]
      · simp [EntriesMap.insert, EntriesMap.find, h2, Ne.symm h2]
    · by_cases h2 : k2 = pk
      · subst h2
        have hne : ¬ (k2 = k) := hpk
        simp [EntriesMap.insert, EntriesMap.find, hpk, hne]
      · simp [EntriesMap.insert, EntriesMap.find, hpk, Ne.symm h2, h2, ih]

theorem EntriesMap.find_erase (m : EntriesMap) (k : Nat) (k2 : Nat) :
    (m.erase k).find k2 = if k2 = k then none else m.find k2 := by
  simp only [EntriesMap.erase]
  induction m with
  | nil => by_cases h : k2 = k <;> simp [EntriesMap.find, h]
  | cons p rest ih =>
    obtain ⟨pk, pe⟩ := p
    rw [List.filter_cons]
    by_cases hpk : pk = k
    · subst hpk
      by_cases h2 : k2 = pk
      · subst h2; simpa using ih
      · have h2' : ¬ pk = k2 := fun h => h2 h.symm
        simpa [h2, h2', EntriesMap.find] using ih
    · by_cases h2 : k2 = pk
      · subst h2
        have hne : ¬ (k2 = k) := hpk
        simp [EntriesMap.find, hpk, hne]
      · have h2' : ¬ pk = k2 := fun h => h2 h.symm
        simp only [ne_eq, decide_not] at ih
        simp [EntriesMap.find, hpk, h2', ih]

theorem EntriesMap.mem_adjust (m : EntriesMap) (k : Nat) (f : Entry → Entry)
    (k2 : Nat) : (m.adjust k f).mem k2 = m.mem k2 := by
  simp only [EntriesMap.mem, EntriesMap.find_adjust]
  by_cases h : k2 = k <;> simp [h, Option.isSome_map]

theorem EntriesMap.mem_insert (m : EntriesMap) (k : Nat) (e : Entry)
    (k2 : Nat) : (m.insert k e).mem k2 = (k2 = k || m.mem k2) := by
  simp only [EntriesMap.mem, EntriesMap.find_insert]
  by_cases h : k2 = k <;> simp [h]

theorem EntriesMap.mem_erase (m : EntriesMap) (k : Nat) (k2 : Nat) :
    (m.erase k).mem k2 = (!(k2 = k) && m.mem k2) := by
  simp only [EntriesMap.mem, EntriesMap.find_erase]
  by_cases h : k2 = k <;> simp [h]

/-- Descheduling never changes an entry's expiration. -/
theorem TimerWheel.deschedule_expire (w : TimerWheel) (k : Nat) (e : Entry) :
    (w.deschedule k e).2.expire = e.expire := by
  simp [TimerWheel.deschedule]

/-- Scheduling never changes an entry's expiration. -/
theorem TimerWheel.schedule_expire (w : TimerWheel) (k : Nat) (e : Entry) :
    (w.schedule k e).2.expire = e.expire := by
  simp only [TimerWheel.schedule]
  split
  · split
    · simp [TimerWheel.deschedule]
    · simp [TimerWheel.deschedule]
  · simp [TimerWheel.deschedule]

theorem satAddSigned_eq (n : Nat) (i : Int) (h0 : 0 ≤ (n : Int) + i)
    (h1 : (n : Int) + i ≤ (USIZE_MAX : Int)) :
    satAddSigned n i = ((n : Int) + i).toNat := by
  unfold satAddSigned
  rw [max_eq_left h0, min_eq_left h1]

/-- Slru removal keeps both list capacities. -/
theorem Slru.remove_caps (s : Slru) (e : Entry) (k : Nat) (s2 : Slru)
    (h : s.remove e k = some s2) :
    s2.protectedList.capacity = s.protectedList.capacity ∧
    s2.probation.capacity = s.probation.capacity := by
  unfold Slru.remove at h
  split at h
  · exact absurd h (by simp)
  · split at h
    · cases h; simp [PList.removeKey]
    · split at h
      · cases h; simp [PList.removeKey]
      · exact absurd h (by simp)

/-- demote_from_protected touches only the two main lists' items: the fields
of capsView are preserved. -/
theorem TinyLfu.demoteLoop_capsView (n : Nat) (t : TinyLfu) (es : EntriesMap) :
    (TinyLfu.demoteLoop n t es).1.capsView = t.capsView := by
  induction n generalizing t es with
  | zero => simp [TinyLfu.demoteLoop]
  | succ n ih =>
    by_cases hle : t.main.protectedList.len ≤ t.main.protectedList.capacity
    · simp [TinyLfu.demoteLoop, hle]
    · rcases hpop : t.main.protectedList.items.getLast? with _ | k
      · simp [TinyLfu.demoteLoop, hle, PList.popTail, hpop]
      · rcases hfind : es.find k with _ | e
        · simp [TinyLfu.demoteLoop, hle, PList.popTail, hpop, hfind,
            TinyLfu.capsView]
        · simp only [TinyLfu.demoteLoop, hle, PList.popTail, hpop, hfind,
            if_false]
          rw [ih]
          simp [TinyLfu.capsView, Slru.insert, PList.insertFront]

/-- increase_window preserves the capsView fields and returns a residual of
at most the requested amount. -/
theorem TinyLfu.increaseWindowLoop_capsView (n : Nat) (t : TinyLfu)
    (es : EntriesMap) :
    (TinyLfu.increaseWindowLoop n t es).1.capsView = t.capsView ∧
    (TinyLfu.increaseWindowLoop n t es).2.2 ≤ n := by
  induction n generalizing t es with
  | zero => simp [TinyLfu.increaseWindowLoop]
  | succ n ih =>
    rcases hkey : (match t.main.probation.tailKey with
                   | some k => some k
                   | none => t.main.protectedList.tailKey) with _ | k
    · simp [TinyLfu.increaseWindowLoop, hkey]
    · rcases hfind : es.find k with _ | e
      · simp only [TinyLfu.increaseWindowLoop, hkey, hfind]
        exact ⟨(ih t es).1, Nat.le_succ_of_le (ih t es).2⟩
      · rcases hrem : t.main.remove e k with _ | main2
        · simp only [TinyLfu.increaseWindowLoop, hkey, hfind, hrem]
          exact ⟨(ih t es).1, Nat.le_succ_of_le (ih t es).2⟩
        · simp only [TinyLfu.increaseWindowLoop, hkey, hfind, hrem]
          have hc := Slru.remove_caps t.main e k main2 hrem
          constructor
          · rw [(ih _ _).1]
            simp [TinyLfu.capsView, Lru.insert, PList.insertFront, hc.1, hc.2]
          · exact Nat.le_succ_of_le (ih _ _).2

/-- Lru removal keeps the window capacity. -/
theorem Lru.remove_cap (l : Lru) (e : Entry) (k : Nat) (l2 : Lru)
    (h : l.remove e k = some l2) : l2.list.capacity = l.list.capacity := by
  unfold Lru.remove at h
  split at h
  · cases h; simp [PList.removeKey]
  · exact absurd h (by simp)

/-- decrease_window preserves the capsView fields and returns a residual of
at most the requested amount. -/
theorem TinyLfu.decreaseWindowLoop_capsView (n : Nat) (t : TinyLfu)
    (es : EntriesMap) :
    (TinyLfu.decreaseWindowLoop n t es).1.capsView = t.capsView ∧
    (TinyLfu.decreaseWindowLoop n t es).2.2 ≤ n := by
  induction n generalizing t es with
  | zero => simp [TinyLfu.decreaseWindowLoop]
  | succ n ih =>
    rcases hkey : t.window.list.tailKey with _ | k
    · simp [TinyLfu.decreaseWindowLoop, hkey]
    · rcases hfind : es.find k with _ | e
      · simp only [TinyLfu.decreaseWindowLoop, hkey, hfind]
        exact ⟨(ih t es).1, Nat.le_succ_of_le (ih t es).2⟩
      · rcases hrem : t.window.remove e k with _ | w2
        · simp only [TinyLfu.decreaseWindowLoop, hkey, hfind, hrem]
          exact ⟨(ih t es).1, Nat.le_succ_of_le (ih t es).2⟩
        · simp only [TinyLfu.decreaseWindowLoop, hkey, hfind, hrem]
          have hc := Lru.remove_cap t.window e k w2 hrem
          constructor
          · rw [(ih _ _).1]
            simp [TinyLfu.capsView, Slru.insert, PList.insertFront, hc]
          · exact Nat.le_succ_of_le (ih _ _).2

theorem capsView_window {a b : TinyLfu} (h : a.capsView = b.capsView) :
    a.window.list.capacity = b.window.list.capacity :=
  congrArg (fun v => v.1) h

theorem capsView_protected {a b : TinyLfu} (h : a.capsView = b.capsView) :
    a.main.protectedList.capacity = b.main.protectedList.capacity :=
  congrArg (fun v => v.2.1) h

theorem capsView_amount {a b : TinyLfu} (h : a.capsView = b.capsView) :
    a.amount = b.amount :=
  congrArg (fun v => v.2.2.2.1) h

/-- C4 counterexample: on the freshly constructed capacity-1 policy (window
capacity 1, protected capacity 1, empty lists) with climber amount 1, a full
resize_window run raises window.cap + protected.cap from 2 to 3: the
tentative shift floors the protected capacity at 1 instead of letting it
drop to 0, and the residual reconciliation then adds the full amount back to
it. -/
theorem resize_window_sum_counterexample :
    (TinyLfu.resizeWindow { TinyLfu.new 1 with amount := 1 } []).1.window.list.capacity +
      (TinyLfu.resizeWindow { TinyLfu.new 1 with amount := 1 } []).1.main.protectedList.capacity = 3 ∧
    (TinyLfu.new 1).window.list.capacity +
      (TinyLfu.new 1).main.protectedList.capacity = 2 := by
  constructor <;> decide

/-- demote_from_protected preserves the capsView fields. -/
theorem TinyLfu.demoteFromProtected_capsView (t : TinyLfu) (es : EntriesMap) :
    (TinyLfu.demoteFromProtected t es).1.capsView = t.capsView :=
  TinyLfu.demoteLoop_capsView _ _ _

/-- The capsView fields of the tentative shift. -/
theorem TinyLfu.resizeShift_fields (t : TinyLfu) :
    (TinyLfu.resizeShift t).window.list.capacity =
      max (satAddSigned t.window.list.capacity t.amount) 1 ∧
    (TinyLfu.resizeShift t).main.protectedList.capacity =
      max (satAddSigned t.main.protectedList.capacity (-t.amount)) 1 ∧
    (TinyLfu.resizeShift t).amount = t.amount := by
  simp [TinyLfu.resizeShift]

/-- The final reconciliation's capacities. -/
theorem TinyLfu.resizeFinish_fields (t3 : TinyLfu) :
    (TinyLfu.resizeFinish t3).window.list.capacity =
      satAddSigned t3.window.list.capacity (-t3.amount) ∧
    (TinyLfu.resizeFinish t3).main.protectedList.capacity =
      satAddSigned t3.main.protectedList.capacity t3.amount := by
  simp [TinyLfu.resizeFinish]

/-- The move step for a positive amount: caps preserved, the residual lands
in the amount field and is at most the amount. -/
theorem TinyLfu.resizeMove_pos (t2 : TinyLfu) (es2 : EntriesMap)
    (h : 0 < t2.amount) :
    ∃ r : Nat, r ≤ t2.amount.toNat ∧
      (TinyLfu.resizeMove t2 es2).1.window.list.capacity =
        t2.window.list.capacity ∧
      (TinyLfu.resizeMove t2 es2).1.main.protectedList.capacity =
        t2.main.protectedList.capacity ∧
      (TinyLfu.resizeMove t2 es2).1.amount = (r : Int) := by
  have hi := TinyLfu.increaseWindowLoop_capsView t2.amount.toNat t2 es2
  refine ⟨(TinyLfu.increaseWindowLoop t2.amount.toNat t2 es2).2.2, hi.2,
    ?_, ?_, ?_⟩ <;>
    simp [TinyLfu.resizeMove, h, capsView_window hi.1,
      capsView_protected hi.1]

/-- The move step for a negative amount. -/
theorem TinyLfu.resizeMove_neg (t2 : TinyLfu) (es2 : EntriesMap)
    (h : t2.amount < 0) :
    ∃ r : Nat, r ≤ (-t2.amount).toNat ∧
      (TinyLfu.resizeMove t2 es2).1.window.list.capacity =
        t2.window.list.capacity ∧
      (TinyLfu.resizeMove t2 es2).1.main.protectedList.capacity =
        t2.main.protectedList.capacity ∧
      (TinyLfu.resizeMove t2 es2).1.amount = -(r : Int) := by
  have hnp : ¬ 0 < t2.amount := by omega
  have hi := TinyLfu.decreaseWindowLoop_capsView (-t2.amount).toNat t2 es2
  refine ⟨(TinyLfu.decreaseWindowLoop (-t2.amount).toNat t2 es2).2.2, hi.2,
    ?_, ?_, ?_⟩ <;>
    simp [TinyLfu.resizeMove, h, hnp, capsView_window hi.1,
      capsView_protected hi.1]

/-- The move step for amount zero does nothing. -/
theorem TinyLfu.resizeMove_zero (t2 : TinyLfu) (es2 : EntriesMap)
    (h : t2.amount = 0) : TinyLfu.resizeMove t2 es2 = (t2, es2) := by
  simp [TinyLfu.resizeMove, h]

/-- C4 (amended): resize_window preserves window.cap + protected.cap
whenever the tentative capacity shift keeps both capacities at least 1
without saturating (a positive amount at most protected.cap − 1, a negative
amount of magnitude at most window.cap − 1); when the floor at 1 or a
saturation engages, the sum can change. -/
theorem resize_window_preserves_cap_sum (t : TinyLfu) (es : EntriesMap)
    (hw : 1 ≤ t.window.list.capacity)
    (hp : 1 ≤ t.main.protectedList.capacity)
    (hpos : 0 < t.amount → t.amount + 1 ≤ (t.main.protectedList.capacity : Int))
    (hneg : t.amount < 0 → 1 ≤ (t.window.list.capacity : Int) + t.amount)
    (hbound : t.amount.natAbs + t.window.list.capacity +
      t.main.protectedList.capacity ≤ USIZE_MAX) :
    (TinyLfu.resizeWindow t es).1.window.list.capacity +
      (TinyLfu.resizeWindow t es).1.main.protectedList.capacity =
    t.window.list.capacity + t.main.protectedList.capacity := by
  obtain ⟨hsw, hsp, hsa⟩ := TinyLfu.resizeShift_fields t
  have hd := TinyLfu.demoteFromProtected_capsView (TinyLfu.resizeShift t) es
  have hdw := (capsView_window hd).trans hsw
  have hdp := (capsView_protected hd).trans hsp
  have hda := (capsView_amount hd).trans hsa
  simp only [TinyLfu.resizeWindow]
  rcases lt_trichotomy t.amount 0 with hlt | heq | hgt
  · have hm := TinyLfu.resizeMove_neg
      (TinyLfu.demoteFromProtected (TinyLfu.resizeShift t) es).1
      (TinyLfu.demoteFromProtected (TinyLfu.resizeShift t) es).2
      (by rw [hda]; exact hlt)
    obtain ⟨r, hr, hmw, hmp, hma⟩ := hm
    obtain ⟨hfw, hfp⟩ := TinyLfu.resizeFinish_fields
      (TinyLfu.resizeMove
        (TinyLfu.demoteFromProtected (TinyLfu.resizeShift t) es).1
        (TinyLfu.demoteFromProtected (TinyLfu.resizeShift t) es).2).1
    rw [hfw, hfp, hmw, hmp, hma, hdw, hdp]
    rw [hda] at hr
    have h1 := hneg hlt
    have e1 : satAddSigned t.window.list.capacity t.amount =
        ((t.window.list.capacity : Int) + t.amount).toNat := by
      have h0a : (0 : Int) ≤ (t.window.list.capacity : Int) + t.amount := by
        omega
      have h1a : (t.window.list.capacity : Int) + t.amount ≤
          (USIZE_MAX : Int) := by omega
      rw [satAddSigned_eq _ _ h0a h1a]
    have e2 : satAddSigned t.main.protectedList.capacity (-t.amount) =
        ((t.main.protectedList.capacity : Int) + -t.amount).toNat := by
      have h0a : (0 : Int) ≤ (t.main.protectedList.capacity : Int) +
          -t.amount := by omega
      have h1a : (t.main.protectedList.capacity : Int) + -t.amount ≤
          (USIZE_MAX : Int) := by omega
      rw [satAddSigned_eq _ _ h0a h1a]
    rw [e1, e2]
    have hrb : (r : Int) ≤ -t.amount := by omega
    have e3 : satAddSigned
        (max ((t.window.list.capacity : Int) + t.amount).toNat 1)
        (- -(r : Int)) =
        ((t.window.list.capacity : Int) + t.amount).toNat + r := by
      have h0a : (0 : Int) ≤
          ((max ((t.window.list.capacity : Int) + t.amount).toNat 1 : Nat)
            : Int) + - -(r : Int) := by omega
      have h1a :
          ((max ((t.window.list.capacity : Int) + t.amount).toNat 1 : Nat)
            : Int) + - -(r : Int) ≤ (USIZE_MAX : Int) := by omega
      rw [satAddSigned_eq _ _ h0a h1a]
      omega
    have e4 : satAddSigned
        (max ((t.main.protectedList.capacity : Int) + -t.amount).toNat 1)
        (-(r : Int)) =
        ((t.main.protectedList.capacity : Int) + -t.amount).toNat - r := by
      have h0a : (0 : Int) ≤
          ((max ((t.main.protectedList.capacity : Int) + -t.amount).toNat 1
            : Nat) : Int) + -(r : Int) := by omega
      have h1a :
          ((max ((t.main.protectedList.capacity : Int) + -t.amount).toNat 1
            : Nat) : Int) + -(r : Int) ≤ (USIZE_MAX : Int) := by omega
      rw [satAddSigned_eq _ _ h0a h1a]
      omega
    rw [e3, e4]
    omega
  · rw [TinyLfu.resizeMove_zero _ _ (by rw [hda]; exact heq)]
    obtain ⟨hfw, hfp⟩ := TinyLfu.resizeFinish_fields
      (TinyLfu.demoteFromProtected (TinyLfu.resizeShift t) es).1
    rw [hfw, hfp, hda, heq, hdw, hdp]
    have e1 : satAddSigned t.window.list.capacity t.amount =
        t.window.list.capacity := by
      rw [heq]
      have h0a : (0 : Int) ≤ (t.window.list.capacity : Int) + 0 := by omega
      have h1a : (t.window.list.capacity : Int) + 0 ≤ (USIZE_MAX : Int) := by
        omega
      rw [satAddSigned_eq _ _ h0a h1a]
      omega
    have e2 : satAddSigned t.main.protectedList.capacity (-t.amount) =
        t.main.protectedList.capacity := by
      rw [heq]
      have h0a : (0 : Int) ≤ (t.main.protectedList.capacity : Int) + -0 := by
        omega
      have h1a : (t.main.protectedList.capacity : Int) + -0 ≤
          (USIZE_MAX : Int) := by omega
      rw [satAddSigned_eq _ _ h0a h1a]
      omega
    rw [e1, e2]
    have e3 : satAddSigned (max t.window.list.capacity 1) (-0 : Int) =
        max t.window.list.capacity 1 := by
      have h0a : (0 : Int) ≤ ((max t.window.list.capacity 1 : Nat) : Int) +
          -0 := by omega
      have h1a : ((max t.window.list.capacity 1 : Nat) : Int) + -0 ≤
          (USIZE_MAX : Int) := by omega
      rw [satAddSigned_eq _ _ h0a h1a]
      omega
    have e4 : satAddSigned (max t.main.protectedList.capacity 1) (0 : Int) =
        max t.main.protectedList.capacity 1 := by
      have h0a : (0 : Int) ≤
          ((max t.main.protectedList.capacity 1 : Nat) : Int) + 0 := by omega
      have h1a : ((max t.main.protectedList.capacity 1 : Nat) : Int) + 0 ≤
          (USIZE_MAX : Int) := by omega
      rw [satAddSigned_eq _ _ h0a h1a]
      omega
    rw [e3, e4]
    omega
  · have hm := TinyLfu.resizeMove_pos
      (TinyLfu.demoteFromProtected (TinyLfu.resizeShift t) es).1
      (TinyLfu.demoteFromProtected (TinyLfu.resizeShift t) es).2
      (by rw [hda]; exact hgt)
    obtain ⟨r, hr, hmw, hmp, hma⟩ := hm
    obtain ⟨hfw, hfp⟩ := TinyLfu.resizeFinish_fields
      (TinyLfu.resizeMove
        (TinyLfu.demoteFromProtected (TinyLfu.resizeShift t) es).1
        (TinyLfu.demoteFromProtected (TinyLfu.resizeShift t) es).2).1
    rw [hfw, hfp, hmw, hmp, hma, hdw, hdp]
    rw [hda] at hr
    have h1 := hpos hgt
    have e1 : satAddSigned t.window.list.capacity t.amount =
        ((t.window.list.capacity : Int) + t.amount).toNat := by
      have h0a : (0 : Int) ≤ (t.window.list.capacity : Int) + t.amount := by
        omega
      have h1a : (t.window.list.capacity : Int) + t.amount ≤
          (USIZE_MAX : Int) := by omega
      rw [satAddSigned_eq _ _ h0a h1a]
    have e2 : satAddSigned t.main.protectedList.capacity (-t.amount) =
        ((t.main.protectedList.capacity : Int) + -t.amount).toNat := by
      have h0a : (0 : Int) ≤ (t.main.protectedList.capacity : Int) +
          -t.amount := by omega
      have h1a : (t.main.protectedList.capacity : Int) + -t.amount ≤
          (USIZE_MAX : Int) := by omega
      rw [satAddSigned_eq _ _ h0a h1a]
    rw [e1, e2]
    have hrb : (r : Int) ≤ t.amount := by omega
    have e3 : satAddSigned
        (max ((t.window.list.capacity : Int) + t.amount).toNat 1) (-(r : Int)) =
        ((t.window.list.capacity : Int) + t.amount).toNat - r := by
      have h0a : (0 : Int) ≤
          ((max ((t.window.list.capacity : Int) + t.amount).toNat 1 : Nat)
            : Int) + -(r : Int) := by omega
      have h1a :
          ((max ((t.window.list.capacity : Int) + t.amount).toNat 1 : Nat)
            : Int) + -(r : Int) ≤ (USIZE_MAX : Int) := by omega
      rw [satAddSigned_eq _ _ h0a h1a]
      omega
    have e4 : satAddSigned
        (max ((t.main.protectedList.capacity : Int) + -t.amount).toNat 1)
        ((r : Int)) =
        ((t.main.protectedList.capacity : Int) + -t.amount).toNat + r := by
      have h0a : (0 : Int) ≤
          ((max ((t.main.protectedList.capacity : Int) + -t.amount).toNat 1
            : Nat) : Int) + (r : Int) := by omega
      have h1a :
          ((max ((t.main.protectedList.capacity : Int) + -t.amount).toNat 1
            : Nat) : Int) + (r : Int) ≤ (USIZE_MAX : Int) := by omega
      rw [satAddSigned_eq _ _ h0a h1a]
      omega
    rw [e3, e4]
    omega

/-- C4 amended-claim witness at a concrete state: the capacity-10 policy with
climber amount 1 keeps window.cap + protected.cap equal to 8. -/
theorem resize_window_preserves_cap_sum_witness :
    (1 ≤ ({ TinyLfu.new 10 with amount := 1 } : TinyLfu).window.list.capacity ∧
     1 ≤ ({ TinyLfu.new 10 with amount := 1 } : TinyLfu).main.protectedList.capacity) ∧
    (TinyLfu.resizeWindow { TinyLfu.new 10 with amount := 1 } []).1.window.list.capacity +
      (TinyLfu.resizeWindow { TinyLfu.new 10 with amount := 1 } []).1.main.protectedList.capacity =
    ({ TinyLfu.new 10 with amount := 1 } : TinyLfu).window.list.capacity +
      ({ TinyLfu.new 10 with amount := 1 } : TinyLfu).main.protectedList.capacity := by
  refine ⟨by decide, ?_⟩
  exact resize_window_preserves_cap_sum _ _ (by decide) (by decide)
    (fun h => by decide) (fun h => absurd h (by decide)) (by decide)

/-- C5 counterexample: on the freshly constructed capacity-1000 policy the
protected list is empty (length 0) while its construction-time allocation
request (VecList::with_capacity argument, hence its allocated capacity) is
792, so a climb computing raw amount 62 keeps amount = 62, far above the
claimed cap |protected| = 0: the clamp reads the backing VecList's allocated
capacity, not the list length. -/
theorem climb_positive_clamp_counterexample :
    (TinyLfu.climb (TinyLfu.new 1000) 62 792).amount = 62 ∧
    (TinyLfu.new 1000).main.protectedList.len = 0 ∧
    (TinyLfu.new 1000).main.protectedList.capacity = 792 ∧
    ¬ ((62 : Int) ≤ ((TinyLfu.new 1000).main.protectedList.len : Int)) := by
  refine ⟨by decide, by decide, by decide, by decide⟩

/-- C5 (amended): after climb, a positive amount is capped at the protected
dlv_list's allocated capacity (VecList::capacity(), which is at least the
list's length but in general exceeds it), and a negative amount is capped at
−(window.cap − 1), so the window always retains at least one slot. -/
theorem climb_clamp_bounds (t : TinyLfu) (raw : Int) (protectedVecCap : Nat)
    (hw : 1 ≤ t.window.list.capacity) :
    (0 < (TinyLfu.climb t raw protectedVecCap).amount →
      (TinyLfu.climb t raw protectedVecCap).amount ≤ (protectedVecCap : Int)) ∧
    ((TinyLfu.climb t raw protectedVecCap).amount < 0 →
      ((TinyLfu.climb t raw protectedVecCap).amount).natAbs ≤
        t.window.list.capacity - 1) := by
  simp only [TinyLfu.climb]
  split
  · split <;> constructor <;> omega
  · split <;> constructor <;> omega

/-- C5 amended-claim witness: climbing the fresh capacity-10 policy with raw
amount −5 clamps to window.cap − 1 = 0 slots of shrink. -/
theorem climb_clamp_bounds_witness :
    1 ≤ (TinyLfu.new 10).window.list.capacity ∧
    ((0 < (TinyLfu.climb (TinyLfu.new 10) (-5) 3).amount →
      (TinyLfu.climb (TinyLfu.new 10) (-5) 3).amount ≤ (3 : Int)) ∧
     ((TinyLfu.climb (TinyLfu.new 10) (-5) 3).amount < 0 →
      ((TinyLfu.climb (TinyLfu.new 10) (-5) 3).amount).natAbs ≤
        (TinyLfu.new 10).window.list.capacity - 1)) := by
  refine ⟨by decide, ?_⟩
  have h := climb_clamp_bounds (TinyLfu.new 10) (-5) 3 (by decide)
  exact h

/-- C6 counterexample: in one facade set batch over a fresh capacity-2 cache
at clock reading 0, the batch [(1, 5ns), (1, 0)] leaves key 1 with
expire = 0 and no wheel index, while the batch [(1, 5ns)] alone leaves
expire = 5 with a wheel index: the second batch element with the same
admitted key was re-processed (the dedupe set only holds evicted keys). -/
theorem set_batch_reprocesses_admitted_key :
    (((TlfuCore.new 2 0).set [(1, 5), (1, 0)] 0 0 0).1.entries.find 1).map
        Entry.expire = some 0 ∧
    (((TlfuCore.new 2 0).set [(1, 5), (1, 0)] 0 0 0).1.entries.find 1).map
        Entry.wheel_list_index = some false ∧
    (((TlfuCore.new 2 0).set [(1, 5)] 0 0 0).1.entries.find 1).map
        Entry.expire = some 5 ∧
    (((TlfuCore.new 2 0).set [(1, 5)] 0 0 0).1.entries.find 1).map
        Entry.wheel_list_index = some true := by
  refine ⟨by decide, by decide, by decide, by decide⟩

/-- C6 (amended): within a set batch, the dedupe guard skips a later element
only when its key is already in this call's evicted set; a later element
whose key was merely admitted earlier (still present in the entries map) is
re-processed, and resets the entry's expiration to the later element's ttl. -/
theorem set_step_dedupes_evicted_only (c : TlfuCore) (evicted : List Nat)
    (key : Nat) (ttl : Int) (now : Nat) (raw : Int) (pvc : Nat)
    (httl : ttl ≠ -1) :
    (evicted.contains key = true →
      TlfuCore.setStep c evicted key ttl now raw pvc = (c, evicted)) ∧
    (evicted.contains key = false → c.entries.mem key = true →
      ((TlfuCore.setStep c evicted key ttl now raw pvc).1.entries.find key).map
          Entry.expire = some (expireNs now ttl.natAbs) ∧
      (TlfuCore.setStep c evicted key ttl now raw pvc).2 = evicted) := by
  constructor
  · intro hcont
    have hmem2 : key ∈ evicted := by simpa using hcont
    simp [TlfuCore.setStep, httl, hmem2]
  · intro hcont hmem
    obtain ⟨e, hfind⟩ : ∃ e, c.entries.find key = some e := by
      unfold EntriesMap.mem at hmem
      exact Option.isSome_iff_exists.mp hmem
    have hf2 : EntriesMap.find
        (c.entries.adjust key fun e2 => { e2 with expire := expireNs now ttl.natAbs })
        key = some { e with expire := expireNs now ttl.natAbs } := by
      rw [EntriesMap.find_adjust]
      simp [hfind]
    have hnone : (TlfuCore.setEntryExisting c key ttl.natAbs now).2 = none := by
      simp only [TlfuCore.setEntryExisting, hf2]
    have hrun : TlfuCore.setStep c evicted key ttl now raw pvc =
        ((TlfuCore.setEntryExisting c key ttl.natAbs now).1, evicted) := by
      simp only [TlfuCore.setStep, httl, hcont, if_false, Bool.false_eq_true,
        reduceIte, TlfuCore.setEntry, hfind, hnone]
    rw [hrun]
    refine ⟨?_, rfl⟩
    simp only [TlfuCore.setEntryExisting, hf2]
    rw [EntriesMap.find_adjust]
    simp [hf2, TimerWheel.schedule_expire]

/-- C6 amended-claim witness: concrete instance on a one-entry cache. -/
theorem set_step_dedupes_evicted_only_witness :
    ((0 : Int) ≠ -1) ∧
    (([5] : List Nat).contains 1 = false) ∧
    (((TlfuCore.new 2 0).set [(1, 7)] 0 0 0).1.entries.mem 1 = true) ∧
    ((TlfuCore.setStep ((TlfuCore.new 2 0).set [(1, 7)] 0 0 0).1 [5] 1 0 0 0 0).1.entries.find 1).map
        Entry.expire = some (expireNs 0 (0 : Int).natAbs) := by
  refine ⟨by decide, by decide, by decide, ?_⟩
  exact ((set_step_dedupes_evicted_only _ [5] 1 0 0 0 0 (by decide)).2
    (by decide) (by decide)).1

set_option maxRecDepth 8000 in
/-- C3 counterexample: on a fresh capacity-3 cache, after the facade calls
set [(1,0)..(5,0)], access [1], access [2] have all returned (a public-API
quiescent point), the protected list holds 2 keys while protected.cap = 1:
the SLRU promotion on access inserts into protected without any demotion. -/
theorem access_promotion_overflows_protected :
    ((((TlfuCore.new 3 0).set [(1,0),(2,0),(3,0),(4,0),(5,0)] 0 0 0).1.access
        [1] 0 0 0).access [2] 0 0 0).policy.main.protectedList.len = 2 ∧
    ((((TlfuCore.new 3 0).set [(1,0),(2,0),(3,0),(4,0),(5,0)] 0 0 0).1.access
        [1] 0 0 0).access [2] 0 0 0).policy.main.protectedList.capacity = 1 := by
  refine ⟨by decide, by decide⟩

/-- The demotion loop leaves a protected length within the protected
capacity, given enough fuel and that every protected key is in the entries
map (so the pop-and-get never breaks early). -/
theorem TinyLfu.demoteLoop_bound (n : Nat) (t : TinyLfu) (es : EntriesMap)
    (hcov : ∀ k ∈ t.main.protectedList.items, es.mem k = true)
    (hfuel : t.main.protectedList.len ≤ t.main.protectedList.capacity + n) :
    (TinyLfu.demoteLoop n t es).1.main.protectedList.len ≤
      (TinyLfu.demoteLoop n t es).1.main.protectedList.capacity := by
  induction n generalizing t es with
  | zero => simpa [TinyLfu.demoteLoop] using hfuel
  | succ n ih =>
    by_cases hle : t.main.protectedList.len ≤ t.main.protectedList.capacity
    · simp [TinyLfu.demoteLoop, hle]
    · rcases hpop : t.main.protectedList.items.getLast? with _ | k
      · rw [List.getLast?_eq_none_iff] at hpop
        exfalso
        apply hle
        simp [PList.len, hpop]
      · rcases hfind : es.find k with _ | e
        · exfalso
          have hk : k ∈ t.main.protectedList.items :=
            List.mem_of_getLast?_eq_some hpop
          have := hcov k hk
          rw [EntriesMap.mem, hfind] at this
          simp at this
        · simp only [TinyLfu.demoteLoop, hle, PList.popTail, hpop, hfind,
            if_false]
          apply ih
          · intro k2 hk2
            rw [EntriesMap.mem_adjust]
            apply hcov
            exact List.dropLast_subset _ (by simpa [Slru.insert] using hk2)
          · simp only [Slru.insert, PList.len]
            simp only [PList.len] at hfuel
            simp [List.length_dropLast]
            omega

/-- demote_from_protected establishes the protected-capacity bound whenever
every protected key is present in the entries map. -/
theorem TinyLfu.demoteFromProtected_bound (t : TinyLfu) (es : EntriesMap)
    (hcov : ∀ k ∈ t.main.protectedList.items, es.mem k = true) :
    (TinyLfu.demoteFromProtected t es).1.main.protectedList.len ≤
      (TinyLfu.demoteFromProtected t es).1.main.protectedList.capacity :=
  TinyLfu.demoteLoop_bound _ _ _ hcov (Nat.le_add_left _ _)

/-- The demotion loop only pops protected items and never touches the
entries-map domain. -/
theorem TinyLfu.demoteLoop_shrink (n : Nat) (t : TinyLfu) (es : EntriesMap) :
    (TinyLfu.demoteLoop n t es).1.main.protectedList.items ⊆
      t.main.protectedList.items ∧
    (∀ k2, ((TinyLfu.demoteLoop n t es).2).mem k2 = es.mem k2) := by
  induction n generalizing t es with
  | zero => simp [TinyLfu.demoteLoop]
  | succ n ih =>
    by_cases hle : t.main.protectedList.len ≤ t.main.protectedList.capacity
    · simp [TinyLfu.demoteLoop, hle]
    · rcases hpop : t.main.protectedList.items.getLast? with _ | k
      · simp [TinyLfu.demoteLoop, hle, PList.popTail, hpop]
      · rcases hfind : es.find k with _ | e
        · simp only [TinyLfu.demoteLoop, hle, PList.popTail, hpop, hfind,
            if_false]
          refine ⟨List.dropLast_subset _, ?_⟩
          simp
        · simp only [TinyLfu.demoteLoop, hle, PList.popTail, hpop, hfind,
            if_false]
          constructor
          · refine List.Subset.trans ?_ (List.dropLast_subset _)
            simpa [Slru.insert] using (ih _ _).1
          · intro k2
            rw [(ih _ _).2 k2, EntriesMap.mem_adjust]

/-- increase_window only erases from the main lists (and pushes into the
window) and never touches the entries-map domain. -/
theorem TinyLfu.increaseWindowLoop_shrink (n : Nat) (t : TinyLfu)
    (es : EntriesMap) :
    (TinyLfu.increaseWindowLoop n t es).1.main.protectedList.items ⊆
      t.main.protectedList.items ∧
    (∀ k2, ((TinyLfu.increaseWindowLoop n t es).2.1).mem k2 = es.mem k2) := by
  induction n generalizing t es with
  | zero => simp [TinyLfu.increaseWindowLoop]
  | succ n ih =>
    rcases hkey : (match t.main.probation.tailKey with
                   | some k => some k
                   | none => t.main.protectedList.tailKey) with _ | k
    · simp [TinyLfu.increaseWindowLoop, hkey]
    · rcases hfind : es.find k with _ | e
      · simpa only [TinyLfu.increaseWindowLoop, hkey, hfind] using ih t es
      · rcases hrem : t.main.remove e k with _ | main2
        · simpa only [TinyLfu.increaseWindowLoop, hkey, hfind, hrem] using
            ih t es
        · simp only [TinyLfu.increaseWindowLoop, hkey, hfind, hrem]
          have hsub : main2.protectedList.items ⊆
              t.main.protectedList.items := by
            unfold Slru.remove at hrem
            split at hrem
            · exact absurd hrem (by simp)
            · split at hrem
              · cases hrem; simp [PList.removeKey]
              · split at hrem
                · cases hrem
                  simp only [PList.removeKey]
                  exact List.erase_subset _ _
                · exact absurd hrem (by simp)
          constructor
          · refine List.Subset.trans ?_ hsub
            simpa [Lru.insert] using (ih _ _).1
          · intro k2
            rw [(ih _ _).2 k2, EntriesMap.mem_adjust]

/-- decrease_window leaves the protected list untouched and never touches
the entries-map domain. -/
theorem TinyLfu.decreaseWindowLoop_shrink (n : Nat) (t : TinyLfu)
    (es : EntriesMap) :
    (TinyLfu.decreaseWindowLoop n t es).1.main.protectedList.items =
      t.main.protectedList.items ∧
    (∀ k2, ((TinyLfu.decreaseWindowLoop n t es).2.1).mem k2 = es.mem k2) := by
  induction n generalizing t es with
  | zero => simp [TinyLfu.decreaseWindowLoop]
  | succ n ih =>
    rcases hkey : t.window.list.tailKey with _ | k
    · simp [TinyLfu.decreaseWindowLoop, hkey]
    · rcases hfind : es.find k with _ | e
      · simpa only [TinyLfu.decreaseWindowLoop, hkey, hfind] using ih t es
      · rcases hrem : t.window.remove e k with _ | w2
        · simpa only [TinyLfu.decreaseWindowLoop, hkey, hfind, hrem] using
            ih t es
        · simp only [TinyLfu.decreaseWindowLoop, hkey, hfind, hrem]
          constructor
          · rw [(ih _ _).1]
            simp [Slru.insert]
          · intro k2
            rw [(ih _ _).2 k2, EntriesMap.mem_adjust]

/-- resize_window only shrinks the protected list's item set and never
touches the entries-map domain. -/
theorem TinyLfu.resizeWindow_shrink (t : TinyLfu) (es : EntriesMap) :
    (TinyLfu.resizeWindow t es).1.main.protectedList.items ⊆
      t.main.protectedList.items ∧
    (∀ k2, ((TinyLfu.resizeWindow t es).2).mem k2 = es.mem k2) := by
  simp only [TinyLfu.resizeWindow, TinyLfu.demoteFromProtected]
  have hd := TinyLfu.demoteLoop_shrink
    ((TinyLfu.resizeShift t).main.protectedList.len) (TinyLfu.resizeShift t) es
  have hshift : (TinyLfu.resizeShift t).main.protectedList.items =
      t.main.protectedList.items := by
    simp [TinyLfu.resizeShift]
  unfold TinyLfu.resizeMove
  split
  · have hi := TinyLfu.increaseWindowLoop_shrink
      ((TinyLfu.demoteLoop ((TinyLfu.resizeShift t).main.protectedList.len)
        (TinyLfu.resizeShift t) es).1.amount.toNat)
      (TinyLfu.demoteLoop ((TinyLfu.resizeShift t).main.protectedList.len)
        (TinyLfu.resizeShift t) es).1
      (TinyLfu.demoteLoop ((TinyLfu.resizeShift t).main.protectedList.len)
        (TinyLfu.resizeShift t) es).2
    constructor
    · simp only [TinyLfu.resizeFinish]
      refine List.Subset.trans hi.1 ?_
      rw [← hshift]
      exact hd.1
    · intro k2
      rw [hi.2 k2, hd.2 k2]
  · split
    · have hi := TinyLfu.decreaseWindowLoop_shrink
        ((-(TinyLfu.demoteLoop ((TinyLfu.resizeShift t).main.protectedList.len)
          (TinyLfu.resizeShift t) es).1.amount).toNat)
        (TinyLfu.demoteLoop ((TinyLfu.resizeShift t).main.protectedList.len)
          (TinyLfu.resizeShift t) es).1
        (TinyLfu.demoteLoop ((TinyLfu.resizeShift t).main.protectedList.len)
          (TinyLfu.resizeShift t) es).2
      constructor
      · simp only [TinyLfu.resizeFinish]
        rw [hi.1, ← hshift]
        exact hd.1
      · intro k2
        rw [hi.2 k2, hd.2 k2]
    · constructor
      · simp only [TinyLfu.resizeFinish]
        rw [← hshift]
        exact hd.1
      · intro k2
        exact hd.2 k2

/-- The window drain never touches the protected list or the entries-map
domain. -/
theorem TinyLfu.evictFromWindowLoop_protected (n : Nat) (t : TinyLfu)
    (es : EntriesMap) (first : Option Nat) :
    (TinyLfu.evictFromWindowLoop n t es first).1.main.protectedList =
      t.main.protectedList ∧
    (∀ k2, ((TinyLfu.evictFromWindowLoop n t es first).2.1).mem k2 =
      es.mem k2) := by
  induction n generalizing t es first with
  | zero => simp [TinyLfu.evictFromWindowLoop]
  | succ n ih =>
    by_cases hle : t.window.list.len ≤ t.window.list.capacity
    · simp [TinyLfu.evictFromWindowLoop, hle]
    · rcases hpop : t.window.list.items.getLast? with _ | k
      · simpa only [TinyLfu.evictFromWindowLoop, hle, PList.popTail, hpop,
          if_false] using ih t es first
      · rcases hfind : es.find k with _ | e
        · simpa only [TinyLfu.evictFromWindowLoop, hle, PList.popTail, hpop,
            hfind, if_false] using ih _ es _
        · simp only [TinyLfu.evictFromWindowLoop, hle, PList.popTail, hpop,
            hfind, if_false]
          constructor
          · rw [(ih _ _ _).1]
            simp [Slru.insert]
          · intro k2
            rw [(ih _ _ _).2 k2, EntriesMap.mem_adjust]

/-- TinyLfu::remove keeps the protected capacity and never grows the
protected length. -/
theorem TinyLfu.removeEntry_protected (t : TinyLfu) (e : Entry) (k : Nat)
    (t2 : TinyLfu) (h : t.removeEntry e k = some t2) :
    t2.main.protectedList.capacity = t.main.protectedList.capacity ∧
    t2.main.protectedList.len ≤ t.main.protectedList.len := by
  unfold TinyLfu.removeEntry at h
  split at h
  · cases h; exact ⟨rfl, le_refl _⟩
  · split at h
    · rcases hrem : t.window.remove e k with _ | w2 <;> rw [hrem] at h
      · exact absurd h (by simp)
      · cases h; exact ⟨rfl, le_refl _⟩
    · split at h
      · rcases hrem : t.main.remove e k with _ | m2 <;> rw [hrem] at h
        · exact absurd h (by simp)
        · cases h
          unfold Slru.remove at hrem
          split at hrem
          · exact absurd hrem (by simp)
          · split at hrem
            · cases hrem; exact ⟨rfl, le_refl _⟩
            · split at hrem
              · cases hrem
                refine ⟨rfl, ?_⟩
                simp only [PList.removeKey, PList.len]
                exact List.length_erase_le _ _
              · exact absurd hrem (by simp)
      · exact absurd h (by simp)

/-- One eviction site keeps the protected capacity and never grows the
protected length. -/
theorem TinyLfu.evictOne_protected (t : TinyLfu) (es : EntriesMap)
    (ev old : Option Nat) (r : TinyLfu × Option Nat)
    (h : t.evictOne es ev old = some r) :
    r.1.main.protectedList.capacity = t.main.protectedList.capacity ∧
    r.1.main.protectedList.len ≤ t.main.protectedList.len := by
  unfold TinyLfu.evictOne at h
  split at h
  · cases h; exact ⟨rfl, le_refl _⟩
  · split at h
    · cases h; exact ⟨rfl, le_refl _⟩
    · rename_i k hk e he
      rcases hrem : t.removeEntry e k with _ | t2 <;> rw [hrem] at h
      · exact absurd h (by simp)
      · cases h
        exact TinyLfu.removeEntry_protected t e k t2 hrem

/-- The main eviction loop passes the entries map through untouched, keeps
the protected capacity and never grows the protected length, whatever its
outcome. -/
theorem TinyLfu.evictFromMainLoop_shrink (n : Nat) (t : TinyLfu)
    (es : EntriesMap) (c : EvictCursor) :
    (TinyLfu.evictFromMainLoop n t es c).entriesOf = es ∧
    (TinyLfu.evictFromMainLoop n t es c).policy.main.protectedList.capacity =
      t.main.protectedList.capacity ∧
    (TinyLfu.evictFromMainLoop n t es c).policy.main.protectedList.len ≤
      t.main.protectedList.len := by
  induction n generalizing t es c with
  | zero =>
    unfold TinyLfu.evictFromMainLoop
    split <;> exact ⟨rfl, rfl, le_refl _⟩
  | succ n ih =>
    unfold TinyLfu.evictFromMainLoop
    split
    · exact ⟨rfl, rfl, le_refl _⟩
    · split
      all_goals
        try simp only []
      all_goals
        split
        · exact ih _ _ _
        · split
          · exact ih _ _ _
          · split
            · split
              · exact ⟨rfl, rfl, le_refl _⟩
              · split
                · exact ⟨rfl, rfl, le_refl _⟩
                · rename_i r hr
                  exact ⟨(ih _ _ _).1,
                    ((ih _ _ _).2.1).trans
                      (TinyLfu.evictOne_protected _ _ _ _ _ hr).1,
                    le_trans ((ih _ _ _).2.2)
                      (TinyLfu.evictOne_protected _ _ _ _ _ hr).2⟩
            · split
              · split
                · exact ⟨rfl, rfl, le_refl _⟩
                · split
                  · exact ⟨rfl, rfl, le_refl _⟩
                  · rename_i r hr
                    exact ⟨(ih _ _ _).1,
                      ((ih _ _ _).2.1).trans
                        (TinyLfu.evictOne_protected _ _ _ _ _ hr).1,
                      le_trans ((ih _ _ _).2.2)
                        (TinyLfu.evictOne_protected _ _ _ _ _ hr).2⟩
              · split
                · split
                  · exact ⟨rfl, rfl, le_refl _⟩
                  · split
                    · exact ⟨rfl, rfl, le_refl _⟩
                    · rename_i r hr
                      exact ⟨(ih _ _ _).1,
                        ((ih _ _ _).2.1).trans
                          (TinyLfu.evictOne_protected _ _ _ _ _ hr).1,
                        le_trans ((ih _ _ _).2.2)
                          (TinyLfu.evictOne_protected _ _ _ _ _ hr).2⟩
                · split
                  · split
                    · split
                      · exact ⟨rfl, rfl, le_refl _⟩
                      · split
                        · exact ⟨rfl, rfl, le_refl _⟩
                        · rename_i r hr
                          split
                          · exact ⟨rfl,
                              (TinyLfu.evictOne_protected _ _ _ _ _ hr).1,
                              (TinyLfu.evictOne_protected _ _ _ _ _ hr).2⟩
                          · exact ⟨(ih _ _ _).1,
                              ((ih _ _ _).2.1).trans
                                (TinyLfu.evictOne_protected _ _ _ _ _ hr).1,
                              le_trans ((ih _ _ _).2.2)
                                (TinyLfu.evictOne_protected _ _ _ _ _ hr).2⟩
                    · split
                      · exact ⟨rfl, rfl, le_refl _⟩
                      · split
                        · exact ⟨rfl, rfl, le_refl _⟩
                        · rename_i r hr
                          exact ⟨(ih _ _ _).1,
                            ((ih _ _ _).2.1).trans
                              (TinyLfu.evictOne_protected _ _ _ _ _ hr).1,
                            le_trans ((ih _ _ _).2.2)
                              (TinyLfu.evictOne_protected _ _ _ _ _ hr).2⟩
                  · exact ⟨rfl, rfl, le_refl _⟩

/-- climb changes only the sample counters and the amount. -/
theorem TinyLfu.climb_lists (t : TinyLfu) (raw : Int) (pvc : Nat) :
    (TinyLfu.climb t raw pvc).main = t.main ∧
    (TinyLfu.climb t raw pvc).window = t.window := by
  simp [TinyLfu.climb]

/-- The adaptation trigger only shrinks the protected item set and never
touches the entries-map domain. -/
theorem TinyLfu.setTrigger_shrink (t : TinyLfu) (es : EntriesMap) (raw : Int)
    (pvc : Nat) :
    (TinyLfu.setTrigger t es raw pvc).1.main.protectedList.items ⊆
      t.main.protectedList.items ∧
    (∀ k2, ((TinyLfu.setTrigger t es raw pvc).2).mem k2 = es.mem k2) := by
  unfold TinyLfu.setTrigger
  split
  · have hr := TinyLfu.resizeWindow_shrink (TinyLfu.climb t raw pvc) es
    constructor
    · intro k hk
      have := hr.1 hk
      rwa [(TinyLfu.climb_lists t raw pvc).1] at this
    · exact hr.2
  · exact ⟨fun k hk => hk, fun k2 => rfl⟩

/-- The admission step never touches the main lists or the entries-map
domain. -/
theorem TinyLfu.setAdmit_main (t1 : TinyLfu) (key : Nat) (es1 : EntriesMap) :
    (TinyLfu.setAdmit t1 key es1).1.main = t1.main ∧
    (∀ k2, ((TinyLfu.setAdmit t1 key es1).2).mem k2 = es1.mem k2) := by
  unfold TinyLfu.setAdmit
  rcases hfind : es1.find key with _ | e
  · simp [hfind]
  · simp only [hfind]
    by_cases hid : e.policy_list_id = 0
    · constructor
      · simp [hid]
      · intro k2
        simp [hid, EntriesMap.mem_adjust]
    · constructor
      · simp [hid]
      · intro k2
        simp [hid]

/-- C3 (amended): every policy set call returns with the protected list
within its capacity (given that the protected keys are present in the
entries map, the section-3 metadata invariant): the demotion step inside set
runs after the resize and the window admission, and the eviction protocol
afterwards only shrinks the protected list.  (An access that promotes can
still exceed the capacity, as the counterexample run shows.) -/
theorem tinylfu_set_protected_within_cap (t : TinyLfu) (key : Nat)
    (es : EntriesMap) (raw : Int) (pvc : Nat)
    (hcov : ∀ k ∈ t.main.protectedList.items, es.mem k = true) :
    (TinyLfu.set t key es raw pvc).1.main.protectedList.len ≤
      (TinyLfu.set t key es raw pvc).1.main.protectedList.capacity := by
  have h0 := TinyLfu.setTrigger_shrink t es raw pvc
  have h1 := TinyLfu.setAdmit_main (TinyLfu.setTrigger t es raw pvc).1 key
    (TinyLfu.setTrigger t es raw pvc).2
  have hcov1 : ∀ k ∈ (TinyLfu.setAdmit (TinyLfu.setTrigger t es raw pvc).1 key
      (TinyLfu.setTrigger t es raw pvc).2).1.main.protectedList.items,
      ((TinyLfu.setAdmit (TinyLfu.setTrigger t es raw pvc).1 key
        (TinyLfu.setTrigger t es raw pvc).2).2).mem k = true := by
    intro k hk
    rw [h1.1] at hk
    rw [h1.2 k, h0.2 k]
    exact hcov k (h0.1 hk)
  have hde := TinyLfu.demoteFromProtected_bound _ _ hcov1
  unfold TinyLfu.set
  simp only []
  unfold TinyLfu.evictEntries
  simp only []
  set de := TinyLfu.demoteFromProtected
    (TinyLfu.setAdmit (TinyLfu.setTrigger t es raw pvc).1 key
      (TinyLfu.setTrigger t es raw pvc).2).1
    (TinyLfu.setAdmit (TinyLfu.setTrigger t es raw pvc).1 key
      (TinyLfu.setTrigger t es raw pvc).2).2
  set wr := TinyLfu.evictFromWindowLoop de.1.window.list.len de.1 de.2 none
  have hwp := TinyLfu.evictFromWindowLoop_protected de.1.window.list.len de.1
    de.2 none
  have hwlen : wr.1.main.protectedList.len ≤
      wr.1.main.protectedList.capacity := by
    show (TinyLfu.evictFromWindowLoop de.1.window.list.len de.1 de.2
      none).1.main.protectedList.len ≤ _
    rw [hwp.1]
    exact hde
  have hml := TinyLfu.evictFromMainLoop_shrink (TinyLfu.evictFuel wr.1) wr.1
    wr.2.1
    { victim_queue := PolicyQueue.Probation,
      candidate_queue := PolicyQueue.Probation,
      victim := wr.1.main.probation.tailKey, candidate := wr.2.2,
      evicted := none }
  split <;> rename_i heq <;> rw [heq] at hml <;>
    simp only [EvictOutcome.policy] at hml <;>
    exact le_trans hml.2.2 (hml.2.1 ▸ hwlen)

/-- C3 amended-claim witness: concrete policy set call on a one-entry map. -/
theorem tinylfu_set_protected_within_cap_witness :
    (∀ k ∈ (TinyLfu.new 3).main.protectedList.items,
      EntriesMap.mem [(7, Entry.mk0)] k = true) ∧
    (TinyLfu.set (TinyLfu.new 3) 7 [(7, Entry.mk0)] 0 0).1.main.protectedList.len ≤
      (TinyLfu.set (TinyLfu.new 3) 7 [(7, Entry.mk0)] 0 0).1.main.protectedList.capacity := by
  refine ⟨by decide, ?_⟩
  exact tinylfu_set_protected_within_cap (TinyLfu.new 3) 7 [(7, Entry.mk0)] 0 0
    (by decide)

/-- demote_from_protected never touches the entries-map domain. -/
theorem TinyLfu.demoteFromProtected_mem (t : TinyLfu) (es : EntriesMap)
    (k2 : Nat) :
    ((TinyLfu.demoteFromProtected t es).2).mem k2 = es.mem k2 :=
  (TinyLfu.demoteLoop_shrink _ _ _).2 k2

/-- A whole policy set call never touches the entries-map domain: every
entries mutation inside it is an in-place adjust. -/
theorem TinyLfu.set_mem (t : TinyLfu) (key : Nat) (es : EntriesMap)
    (raw : Int) (pvc : Nat) (k2 : Nat) :
    ((TinyLfu.set t key es raw pvc).2.1).mem k2 = es.mem k2 := by
  have h0 := TinyLfu.setTrigger_shrink t es raw pvc
  have h1 := TinyLfu.setAdmit_main (TinyLfu.setTrigger t es raw pvc).1 key
    (TinyLfu.setTrigger t es raw pvc).2
  unfold TinyLfu.set
  simp only []
  unfold TinyLfu.evictEntries
  simp only []
  set de := TinyLfu.demoteFromProtected
    (TinyLfu.setAdmit (TinyLfu.setTrigger t es raw pvc).1 key
      (TinyLfu.setTrigger t es raw pvc).2).1
    (TinyLfu.setAdmit (TinyLfu.setTrigger t es raw pvc).1 key
      (TinyLfu.setTrigger t es raw pvc).2).2 with hdedef
  set wr := TinyLfu.evictFromWindowLoop de.1.window.list.len de.1 de.2 none
    with hwrdef
  have hwp := TinyLfu.evictFromWindowLoop_protected de.1.window.list.len de.1
    de.2 none
  have hchain : wr.2.1.mem k2 = es.mem k2 := by
    show (TinyLfu.evictFromWindowLoop de.1.window.list.len de.1 de.2
      none).2.1.mem k2 = es.mem k2
    rw [hwp.2 k2]
    rw [hdedef]
    rw [TinyLfu.demoteFromProtected_mem _ _ k2, h1.2 k2, h0.2 k2]
  have hml := TinyLfu.evictFromMainLoop_shrink (TinyLfu.evictFuel wr.1) wr.1
    wr.2.1
    { victim_queue := PolicyQueue.Probation,
      candidate_queue := PolicyQueue.Probation,
      victim := wr.1.main.probation.tailKey, candidate := wr.2.2,
      evicted := none }
  split <;> rename_i heq <;> rw [heq] at hml <;>
    simp only [EvictOutcome.entriesOf] at hml <;>
    simp only [] <;> rw [hml.1] <;> exact hchain

/-- Dropping an evicted key removes exactly that key from the entries map. -/
theorem TlfuCore.dropEvicted_mem (c2 : TlfuCore) (ek : Nat) (k2 : Nat) :
    ((c2.dropEvicted ek).entries).mem k2 =
      (!(k2 = ek) && c2.entries.mem k2) := by
  rcases hfind : c2.entries.find ek with _ | e3 <;>
    simp only [TlfuCore.dropEvicted, hfind] <;>
    rw [EntriesMap.mem_erase]
  rw [EntriesMap.mem_adjust]

/-- The eviction tail of set_entry introduces no key into the entries map. -/
theorem TlfuCore.setEntryOutcome_mem (c2 : TlfuCore) (evb : Option Nat × Bool)
    (k2 : Nat)
    (h : ((TlfuCore.setEntryOutcome c2 evb).1.entries).mem k2 = true) :
    c2.entries.mem k2 = true := by
  unfold TlfuCore.setEntryOutcome at h
  split at h
  · split at h
    · simp only [] at h
      rw [TlfuCore.dropEvicted_mem] at h
      exact (Bool.and_eq_true_iff.mp h).2
    · exact h
  · exact h

/-- When the eviction tail reports an evicted key, that key is gone from the
entries map. -/
theorem TlfuCore.setEntryOutcome_gone (c2 : TlfuCore)
    (evb : Option Nat × Bool) (ek : Nat)
    (h : (TlfuCore.setEntryOutcome c2 evb).2 = some ek) :
    ((TlfuCore.setEntryOutcome c2 evb).1.entries).mem ek = false := by
  rcases evb with ⟨ev, b⟩
  cases b
  · simp only [TlfuCore.setEntryOutcome, Bool.false_eq_true, reduceIte] at h
    exact absurd h (by simp)
  · rcases ev with _ | ek2
    · simp only [TlfuCore.setEntryOutcome, reduceIte] at h
      exact absurd h (by simp)
    · simp only [TlfuCore.setEntryOutcome, reduceIte] at h ⊢
      cases h
      rw [TlfuCore.dropEvicted_mem]
      simp

/-- The policy-running tail of the fresh-key path introduces no key into the
entries map. -/
theorem TlfuCore.setEntryFinish_mem (c1 : TlfuCore) (key : Nat) (raw : Int)
    (pvc : Nat) (k2 : Nat)
    (h : ((TlfuCore.setEntryFinish c1 key raw pvc).1.entries).mem k2 = true) :
    c1.entries.mem k2 = true := by
  unfold TlfuCore.setEntryFinish at h
  have h2 := TlfuCore.setEntryOutcome_mem _ _ k2 h
  simp only [] at h2
  rw [TinyLfu.set_mem] at h2
  exact h2

/-- When the fresh-key path reports an evicted key, that key is gone. -/
theorem TlfuCore.setEntryFinish_gone (c1 : TlfuCore) (key : Nat) (raw : Int)
    (pvc : Nat) (ek : Nat)
    (h : (TlfuCore.setEntryFinish c1 key raw pvc).2 = some ek) :
    ((TlfuCore.setEntryFinish c1 key raw pvc).1.entries).mem ek = false := by
  unfold TlfuCore.setEntryFinish at h ⊢
  exact TlfuCore.setEntryOutcome_gone _ _ ek h

/-- The existing-key path never changes the entries-map domain and reports
no eviction. -/
theorem TlfuCore.setEntryExisting_mem (c : TlfuCore) (key ttl now : Nat)
    (k2 : Nat) :
    ((TlfuCore.setEntryExisting c key ttl now).1.entries).mem k2 =
      c.entries.mem k2 ∧
    (TlfuCore.setEntryExisting c key ttl now).2 = none := by
  rcases hfind : (c.entries.adjust key
      (fun e => { e with expire := expireNs now ttl })).find key with _ | e <;>
    simp only [TlfuCore.setEntryExisting, hfind]
  · exact ⟨EntriesMap.mem_adjust _ _ _ _, trivial⟩
  · refine ⟨?_, trivial⟩
    rw [EntriesMap.mem_adjust, EntriesMap.mem_adjust]

/-- set_entry introduces no key other than the one being set into the
entries map. -/
theorem TlfuCore.setEntry_mem_other (c : TlfuCore) (key ttl now : Nat)
    (raw : Int) (pvc : Nat) (k2 : Nat) (hne : k2 ≠ key)
    (h : ((c.setEntry key ttl now raw pvc).1.entries).mem k2 = true) :
    c.entries.mem k2 = true := by
  rcases hfind : c.entries.find key with _ | e0 <;>
    simp only [TlfuCore.setEntry, hfind] at h
  · have h2 := TlfuCore.setEntryFinish_mem _ _ _ _ _ h
    simp only [] at h2
    rw [EntriesMap.mem_insert] at h2
    simpa [hne] using h2
  · rw [(TlfuCore.setEntryExisting_mem c key ttl now k2).1] at h
    exact h

/-- A key reported evicted by set_entry is no longer in the entries map when
set_entry returns. -/
theorem TlfuCore.setEntry_evicted_gone (c : TlfuCore) (key ttl now : Nat)
    (raw : Int) (pvc : Nat) (ek : Nat)
    (h : (c.setEntry key ttl now raw pvc).2 = some ek) :
    ((c.setEntry key ttl now raw pvc).1.entries).mem ek = false := by
  rcases hfind : c.entries.find key with _ | e0 <;>
    simp only [TlfuCore.setEntry, hfind] at h ⊢
  · exact TlfuCore.setEntryFinish_gone _ _ _ _ _ h
  · rw [(TlfuCore.setEntryExisting_mem c key ttl now 0).2] at h
    exact absurd h (by simp)

/-- remove_internal only ever removes from the entries map. -/
theorem TlfuCore.removeInternal_mem (c : TlfuCore) (key : Nat) (k2 : Nat) :
    ((c.removeInternal key).entries).mem k2 = true →
    c.entries.mem k2 = true := by
  unfold TlfuCore.removeInternal
  rcases hfind : c.entries.find key with _ | e
  · exact fun h => h
  · intro h
    simp only [] at h
    rw [EntriesMap.mem_erase] at h
    exact (Bool.and_eq_true_iff.mp h).2

/-- One batch step of the facade set keeps the no-evicted-key-in-entries
invariant. -/
theorem TlfuCore.setStep_inv (c : TlfuCore) (evicted : List Nat) (key : Nat)
    (ttl : Int) (now : Nat) (raw : Int) (pvc : Nat)
    (hinv : ∀ k ∈ evicted, c.entries.mem k = false) :
    ∀ k ∈ (TlfuCore.setStep c evicted key ttl now raw pvc).2,
      ((TlfuCore.setStep c evicted key ttl now raw pvc).1.entries).mem k =
        false := by
  unfold TlfuCore.setStep
  by_cases httl : ttl = -1
  · simp only [httl, if_true, reduceIte]
    intro k hk
    rcases hb : ((c.removeInternal key).entries).mem k with _ | _
    · rfl
    · exact absurd (TlfuCore.removeInternal_mem c key k hb) (by
        rw [hinv k hk]; simp)
  · by_cases hcont : evicted.contains key
    · simp only [httl, hcont, if_false, if_true, reduceIte]
      exact hinv
    · simp only [httl, hcont, Bool.false_eq_true, if_false, reduceIte]
      have hnk : key ∉ evicted := by
        intro hmem
        exact hcont (by simpa using hmem)
      rcases hev : (c.setEntry key ttl.natAbs now raw pvc).2 with _ | ek
      · simp only [hev]
        intro k hk
        rcases hb : ((c.setEntry key ttl.natAbs now raw pvc).1.entries).mem k
          with _ | _
        · rfl
        · have hne : k ≠ key := fun he => hnk (he ▸ hk)
          exact absurd
            (TlfuCore.setEntry_mem_other c key ttl.natAbs now raw pvc k hne hb)
            (by rw [hinv k hk]; simp)
      · simp only [hev]
        intro k hk
        by_cases hkek : k = ek
        · subst hkek
          exact TlfuCore.setEntry_evicted_gone c key ttl.natAbs now raw pvc k
            hev
        · have hk2 : k ∈ evicted := by
            rcases hcon2 : evicted.contains ek with _ | _ <;>
              rw [hcon2] at hk <;> simp at hk
            · rcases hk with hk | hk
              · exact hk
              · exact absurd hk hkek
            · exact hk
          rcases hb : ((c.setEntry key ttl.natAbs now raw pvc).1.entries).mem k
            with _ | _
          · rfl
          · have hne : k ≠ key := fun he => hnk (he ▸ hk2)
            exact absurd
              (TlfuCore.setEntry_mem_other c key ttl.natAbs now raw pvc k hne
                hb)
              (by rw [hinv k hk2]; simp)

/-- The batch fold of the facade set keeps the invariant. -/
theorem TlfuCore.setFold_inv (batch : List (Nat × Int)) (now : Nat)
    (raw : Int) (pvc : Nat) :
    ∀ (c : TlfuCore) (evicted : List Nat),
      (∀ k ∈ evicted, c.entries.mem k = false) →
      ∀ k ∈ (batch.foldl
        (fun (acc : TlfuCore × List Nat) kv =>
          TlfuCore.setStep acc.1 acc.2 kv.1 kv.2 now raw pvc)
        (c, evicted)).2,
        ((batch.foldl
          (fun (acc : TlfuCore × List Nat) kv =>
            TlfuCore.setStep acc.1 acc.2 kv.1 kv.2 now raw pvc)
          (c, evicted)).1.entries).mem k = false := by
  induction batch with
  | nil => intro c evicted hinv; simpa using hinv
  | cons kv rest ih =>
    intro c evicted hinv
    simp only [List.foldl_cons]
    have hstep := TlfuCore.setStep_inv c evicted kv.1 kv.2 now raw pvc hinv
    have := ih (TlfuCore.setStep c evicted kv.1 kv.2 now raw pvc).1
      (TlfuCore.setStep c evicted kv.1 kv.2 now raw pvc).2 hstep
    simpa using this

/-- Folding the retention pass over keys absent from the entries map changes
nothing. -/
theorem TlfuCore.retainFold_fixed (evicted : List Nat) :
    ∀ (c : TlfuCore) (l0 : List Nat),
      (∀ k ∈ evicted, c.entries.mem k = false) →
      evicted.foldl (fun (acc : TlfuCore × List Nat) k =>
        if acc.1.entries.mem k then
          ({ acc.1 with entries := acc.1.entries.erase k }, acc.2 ++ [k])
        else acc) (c, l0) = (c, l0) := by
  induction evicted with
  | nil => intro c l0 hinv; rfl
  | cons k rest ih =>
    intro c l0 hinv
    simp only [List.foldl_cons]
    have hk : c.entries.mem k = false := hinv k (by simp)
    rw [hk]
    simp only [Bool.false_eq_true, if_false, reduceIte]
    exact ih c l0 (fun k2 hk2 => hinv k2 (by simp [hk2]))

/-- C2: the facade set always returns the empty evicted list: each evicted
key is dropped from the entries map at eviction time, the batch guard
prevents its re-insertion later in the same call, and the final retention
keeps only evicted keys still present — of which there are none. -/
theorem facade_set_returns_no_evicted (c : TlfuCore)
    (batch : List (Nat × Int)) (now : Nat) (raw : Int) (pvc : Nat) :
    (TlfuCore.set c batch now raw pvc).2 = [] := by
  unfold TlfuCore.set
  simp only []
  have hinv := TlfuCore.setFold_inv batch now raw pvc c [] (by simp)
  unfold TlfuCore.retainEvicted
  rw [TlfuCore.retainFold_fixed _ _ _ hinv]

/-- Fold preservation: a property stable under every step of a fold holds of
the fold's result. -/
theorem foldlPreserve {α β : Type} (P : α → Prop) (f : α → β → α) :
    ∀ (L : List β) (a : α), P a →
      (∀ a2 b, b ∈ L → P a2 → P (f a2 b)) → P (L.foldl f a) := by
  intro L
  induction L with
  | nil => intro a h _; simpa using h
  | cons b L ih =>
    intro a h hf
    simp only [List.foldl_cons]
    exact ih (f a b) (hf a b (by simp) h)
      (fun a2 b2 hb2 ha2 => hf a2 b2 (by simp [hb2]) ha2)

/-- A bucket update that cannot introduce the key keeps the key absent from
the whole wheel. -/
theorem TimerWheel.keyAbsent_modifyBucket (w : TimerWheel) (lvl slot : Nat)
    (f : PList → PList) (k : Nat)
    (hf : ∀ b : PList, k ∉ b.items → k ∉ (f b).items)
    (h : w.keyAbsent k) : (w.modifyBucket lvl slot f).keyAbsent k := by
  rcases hlv : w.wheel.get? lvl with _ | lv
  · simpa only [TimerWheel.modifyBucket, hlv] using h
  · rcases hb : lv.get? slot with _ | b
    · simpa only [TimerWheel.modifyBucket, hlv, hb] using h
    · simp only [TimerWheel.modifyBucket, hlv, hb]
      intro lv2 hlv2 b2 hb2
      rcases List.mem_or_eq_of_mem_set hlv2 with h1 | h1
      · exact h lv2 h1 b2 hb2
      · subst h1
        rcases List.mem_or_eq_of_mem_set hb2 with h2 | h2
        · exact h lv (List.get?_mem hlv) b2 h2
        · subst h2
          exact hf b (h lv (List.get?_mem hlv) b (List.get?_mem hb))

/-- An absent key is in no bucket read. -/
theorem TimerWheel.keyAbsent_bucket (w : TimerWheel) (k : Nat)
    (h : w.keyAbsent k) (lvl slot : Nat) : k ∉ (w.bucket lvl slot).items := by
  unfold TimerWheel.bucket
  rcases hlv : w.wheel.get? lvl with _ | lv
  · have h1 : w.wheel.getD lvl [] = [] := by
      rw [List.getD_eq_getElem?_getD, ← List.get?_eq_getElem?, hlv]
      rfl
    rw [h1]
    simp [PList.new]
  · have h1 : w.wheel.getD lvl [] = lv := by
      rw [List.getD_eq_getElem?_getD, ← List.get?_eq_getElem?, hlv]
      rfl
    rw [h1]
    rcases hb : lv.get? slot with _ | b
    · have h2 : lv.getD slot (PList.new 8) = PList.new 8 := by
        rw [List.getD_eq_getElem?_getD, ← List.get?_eq_getElem?, hb]
        rfl
      rw [h2]
      simp [PList.new]
    · have h2 : lv.getD slot (PList.new 8) = b := by
        rw [List.getD_eq_getElem?_getD, ← List.get?_eq_getElem?, hb]
        rfl
      rw [h2]
      exact h lv (List.get?_mem hlv) b (List.get?_mem hb)

/-- Descheduling (a pure removal) keeps any absent key absent. -/
theorem TimerWheel.keyAbsent_deschedule (w : TimerWheel) (k2 : Nat) (k : Nat)
    (e : Entry) (h : w.keyAbsent k2) : ((w.deschedule k e).1).keyAbsent k2 := by
  rcases hwl : e.wheel_list_index with _ | _ <;>
    simp only [TimerWheel.deschedule, hwl, Bool.false_eq_true, if_false,
      if_true, reduceIte]
  · exact h
  · exact TimerWheel.keyAbsent_modifyBucket w e.wheel_index.1 e.wheel_index.2
      _ k2 (fun b hb hc => hb (List.erase_subset _ _ hc)) h

/-- Scheduling an entry that never expires is exactly the deschedule: no
bucket insertion happens. -/
theorem TimerWheel.schedule_zero (w : TimerWheel) (k : Nat) (e : Entry)
    (h : e.expire = 0) : w.schedule k e = w.deschedule k e := by
  have h2 : (w.deschedule k e).2.expire = 0 := by
    rw [TimerWheel.deschedule_expire, h]
  unfold TimerWheel.schedule
  simp only [h2]
  rfl

/-- Scheduling one key keeps every other absent key absent. -/
theorem TimerWheel.keyAbsent_schedule (w : TimerWheel) (k2 : Nat) (k : Nat)
    (e : Entry) (h : w.keyAbsent k2) (hne : k ≠ k2) :
    ((w.schedule k e).1).keyAbsent k2 := by
  have h1 := TimerWheel.keyAbsent_deschedule w k2 k e h
  unfold TimerWheel.schedule
  simp only []
  split
  · split
    · exact TimerWheel.keyAbsent_modifyBucket _ _ _ _ k2
        (fun b hb hc => by
          simp only [PList.insertFront, List.mem_cons] at hc
          rcases hc with hc | hc
          · exact hne hc.symm
          · exact hb hc) h1
    · exact h1
  · exact h1

/-- One bucket pass of expire keeps an absent key absent and never reports
it expired. -/
theorem TimerWheel.keyAbsent_expireBucket (w : TimerWheel)
    (bi : Nat × Nat) (es : EntriesMap) (k : Nat) (h : w.keyAbsent k) :
    ((w.expireBucket bi es).1).keyAbsent k ∧
    k ∉ (w.expireBucket bi es).2.2 := by
  have hkeys : k ∉ (w.bucket bi.1 bi.2).items :=
    TimerWheel.keyAbsent_bucket w k h bi.1 bi.2
  unfold TimerWheel.expireBucket
  simp only []
  constructor
  · refine foldlPreserve
      (fun acc : TimerWheel × EntriesMap => acc.1.keyAbsent k) _ _ _ ?_ ?_
    · refine foldlPreserve
        (fun acc : TimerWheel × EntriesMap => acc.1.keyAbsent k) _ _ _ h ?_
      intro a2 b _ ha2
      rcases hfind : a2.2.find b with _ | e <;> simp only [hfind]
      · exact ha2
      · exact TimerWheel.keyAbsent_deschedule a2.1 k b e ha2
    · intro a2 b hb ha2
      have hbk : b ∈ (w.bucket bi.1 bi.2).items := List.mem_of_mem_filter hb
      have hne : b ≠ k := fun he => hkeys (he ▸ hbk)
      rcases hfind : a2.2.find b with _ | e <;> simp only [hfind]
      · exact ha2
      · exact TimerWheel.keyAbsent_schedule a2.1 k b e ha2 hne
  · intro hc
    exact hkeys (List.mem_of_mem_filter hc)

/-- One level pass of expire keeps an absent key absent and never reports
it expired. -/
theorem TimerWheel.keyAbsent_expireLevel (w : TimerWheel)
    (index prevTicks delta : Nat) (es : EntriesMap) (k : Nat)
    (h : w.keyAbsent k) :
    ((w.expireLevel index prevTicks delta es).1).keyAbsent k ∧
    k ∉ (w.expireLevel index prevTicks delta es).2.2 := by
  unfold TimerWheel.expireLevel
  split
  · exact ⟨h, by simp⟩
  · simp only []
    refine foldlPreserve
      (fun acc : TimerWheel × EntriesMap × List Nat =>
        acc.1.keyAbsent k ∧ k ∉ acc.2.2) _ _ _ ⟨h, by simp⟩ ?_
    intro a2 j _ ha2
    try simp only []
    split
    · exact ha2
    · have hb := TimerWheel.keyAbsent_expireBucket a2.1
        (index, ((prevTicks &&& (wheelBucketCounts.getD index 1 - 1)) + j) &&&
          (wheelBucketCounts.getD index 1 - 1)) a2.2.1 k ha2.1
      refine ⟨hb.1, ?_⟩
      intro hc
      rcases List.mem_append.mp hc with hc | hc
      · exact ha2.2 hc
      · exact hb.2 hc

/-- The level loop of advance keeps an absent key absent and never reports
it expired. -/
theorem TimerWheel.keyAbsent_advanceLevels (L : List Nat) :
    ∀ (w : TimerWheel) (previous now : Nat) (es : EntriesMap) (k : Nat),
      w.keyAbsent k →
      ((TimerWheel.advanceLevels L w previous now es).1).keyAbsent k ∧
      k ∉ (TimerWheel.advanceLevels L w previous now es).2.2 := by
  induction L with
  | nil =>
    intro w previous now es k h
    exact ⟨h, by simp [TimerWheel.advanceLevels]⟩
  | cons i rest ih =>
    intro w previous now es k h
    simp only [TimerWheel.advanceLevels]
    split
    · exact ⟨h, by simp⟩
    · have h1 := TimerWheel.keyAbsent_expireLevel w i
        (previous >>> wheelShift.getD i 0)
        ((now >>> wheelShift.getD i 0) - (previous >>> wheelShift.getD i 0))
        es k h
      have h2 := ih (w.expireLevel i (previous >>> wheelShift.getD i 0)
          ((now >>> wheelShift.getD i 0) - (previous >>> wheelShift.getD i 0))
          es).1 previous now
        (w.expireLevel i (previous >>> wheelShift.getD i 0)
          ((now >>> wheelShift.getD i 0) - (previous >>> wheelShift.getD i 0))
          es).2.1 k h1.1
      refine ⟨h2.1, ?_⟩
      intro hc
      rcases List.mem_append.mp hc with hc | hc
      · exact h1.2 hc
      · exact h2.2 hc

/-- advance keeps an absent key absent and never returns it as expired. -/
theorem TimerWheel.keyAbsent_advance (w : TimerWheel) (now : Nat)
    (es : EntriesMap) (k : Nat) (h : w.keyAbsent k) :
    ((w.advance now es).1).keyAbsent k ∧ k ∉ (w.advance now es).2.2 := by
  unfold TimerWheel.advance
  exact TimerWheel.keyAbsent_advanceLevels [0, 1, 2, 3, 4] _ w.nanos now es k h

/-- Dropping an evicted key (a deschedule plus map removal) keeps an absent
key absent from the wheel. -/
theorem TlfuCore.dropEvicted_wheelAbsent (c2 : TlfuCore) (ek : Nat) (k : Nat)
    (h : c2.wheel.keyAbsent k) : ((c2.dropEvicted ek).wheel).keyAbsent k := by
  rcases hfind : c2.entries.find ek with _ | e3 <;>
    simp only [TlfuCore.dropEvicted, hfind]
  · exact h
  · exact TimerWheel.keyAbsent_deschedule c2.wheel k ek e3 h

/-- The eviction tail of set_entry keeps an absent key absent from the
wheel. -/
theorem TlfuCore.setEntryOutcome_wheelAbsent (c2 : TlfuCore)
    (evb : Option Nat × Bool) (k : Nat) (h : c2.wheel.keyAbsent k) :
    (((TlfuCore.setEntryOutcome c2 evb).1).wheel).keyAbsent k := by
  rcases evb with ⟨ev, b⟩
  cases b
  · simpa only [TlfuCore.setEntryOutcome, Bool.false_eq_true, reduceIte] using h
  · rcases ev with _ | ek
    · simpa only [TlfuCore.setEntryOutcome, reduceIte] using h
    · simp only [TlfuCore.setEntryOutcome, reduceIte]
      exact TlfuCore.dropEvicted_wheelAbsent c2 ek k h

/-- The policy-running tail of the fresh-key path keeps an absent key absent
from the wheel (the policy itself never touches the wheel). -/
theorem TlfuCore.setEntryFinish_wheelAbsent (c1 : TlfuCore) (key : Nat)
    (raw : Int) (pvc : Nat) (k : Nat) (h : c1.wheel.keyAbsent k) :
    (((TlfuCore.setEntryFinish c1 key raw pvc).1).wheel).keyAbsent k := by
  unfold TlfuCore.setEntryFinish
  exact TlfuCore.setEntryOutcome_wheelAbsent _ _ k h

/-- Refreshing an existing key with ttl 0 schedules a never-expiring entry,
so the wheel gains no key. -/
theorem TlfuCore.setEntryExisting_zero_wheelAbsent (c : TlfuCore)
    (key now : Nat) (k : Nat) (h : c.wheel.keyAbsent k) :
    (((TlfuCore.setEntryExisting c key 0 now).1).wheel).keyAbsent k := by
  rcases hfind : (c.entries.adjust key
      (fun e => { e with expire := expireNs now 0 })).find key with _ | e <;>
    simp only [TlfuCore.setEntryExisting, hfind]
  · exact h
  · rw [EntriesMap.find_adjust] at hfind
    have hfind2 : (c.entries.find key).map
        (fun e => { e with expire := expireNs now 0 }) = some e := by
      simpa using hfind
    rcases hf0 : c.entries.find key with _ | e0 <;> rw [hf0] at hfind2
    · exact absurd hfind2 (by simp)
    · rw [Option.map_some'] at hfind2
      have he : ({ e0 with expire := expireNs now 0 } : Entry) = e :=
        Option.some.inj hfind2
      have hexp : e.expire = 0 := by rw [← he]; rfl
      rw [TimerWheel.schedule_zero c.wheel key e hexp]
      exact TimerWheel.keyAbsent_deschedule c.wheel k key e h

/-- set_entry with ttl 0 never puts any absent key into the wheel: the
fresh-key schedule degenerates to a deschedule because expire_ns gives 0,
and the policy's eviction only removes. -/
theorem TlfuCore.setEntry_zero_wheelAbsent (c : TlfuCore) (key now : Nat)
    (raw : Int) (pvc : Nat) (k : Nat) (h : c.wheel.keyAbsent k) :
    (((c.setEntry key 0 now raw pvc).1).wheel).keyAbsent k := by
  rcases hfind : c.entries.find key with _ | e0 <;>
    simp only [TlfuCore.setEntry, hfind]
  · apply TlfuCore.setEntryFinish_wheelAbsent
    show ((c.wheel.schedule key
      { Entry.mk0 with expire := expireNs now 0 }).1).keyAbsent k
    rw [TimerWheel.schedule_zero c.wheel key _ rfl]
    exact TimerWheel.keyAbsent_deschedule c.wheel k key _ h
  · exact TlfuCore.setEntryExisting_zero_wheelAbsent c key now k h

/-- C8: an entry set with ttl 0 never enters the timer wheel and is never
expired: expire_ns returns 0 for ttl 0; scheduling a never-expiring entry is
exactly the deschedule (no bucket insertion, wheel index stays absent);
advance keeps a wheel-absent key absent and never returns it as expired; and
set_entry with ttl 0 keeps any wheel-absent key absent from the wheel. -/
theorem ttl_zero_entry_never_in_wheel :
    (∀ now : Nat, expireNs now 0 = 0) ∧
    (∀ (w : TimerWheel) (k : Nat) (e : Entry), e.expire = 0 →
      w.schedule k e = w.deschedule k e ∧
      (w.schedule k e).2.wheel_list_index = false) ∧
    (∀ (w : TimerWheel) (now : Nat) (es : EntriesMap) (k : Nat),
      w.keyAbsent k →
      k ∉ (w.advance now es).2.2 ∧ ((w.advance now es).1).keyAbsent k) ∧
    (∀ (c : TlfuCore) (key now : Nat) (raw : Int) (pvc : Nat) (k : Nat),
      c.wheel.keyAbsent k →
      (((c.setEntry key 0 now raw pvc).1).wheel).keyAbsent k) := by
  refine ⟨fun now => rfl, ?_, ?_, ?_⟩
  · intro w k e he
    have hz := TimerWheel.schedule_zero w k e he
    refine ⟨hz, ?_⟩
    rw [hz]
    simp [TimerWheel.deschedule]
  · intro w now es k h
    have ha := TimerWheel.keyAbsent_advance w now es k h
    exact ⟨ha.2, ha.1⟩
  · intro c key now raw pvc k h
    exact TlfuCore.setEntry_zero_wheelAbsent c key now raw pvc k h

/-- C8 witness: concrete instances of every hypothesis-bearing part at
evaluable inputs. -/
theorem ttl_zero_entry_never_in_wheel_witness :
    expireNs 5 0 = 0 ∧
    (TimerWheel.new 0).schedule 7 Entry.mk0 =
      (TimerWheel.new 0).deschedule 7 Entry.mk0 ∧
    7 ∉ ((TimerWheel.new 0).advance (2 ^ 31) ([] : EntriesMap)).2.2 ∧
    ((((TlfuCore.new 2 0).setEntry 9 0 0 0 0).1).wheel).keyAbsent 9 := by
  refine ⟨ttl_zero_entry_never_in_wheel.1 5,
    (ttl_zero_entry_never_in_wheel.2.1 (TimerWheel.new 0) 7 Entry.mk0 rfl).1,
    (ttl_zero_entry_never_in_wheel.2.2.1 (TimerWheel.new 0) (2 ^ 31)
      ([] : EntriesMap) 7 ?_).1,
    ttl_zero_entry_never_in_wheel.2.2.2 (TlfuCore.new 2 0) 9 0 0 0 9 ?_⟩
  · decide
  · decide

/-- Right shift distributes over bitwise and. -/
theorem shiftRightAnd (x y n : Nat) :
    (x &&& y) >>> n = (x >>> n) &&& (y >>> n) := by
  apply Nat.eq_of_testBit_eq
  intro i
  simp [Nat.testBit_shiftRight, Nat.testBit_and]

/-- The bit of x at position b, read as x / 2^b % 2, as a testBit. -/
theorem divPowModTwo (x b : Nat) :
    x / 2 ^ b % 2 = if x.testBit b then 1 else 0 := by
  rw [Nat.testBit_to_div_mod]
  rcases Nat.mod_two_eq_zero_or_one (x / 2 ^ b) with h | h <;> simp [h]

/-- Bits of a word masked by ONE_MASK: kept where the mask bit is set,
zero elsewhere. -/
theorem andOneMaskBit (w b : Nat) :
    (w &&& ONE_MASK) / 2 ^ b % 2 =
      if ONE_MASK / 2 ^ b % 2 = 1 then w / 2 ^ b % 2 else 0 := by
  rw [divPowModTwo, divPowModTwo, divPowModTwo, Nat.testBit_and]
  rcases hm : ONE_MASK.testBit b with _ | _ <;>
    rcases hw : w.testBit b with _ | _ <;>
    simp [hm, hw]

/-- The parity of 4-bit counter j is the word's bit at position 4j. -/
theorem counterOf_parity (w j : Nat) :
    counterOf w j % 2 = w / 2 ^ (4 * j) % 2 := by
  unfold counterOf
  rw [Nat.shiftRight_eq_div_pow,
    show (0xF : Nat) = 2 ^ 4 - 1 from rfl, Nat.and_pow_two_sub_one_eq_mod]
  omega

/-- The aging transform (word >> 1) & RESET_MASK halves every 4-bit
counter. -/
theorem counterOf_halve (w j : Nat) (hj : j < 16) :
    counterOf ((w >>> 1) &&& RESET_MASK) j = counterOf w j / 2 := by
  have hmask : RESET_MASK >>> (4 * j) &&& 0xF = 7 := by
    interval_cases j <;> decide
  unfold counterOf
  rw [shiftRightAnd, Nat.and_assoc, hmask]
  simp only [Nat.shiftRight_eq_div_pow]
  rw [show (7 : Nat) = 2 ^ 3 - 1 from rfl, Nat.and_pow_two_sub_one_eq_mod,
    show (0xF : Nat) = 2 ^ 4 - 1 from rfl, Nat.and_pow_two_sub_one_eq_mod]
  have hdd : w / 2 ^ 1 / 2 ^ (4 * j) = w / 2 ^ (4 * j) / 2 := by
    rw [Nat.div_div_eq_div_mul, Nat.div_div_eq_div_mul, mul_comm]
    norm_num
  rw [hdd]
  omega

/-- Counting list elements whose 0/1-valued weight is 1 is summing the
weights. -/
theorem parityFilterLength (g : Nat → Nat) (hg : ∀ a, g a = 0 ∨ g a = 1) :
    ∀ L : List Nat,
      (L.filter (fun a => g a == 1)).length = (L.map g).sum := by
  intro L
  induction L with
  | nil => rfl
  | cons a L ih =>
    rw [List.filter_cons, List.map_cons, List.sum_cons]
    rcases hg a with h | h
    · simp [h, ih]
    · simp [h, ih]
      omega

/-- The popcount of word & ONE_MASK is the sum of the 16 counter
parities. -/
theorem countOnes_oneMask (w : Nat) :
    countOnes64 (w &&& ONE_MASK) =
      ((List.range 16).map (fun j => counterOf w j % 2)).sum := by
  have hc : ∀ j : Nat, counterOf w j % 2 = w / 2 ^ (4 * j) % 2 :=
    fun j => counterOf_parity w j
  simp only [hc]
  unfold countOnes64
  rw [show List.range 64 = [0, 1, 2, 3, 4, 5, 6, 7, 8, 9, 10, 11, 12, 13, 14, 15, 16, 17, 18, 19, 20, 21, 22, 23, 24, 25, 26, 27, 28, 29, 30, 31, 32, 33, 34, 35, 36, 37, 38, 39, 40, 41, 42, 43, 44, 45, 46, 47, 48, 49, 50, 51, 52, 53, 54, 55, 56, 57, 58, 59, 60, 61, 62, 63] from rfl,
    show List.range 16 = [0, 1, 2, 3, 4, 5, 6, 7, 8, 9, 10, 11, 12, 13, 14, 15] from rfl]
  simp only [List.map_cons, List.map_nil, List.sum_cons, List.sum_nil,
    andOneMaskBit]
  norm_num [ONE_MASK]

/-- A counter increment changes only the table. -/
theorem CountMinSketch.inc_fields (s : CountMinSketch) (i o : Nat) :
    (s.inc i o).1.sample_size = s.sample_size ∧
    (s.inc i o).1.additions = s.additions := by
  unfold CountMinSketch.inc
  split
  · exact ⟨rfl, rfl⟩
  · split
    · exact ⟨rfl, rfl⟩
    · try simp only []
      split
      · exact ⟨rfl, rfl⟩
      · exact ⟨rfl, rfl⟩

/-- The four increments of add change only the table. -/
theorem CountMinSketch.incFour_fields (s : CountMinSketch) (h : Nat) :
    (s.incFour h).1.sample_size = s.sample_size ∧
    (s.incFour h).1.additions = s.additions := by
  unfold CountMinSketch.incFour
  try simp only []
  constructor
  · rw [(CountMinSketch.inc_fields _ _ _).1, (CountMinSketch.inc_fields _ _ _).1,
      (CountMinSketch.inc_fields _ _ _).1, (CountMinSketch.inc_fields _ _ _).1]
  · rw [(CountMinSketch.inc_fields _ _ _).2, (CountMinSketch.inc_fields _ _ _).2,
      (CountMinSketch.inc_fields _ _ _).2, (CountMinSketch.inc_fields _ _ _).2]

/-- C9: when an add reaches the sample size the aging step runs, and aging
replaces every 4-bit counter c by its half (each word becomes
(word >> 1) & RESET_MASK), with the additions counter set to
(additions - odd/4) / 2 where odd, the number of odd counters, is the
popcount of word & ONE_MASK summed over all words. -/
theorem sketch_aging_step (s : CountMinSketch) (h : Nat)
    (hadd : (s.incFour h).2 = true)
    (hthr : s.sample_size ≤ satAdd (s.incFour h).1.additions 1) :
    s.add h = CountMinSketch.reset
      { (s.incFour h).1 with
        additions := satAdd (s.incFour h).1.additions 1 } ∧
    s.reset.table = s.table.map (fun w => (w >>> 1) &&& RESET_MASK) ∧
    (∀ w j, j < 16 →
      counterOf ((w >>> 1) &&& RESET_MASK) j = counterOf w j / 2) ∧
    (∀ w, countOnes64 (w &&& ONE_MASK) =
      ((List.range 16).filter (fun j => counterOf w j % 2 == 1)).length) ∧
    s.reset.additions =
      (s.additions -
        (s.table.map (fun w => countOnes64 (w &&& ONE_MASK))).sum / 4) / 2 := by
  refine ⟨?_, rfl, fun w j hj => counterOf_halve w j hj, ?_, ?_⟩
  · unfold CountMinSketch.add
    simp only [hadd, if_true, reduceIte]
    rw [if_pos]
    rw [(CountMinSketch.incFour_fields s h).1]
    exact hthr
  · intro w
    rw [parityFilterLength (fun j => counterOf w j % 2)
      (fun a => Nat.mod_two_eq_zero_or_one _) (List.range 16)]
    exact countOnes_oneMask w
  · unfold CountMinSketch.reset
    simp only [satSub, Nat.shiftRight_eq_div_pow]

/-- C9 witness: a small saturating sketch whose very next add triggers the
aging step. -/
theorem sketch_aging_step_witness :
    (({ block_mask := 0, table := List.replicate 64 0, additions := 0,
        sample_size := 1 } : CountMinSketch).incFour 3).2 = true ∧
    ({ block_mask := 0, table := List.replicate 64 0, additions := 0,
        sample_size := 1 } : CountMinSketch).sample_size ≤
      satAdd (({ block_mask := 0, table := List.replicate 64 0,
                 additions := 0, sample_size := 1 } : CountMinSketch).incFour
          3).1.additions 1 ∧
    ({ block_mask := 0, table := List.replicate 64 0, additions := 0,
        sample_size := 1 } : CountMinSketch).add 3 =
      CountMinSketch.reset
        { (({ block_mask := 0, table := List.replicate 64 0, additions := 0,
              sample_size := 1 } : CountMinSketch).incFour 3).1 with
          additions := satAdd (({ block_mask := 0,
                                  table := List.replicate 64 0,
                                  additions := 0,
                                  sample_size := 1 } :
              CountMinSketch).incFour 3).1.additions 1 } := by
  refine ⟨by decide, by decide, (sketch_aging_step _ 3 (by decide) (by decide)).1⟩

/-- counterOf in div/mod form. -/
theorem counterOf_eq_div_mod (w j : Nat) :
    counterOf w j = w / 2 ^ (4 * j) % 16 := by
  unfold counterOf
  rw [Nat.shiftRight_eq_div_pow,
    show (0xF : Nat) = 2 ^ 4 - 1 from rfl, Nat.and_pow_two_sub_one_eq_mod]

/-- Shifting left by two is multiplication by four. -/
theorem shiftLeftTwo (o : Nat) : o <<< 2 = 4 * o := by
  rw [Nat.shiftLeft_eq]
  ring

/-- Shifting left by one is doubling. -/
theorem shiftLeftOne (o : Nat) : o <<< 1 = 2 * o := by
  rw [Nat.shiftLeft_eq]
  ring

/-- A shifted one is a power of two. -/
theorem oneShiftLeft (m : Nat) : 1 <<< m = 2 ^ m := by
  rw [Nat.shiftLeft_eq]
  ring

/-- Carry bound: the part of a word below nibble o+1 plus one unit of nibble
o stays below the nibble-o+1 boundary when counter o is unsaturated. -/
theorem nibble_carry_bound (w o : Nat) (ho : w / 2 ^ (4 * o) % 16 ≠ 15) :
    w % 2 ^ (4 * (o + 1)) + 2 ^ (4 * o) < 2 ^ (4 * (o + 1)) := by
  have hD : (2:Nat) ^ (4 * (o + 1)) = 2 ^ (4 * o) * 16 := by
    rw [show (16:Nat) = 2 ^ 4 from rfl, ← pow_add]
    congr 1
  have h1 : w % 2 ^ (4 * (o + 1)) / 2 ^ (4 * o) = w / 2 ^ (4 * o) % 16 := by
    rw [hD, Nat.mod_mul_right_div_self]
  have h2 : w % 2 ^ (4 * (o + 1)) / 2 ^ (4 * o) < 15 := by
    have := Nat.mod_lt (w / 2 ^ (4 * o)) (show 0 < 16 by norm_num)
    omega
  have h3 : w % 2 ^ (4 * (o + 1)) < 15 * 2 ^ (4 * o) :=
    (Nat.div_lt_iff_lt_mul (by positivity)).mp h2
  omega

/-- Adding one unit to an unsaturated counter o: counter o gains one, every
other counter is unchanged. -/
theorem counterOf_add_unit (w o j : Nat) (ho : counterOf w o ≠ 15) :
    counterOf (w + 2 ^ (4 * o)) j =
      counterOf w j + (if j = o then 1 else 0) := by
  have ho2 : w / 2 ^ (4 * o) % 16 ≠ 15 := by
    rw [← counterOf_eq_div_mod]
    exact ho
  rw [counterOf_eq_div_mod, counterOf_eq_div_mod]
  rcases Nat.lt_trichotomy j o with hj | hj | hj
  · rw [if_neg (by omega)]
    have hsplit : (2:Nat) ^ (4 * o) = 2 ^ (4 * j) * 2 ^ (4 * (o - j)) := by
      rw [← pow_add]
      congr 1
      omega
    rw [hsplit, Nat.add_mul_div_left _ _ (by positivity)]
    have h16 : (16:Nat) ∣ 2 ^ (4 * (o - j)) := by
      rw [show (16:Nat) = 2 ^ 4 from rfl]
      exact pow_dvd_pow 2 (by omega)
    omega
  · subst hj
    rw [Nat.add_div_right _ (by positivity), if_pos rfl]
    omega
  · rw [if_neg (by omega)]
    have hr := nibble_carry_bound w o ho2
    have hD : (0:Nat) < 2 ^ (4 * (o + 1)) := by positivity
    have hstep : (w + 2 ^ (4 * o)) / 2 ^ (4 * (o + 1)) =
        w / 2 ^ (4 * (o + 1)) := by
      conv_lhs => rw [← Nat.div_add_mod w (2 ^ (4 * (o + 1)))]
      rw [Nat.add_assoc, Nat.mul_add_div hD, Nat.div_eq_of_lt hr]
      omega
    have hsplit : (2:Nat) ^ (4 * j) =
        2 ^ (4 * (o + 1)) * 2 ^ (4 * (j - (o + 1))) := by
      rw [← pow_add]
      congr 1
      omega
    have hfin : (w + 2 ^ (4 * o)) / 2 ^ (4 * j) = w / 2 ^ (4 * j) := by
      rw [hsplit, ← Nat.div_div_eq_div_mul, ← Nat.div_div_eq_div_mul, hstep]
    rw [hfin]
    omega

/-- A word masked to one nibble, as the shifted-back counter. -/
theorem and_shl_mask (w k : Nat) :
    w &&& (0xF <<< k) = ((w >>> k) &&& 0xF) <<< k := by
  apply Nat.eq_of_testBit_eq
  intro i
  rw [Nat.testBit_and, Nat.testBit_shiftLeft, Nat.testBit_shiftLeft,
    Nat.testBit_and, Nat.testBit_shiftRight]
  by_cases hk : k ≤ i
  · rw [show k + (i - k) = i from by omega]
    cases hwi : w.testBit i <;> cases hmi : (0xF : Nat).testBit (i - k) <;>
      simp [hk, hwi, hmi, ge_iff_le]
  · simp [hk, ge_iff_le]

/-- The saturation test of inc, in counter form. -/
theorem and_nibble_mask_eq_iff (w o : Nat) :
    (w &&& (0xF <<< (o <<< 2)) = 0xF <<< (o <<< 2)) ↔ counterOf w o = 15 := by
  rw [shiftLeftTwo, and_shl_mask]
  unfold counterOf
  constructor
  · intro h
    have h3 : ((w >>> (4 * o) &&& 0xF) <<< (4 * o)) >>> (4 * o) =
        w >>> (4 * o) &&& 0xF := by
      rw [Nat.shiftLeft_eq, Nat.shiftRight_eq_div_pow]
      exact Nat.mul_div_cancel _ (by positivity)
    have h4 : ((0xF : Nat) <<< (4 * o)) >>> (4 * o) = 0xF := by
      rw [Nat.shiftLeft_eq, Nat.shiftRight_eq_div_pow]
      exact Nat.mul_div_cancel _ (by positivity)
    have h2 := congrArg (fun x => x >>> (4 * o)) h
    simp only [] at h2
    rw [h3, h4] at h2
    exact h2
  · intro h
    rw [h]

/-- Incrementing an unsaturated counter of a 64-bit word cannot overflow the
word. -/
theorem nibble_no_overflow (w o : Nat) (hw : w < 2 ^ 64) (ho : o ≤ 15)
    (hc : counterOf w o ≠ 15) : w + 2 ^ (4 * o) < 2 ^ 64 := by
  have ho2 : w / 2 ^ (4 * o) % 16 ≠ 15 := by
    rw [← counterOf_eq_div_mod]
    exact hc
  have hr := nibble_carry_bound w o ho2
  have hdvd : (2:Nat) ^ (4 * (o + 1)) ∣ 2 ^ 64 := pow_dvd_pow 2 (by omega)
  have hq : w / 2 ^ (4 * (o + 1)) < 2 ^ 64 / 2 ^ (4 * (o + 1)) :=
    Nat.div_lt_div_of_lt_of_dvd hdvd hw
  have hq2 : (w / 2 ^ (4 * (o + 1)) + 1) * 2 ^ (4 * (o + 1)) ≤ 2 ^ 64 :=
    (Nat.le_div_iff_mul_le (by positivity)).mp (by omega)
  have hexp : (w / 2 ^ (4 * (o + 1)) + 1) * 2 ^ (4 * (o + 1)) =
      2 ^ (4 * (o + 1)) * (w / 2 ^ (4 * (o + 1))) + 2 ^ (4 * (o + 1)) := by
    ring
  have hwD := Nat.div_add_mod w (2 ^ (4 * (o + 1)))
  omega

/-- inc with an out-of-range index or offset is the identity. -/
theorem CountMinSketch.inc_out (s : CountMinSketch) (i o : Nat)
    (h : s.table.length ≤ i ∨ 15 < o) : s.inc i o = (s, false) := by
  unfold CountMinSketch.inc
  rcases h with h | h
  · rw [if_pos (by omega)]
  · by_cases hi : i ≥ s.table.length
    · rw [if_pos hi]
    · rw [if_neg hi, if_pos (by omega)]

/-- inc in counter form: on an in-range cell it increments the 4-bit counter
unless saturated. -/
theorem CountMinSketch.inc_spec (s : CountMinSketch) (i o : Nat)
    (hi : i < s.table.length) (ho : o ≤ 15)
    (hw : s.table.getD i 0 < 2 ^ 64) :
    s.inc i o =
      if counterOf (s.table.getD i 0) o = 15 then (s, false)
      else ({ s with
        table := s.table.set i (s.table.getD i 0 + 2 ^ (4 * o)) }, true) := by
  unfold CountMinSketch.inc
  rw [if_neg (by omega), if_neg (by omega)]
  try simp only []
  by_cases hc : counterOf (s.table.getD i 0) o = 15
  · have hmask := (and_nibble_mask_eq_iff (s.table.getD i 0) o).mpr hc
    rw [if_neg (not_not_intro hmask), if_pos hc]
  · have hmask : s.table.getD i 0 &&& (0xF <<< (o <<< 2)) ≠
        0xF <<< (o <<< 2) := by
      intro hcon
      exact hc ((and_nibble_mask_eq_iff _ o).mp hcon)
    rw [if_pos hmask, if_neg hc]
    have hsat : satAdd (s.table.getD i 0) (1 <<< (o <<< 2)) =
        s.table.getD i 0 + 2 ^ (4 * o) := by
      rw [oneShiftLeft, shiftLeftTwo]
      unfold satAdd USIZE_MAX
      have := nibble_no_overflow (s.table.getD i 0) o hw ho hc
      omega
    rw [hsat]

/-- inc changes neither the table length nor the block mask. -/
theorem CountMinSketch.inc_admin (s : CountMinSketch) (i o : Nat) :
    (s.inc i o).1.table.length = s.table.length ∧
    (s.inc i o).1.block_mask = s.block_mask := by
  unfold CountMinSketch.inc
  split
  · exact ⟨rfl, rfl⟩
  · split
    · exact ⟨rfl, rfl⟩
    · try simp only []
      split
      · exact ⟨List.length_set _ _ _, rfl⟩
      · exact ⟨rfl, rfl⟩

/-- The table word inc leaves at slot i2: bumped at the target cell when the
counter is unsaturated, untouched everywhere else. -/
theorem CountMinSketch.inc_getD (s : CountMinSketch) (i o : Nat)
    (hi : i < s.table.length) (ho : o ≤ 15)
    (hw : s.table.getD i 0 < 2 ^ 64) (i2 : Nat) :
    (s.inc i o).1.table.getD i2 0 =
      if i2 = i ∧ counterOf (s.table.getD i 0) o ≠ 15 then
        s.table.getD i 0 + 2 ^ (4 * o)
      else s.table.getD i2 0 := by
  rw [CountMinSketch.inc_spec s i o hi ho hw]
  by_cases hc : counterOf (s.table.getD i 0) o = 15
  · rw [if_pos hc, if_neg (by intro hcon; exact hcon.2 hc)]
  · rw [if_neg hc]
    by_cases hii : i2 = i
    · subst hii
      rw [if_pos ⟨rfl, hc⟩]
      try simp only []
      rw [List.getD_eq_getElem _ _ (by rw [List.length_set]; exact hi),
        List.getElem_set_self]
    · rw [if_neg (by intro hcon; exact hii hcon.1)]
      try simp only []
      by_cases h2l : i2 < s.table.length
      · rw [List.getD_eq_getElem _ _ (by rw [List.length_set]; exact h2l),
          List.getElem_set_ne (fun he => hii he.symm),
          ← List.getD_eq_getElem _ _ h2l]
      · rw [List.getD_eq_default _ _ (by rw [List.length_set]; omega),
          List.getD_eq_default _ _ (by omega)]

/-- inc leaves every other word untouched. -/
theorem CountMinSketch.inc_getD_other (s : CountMinSketch) (i o i2 : Nat)
    (hne : i2 ≠ i) :
    (s.inc i o).1.table.getD i2 0 = s.table.getD i2 0 := by
  unfold CountMinSketch.inc
  split
  · rfl
  · split
    · rfl
    · try simp only []
      split
      · try simp only []
        by_cases h2l : i2 < s.table.length
        · rw [List.getD_eq_getElem _ _ (by rw [List.length_set]; exact h2l),
            List.getElem_set_ne (fun he => hne he.symm),
            ← List.getD_eq_getElem _ _ h2l]
        · rw [List.getD_eq_default _ _ (by rw [List.length_set]; omega),
            List.getD_eq_default _ _ (by omega)]
      · rfl

/-- inc at the target word: bumped unless the counter is saturated. -/
theorem CountMinSketch.inc_getD_self (s : CountMinSketch) (i o : Nat)
    (hi : i < s.table.length) (ho : o ≤ 15)
    (hw : s.table.getD i 0 < 2 ^ 64) :
    (s.inc i o).1.table.getD i 0 =
      if counterOf (s.table.getD i 0) o = 15 then s.table.getD i 0
      else s.table.getD i 0 + 2 ^ (4 * o) := by
  rw [CountMinSketch.inc_getD s i o hi ho hw i]
  by_cases hc : counterOf (s.table.getD i 0) o = 15
  · rw [if_pos hc, if_neg (by intro hcon; exact hcon.2 hc)]
  · rw [if_pos ⟨rfl, hc⟩, if_neg hc]

/-- inc keeps every table word below 2^64. -/
theorem CountMinSketch.inc_words (s : CountMinSketch) (i o : Nat)
    (hw : ∀ w ∈ s.table, w < 2 ^ 64) :
    ∀ w ∈ (s.inc i o).1.table, w < 2 ^ 64 := by
  by_cases hi : i < s.table.length
  · by_cases ho : o ≤ 15
    · have hgd : s.table.getD i 0 ∈ s.table := by
        rw [List.getD_eq_getElem _ _ hi]
        exact List.getElem_mem hi
      rw [CountMinSketch.inc_spec s i o hi ho (hw _ hgd)]
      split
      · exact hw
      · rename_i hc
        intro w hwm
        try simp only [] at hwm
        rcases List.mem_or_eq_of_mem_set hwm with h1 | h1
        · exact hw w h1
        · subst h1
          exact nibble_no_overflow _ o (hw _ hgd) ho hc
    · rw [CountMinSketch.inc_out s i o (Or.inr (by omega))]
      exact hw
  · rw [CountMinSketch.inc_out s i o (Or.inl (by omega))]
    exact hw

/-- inc never decreases any 4-bit counter of any word. -/
theorem CountMinSketch.inc_ctr_mono (s : CountMinSketch) (i o : Nat)
    (hw : ∀ w ∈ s.table, w < 2 ^ 64) (i2 o2 : Nat) :
    counterOf (s.table.getD i2 0) o2 ≤
      counterOf ((s.inc i o).1.table.getD i2 0) o2 := by
  by_cases hi : i < s.table.length
  · by_cases ho : o ≤ 15
    · have hgd : s.table.getD i 0 ∈ s.table := by
        rw [List.getD_eq_getElem _ _ hi]
        exact List.getElem_mem hi
      rw [CountMinSketch.inc_getD s i o hi ho (hw _ hgd) i2]
      split
      · rename_i hcon
        rcases hcon with ⟨hii, hc⟩
        subst hii
        rw [counterOf_add_unit _ o o2 hc]
        omega
      · exact le_refl _
    · rw [CountMinSketch.inc_out s i o (Or.inr (by omega))]
  · rw [CountMinSketch.inc_out s i o (Or.inl (by omega))]

/-- Any 4-bit counter is at most 15. -/
theorem counterOf_le (w j : Nat) : counterOf w j ≤ 15 := Nat.and_le_right

/-- A default-0 table read is below 2^64 when all words are. -/
theorem tableWord_lt (s : CountMinSketch)
    (hw : ∀ w ∈ s.table, w < 2 ^ 64) (i : Nat) :
    s.table.getD i 0 < 2 ^ 64 := by
  by_cases hi : i < s.table.length
  · refine hw _ ?_
    rw [List.getD_eq_getElem _ _ hi]
    exact List.getElem_mem hi
  · rw [List.getD_eq_default _ _ (by omega)]
    positivity

/-- inc preserves the table length. -/
theorem CountMinSketch.inc_len (s : CountMinSketch) (i o : Nat) :
    (s.inc i o).1.table.length = s.table.length :=
  (CountMinSketch.inc_admin s i o).1

/-- index_of depends on the sketch only through its table length. -/
theorem CountMinSketch.index_of_congr (s1 s2 : CountMinSketch)
    (hlen : s1.table.length = s2.table.length) (ch blk o : Nat) :
    s1.index_of ch blk o = s2.index_of ch blk o := by
  unfold CountMinSketch.index_of
  rw [hlen]

/-- Under well-formedness the block base never saturates and leaves room for
all eight block words. -/
theorem CountMinSketch.blk_spec (s : CountMinSketch) (h : Nat) (hWF : s.WF) :
    satMul (h &&& s.block_mask) 8 = (h &&& s.block_mask) * 8 ∧
    (h &&& s.block_mask) * 8 + 8 ≤ s.table.length := by
  obtain ⟨h64, hlen, hdvd, hbm, hw⟩ := hWF
  have hble : h &&& s.block_mask ≤ s.table.length / 8 - 1 :=
    le_trans Nat.and_le_right (le_of_eq hbm)
  obtain ⟨q, hq⟩ := hdvd
  unfold satMul USIZE_MAX
  constructor
  · have : (h &&& s.block_mask) * 8 ≤ 2 ^ 64 - 1 := by omega
    omega
  · omega

/-- Under well-formedness index_of resolves to the explicit in-range cell. -/
theorem CountMinSketch.index_of_spec (s : CountMinSketch) (h : Nat)
    (hWF : s.WF) (o : Nat) (ho : o ≤ 3) :
    s.index_of (rehash h) (satMul (h &&& s.block_mask) 8) o =
      ((h &&& s.block_mask) * 8 + ((rehash h >>> (o <<< 3)) &&& 1) + 2 * o,
       ((rehash h >>> (o <<< 3)) >>> 1) &&& 0xF) ∧
    (h &&& s.block_mask) * 8 + ((rehash h >>> (o <<< 3)) &&& 1) + 2 * o <
      s.table.length := by
  obtain ⟨hblk, hb8⟩ := CountMinSketch.blk_spec s h hWF
  have hbit : (rehash h >>> (o <<< 3)) &&& 1 ≤ 1 := Nat.and_le_right
  have hidx : (h &&& s.block_mask) * 8 + ((rehash h >>> (o <<< 3)) &&& 1) +
      2 * o < s.table.length := by omega
  refine ⟨?_, hidx⟩
  have hlt : s.table.length ≤ 2 ^ 60 := hWF.2.1
  unfold CountMinSketch.index_of
  rw [if_neg (by omega), hblk]
  try simp only []
  have hsat1 : satAdd ((h &&& s.block_mask) * 8)
      ((rehash h >>> (o <<< 3)) &&& 1) =
      (h &&& s.block_mask) * 8 + ((rehash h >>> (o <<< 3)) &&& 1) := by
    unfold satAdd USIZE_MAX
    omega
  rw [hsat1, shiftLeftOne]
  have hsat2 : satAdd
      ((h &&& s.block_mask) * 8 + ((rehash h >>> (o <<< 3)) &&& 1)) (2 * o) =
      (h &&& s.block_mask) * 8 + ((rehash h >>> (o <<< 3)) &&& 1) + 2 * o := by
    unfold satAdd USIZE_MAX
    omega
  rw [hsat2, if_neg (by omega)]

/-- count in counter form for an in-range cell. -/
theorem CountMinSketch.count_spec (s : CountMinSketch) (ch blk o : Nat)
    (hor : (s.index_of ch blk o).1 < s.table.length)
    (ho2 : (s.index_of ch blk o).2 ≤ 15) :
    s.count ch blk o =
      counterOf (s.table.getD (s.index_of ch blk o).1 0)
        (s.index_of ch blk o).2 := by
  unfold CountMinSketch.count
  try simp only []
  rw [if_neg (by omega), if_neg (by omega)]
  unfold counterOf
  rw [shiftLeftTwo]

/-- incFour changes neither the table length nor the block mask. -/
theorem CountMinSketch.incFour_admin (s : CountMinSketch) (h : Nat) :
    (s.incFour h).1.table.length = s.table.length ∧
    (s.incFour h).1.block_mask = s.block_mask := by
  unfold CountMinSketch.incFour
  try simp only []
  constructor
  · rw [(CountMinSketch.inc_admin _ _ _).1, (CountMinSketch.inc_admin _ _ _).1,
      (CountMinSketch.inc_admin _ _ _).1, (CountMinSketch.inc_admin _ _ _).1]
  · rw [(CountMinSketch.inc_admin _ _ _).2, (CountMinSketch.inc_admin _ _ _).2,
      (CountMinSketch.inc_admin _ _ _).2, (CountMinSketch.inc_admin _ _ _).2]

/-- incFour keeps every table word below 2^64. -/
theorem CountMinSketch.incFour_words (s : CountMinSketch) (h : Nat)
    (hw : ∀ w ∈ s.table, w < 2 ^ 64) :
    ∀ w ∈ (s.incFour h).1.table, w < 2 ^ 64 := by
  unfold CountMinSketch.incFour
  try simp only []
  exact CountMinSketch.inc_words _ _ _ (CountMinSketch.inc_words _ _ _
    (CountMinSketch.inc_words _ _ _ (CountMinSketch.inc_words _ _ _ hw)))

/-- incFour never decreases any 4-bit counter of any word. -/
theorem CountMinSketch.incFour_ctr_mono (s : CountMinSketch) (h : Nat)
    (hw : ∀ w ∈ s.table, w < 2 ^ 64) (i2 o2 : Nat) :
    counterOf (s.table.getD i2 0) o2 ≤
      counterOf ((s.incFour h).1.table.getD i2 0) o2 := by
  unfold CountMinSketch.incFour
  try simp only []
  refine le_trans (CountMinSketch.inc_ctr_mono s _ _ hw i2 o2)
    (le_trans (CountMinSketch.inc_ctr_mono _ _ _
        (CountMinSketch.inc_words _ _ _ hw) i2 o2)
      (le_trans (CountMinSketch.inc_ctr_mono _ _ _
          (CountMinSketch.inc_words _ _ _
            (CountMinSketch.inc_words _ _ _ hw)) i2 o2)
        (CountMinSketch.inc_ctr_mono _ _ _
          (CountMinSketch.inc_words _ _ _ (CountMinSketch.inc_words _ _ _
            (CountMinSketch.inc_words _ _ _ hw))) i2 o2)))

/-- The count of each of the four cells of h after incFour is the saturating
increment of its previous value: the four cells are in distinct words, so
the four increments are independent. -/
theorem CountMinSketch.incFour_count (s : CountMinSketch) (h : Nat)
    (hWF : s.WF) (k : Nat) (hk : k ≤ 3) :
    (s.incFour h).1.count (rehash h) (satMul (h &&& s.block_mask) 8) k =
      min (s.count (rehash h) (satMul (h &&& s.block_mask) 8) k + 1) 15 := by
  have hw := hWF.2.2.2.2
  have hsp0 := CountMinSketch.index_of_spec s h hWF 0 (by omega)
  have hsp1 := CountMinSketch.index_of_spec s h hWF 1 (by omega)
  have hsp2 := CountMinSketch.index_of_spec s h hWF 2 (by omega)
  have hsp3 := CountMinSketch.index_of_spec s h hWF 3 (by omega)
  have hb0 : (rehash h >>> (0 <<< 3)) &&& 1 ≤ 1 := Nat.and_le_right
  have hb1 : (rehash h >>> (1 <<< 3)) &&& 1 ≤ 1 := Nat.and_le_right
  have hb2 : (rehash h >>> (2 <<< 3)) &&& 1 ≤ 1 := Nat.and_le_right
  have hb3 : (rehash h >>> (3 <<< 3)) &&& 1 ≤ 1 := Nat.and_le_right
  have hlen4 : (s.incFour h).1.table.length = s.table.length :=
    (CountMinSketch.incFour_admin s h).1
  have hcong : ∀ o : Nat, (s.incFour h).1.index_of (rehash h)
      (satMul (h &&& s.block_mask) 8) o =
      s.index_of (rehash h) (satMul (h &&& s.block_mask) 8) o :=
    fun o => CountMinSketch.index_of_congr _ _ hlen4 _ _ o
  interval_cases k
  · rw [CountMinSketch.count_spec ((s.incFour h).1) (rehash h)
        (satMul (h &&& s.block_mask) 8) 0
        (by rw [hcong 0, hsp0.1, hlen4]; exact hsp0.2)
        (by rw [hcong 0, hsp0.1]; exact Nat.and_le_right),
      CountMinSketch.count_spec s (rehash h)
        (satMul (h &&& s.block_mask) 8) 0
        (by rw [hsp0.1]; exact hsp0.2)
        (by rw [hsp0.1]; exact Nat.and_le_right)]
    rw [hcong 0, hsp0.1]
    try simp only []
    unfold CountMinSketch.incFour
    try simp only []
    rw [hsp0.1, hsp1.1, hsp2.1, hsp3.1]
    try simp only []
    rw [CountMinSketch.inc_getD_other _ _ _ _
      (show ((h &&& s.block_mask) * 8 + ((rehash h >>> (0 <<< 3)) &&& 1) + 2 * 0) ≠ ((h &&& s.block_mask) * 8 + ((rehash h >>> (3 <<< 3)) &&& 1) + 2 * 3) by omega)]
    rw [CountMinSketch.inc_getD_other _ _ _ _
      (show ((h &&& s.block_mask) * 8 + ((rehash h >>> (0 <<< 3)) &&& 1) + 2 * 0) ≠ ((h &&& s.block_mask) * 8 + ((rehash h >>> (2 <<< 3)) &&& 1) + 2 * 2) by omega)]
    rw [CountMinSketch.inc_getD_other _ _ _ _
      (show ((h &&& s.block_mask) * 8 + ((rehash h >>> (0 <<< 3)) &&& 1) + 2 * 0) ≠ ((h &&& s.block_mask) * 8 + ((rehash h >>> (1 <<< 3)) &&& 1) + 2 * 1) by omega)]
    rw [CountMinSketch.inc_getD_self s ((h &&& s.block_mask) * 8 + ((rehash h >>> (0 <<< 3)) &&& 1) + 2 * 0) (((rehash h >>> (0 <<< 3)) >>> 1) &&& 0xF)
      hsp0.2 Nat.and_le_right (tableWord_lt s hw ((h &&& s.block_mask) * 8 + ((rehash h >>> (0 <<< 3)) &&& 1) + 2 * 0))]
    split
    · rename_i hc15
      rw [hc15]
      omega
    · rename_i hc15
      rw [counterOf_add_unit _ _ _ hc15, if_pos rfl]
      have hle := counterOf_le (s.table.getD ((h &&& s.block_mask) * 8 + ((rehash h >>> (0 <<< 3)) &&& 1) + 2 * 0) 0) (((rehash h >>> (0 <<< 3)) >>> 1) &&& 0xF)
      omega
  · rw [CountMinSketch.count_spec ((s.incFour h).1) (rehash h)
        (satMul (h &&& s.block_mask) 8) 1
        (by rw [hcong 1, hsp1.1, hlen4]; exact hsp1.2)
        (by rw [hcong 1, hsp1.1]; exact Nat.and_le_right),
      CountMinSketch.count_spec s (rehash h)
        (satMul (h &&& s.block_mask) 8) 1
        (by rw [hsp1.1]; exact hsp1.2)
        (by rw [hsp1.1]; exact Nat.and_le_right)]
    rw [hcong 1, hsp1.1]
    try simp only []
    unfold CountMinSketch.incFour
    try simp only []
    rw [hsp0.1, hsp1.1, hsp2.1, hsp3.1]
    try simp only []
    rw [CountMinSketch.inc_getD_other _ _ _ _
      (show ((h &&& s.block_mask) * 8 + ((rehash h >>> (1 <<< 3)) &&& 1) + 2 * 1) ≠ ((h &&& s.block_mask) * 8 + ((rehash h >>> (3 <<< 3)) &&& 1) + 2 * 3) by omega)]
    rw [CountMinSketch.inc_getD_other _ _ _ _
      (show ((h &&& s.block_mask) * 8 + ((rehash h >>> (1 <<< 3)) &&& 1) + 2 * 1) ≠ ((h &&& s.block_mask) * 8 + ((rehash h >>> (2 <<< 3)) &&& 1) + 2 * 2) by omega)]
    rw [CountMinSketch.inc_getD_self (s.inc ((h &&& s.block_mask) * 8 + ((rehash h >>> (0 <<< 3)) &&& 1) + 2 * 0) (((rehash h >>> (0 <<< 3)) >>> 1) &&& 0xF)).1 ((h &&& s.block_mask) * 8 + ((rehash h >>> (1 <<< 3)) &&& 1) + 2 * 1) (((rehash h >>> (1 <<< 3)) >>> 1) &&& 0xF)
      (by rw [CountMinSketch.inc_len]; exact hsp1.2)
      Nat.and_le_right
      (by rw [CountMinSketch.inc_getD_other _ _ _ _ (show ((h &&& s.block_mask) * 8 + ((rehash h >>> (1 <<< 3)) &&& 1) + 2 * 1) ≠ ((h &&& s.block_mask) * 8 + ((rehash h >>> (0 <<< 3)) &&& 1) + 2 * 0) by omega)]
          exact tableWord_lt s hw ((h &&& s.block_mask) * 8 + ((rehash h >>> (1 <<< 3)) &&& 1) + 2 * 1))]
    rw [CountMinSketch.inc_getD_other _ _ _ _
      (show ((h &&& s.block_mask) * 8 + ((rehash h >>> (1 <<< 3)) &&& 1) + 2 * 1) ≠ ((h &&& s.block_mask) * 8 + ((rehash h >>> (0 <<< 3)) &&& 1) + 2 * 0) by omega)]
    split
    · rename_i hc15
      rw [hc15]
      omega
    · rename_i hc15
      rw [counterOf_add_unit _ _ _ hc15, if_pos rfl]
      have hle := counterOf_le (s.table.getD ((h &&& s.block_mask) * 8 + ((rehash h >>> (1 <<< 3)) &&& 1) + 2 * 1) 0) (((rehash h >>> (1 <<< 3)) >>> 1) &&& 0xF)
      omega
  · rw [CountMinSketch.count_spec ((s.incFour h).1) (rehash h)
        (satMul (h &&& s.block_mask) 8) 2
        (by rw [hcong 2, hsp2.1, hlen4]; exact hsp2.2)
        (by rw [hcong 2, hsp2.1]; exact Nat.and_le_right),
      CountMinSketch.count_spec s (rehash h)
        (satMul (h &&& s.block_mask) 8) 2
        (by rw [hsp2.1]; exact hsp2.2)
        (by rw [hsp2.1]; exact Nat.and_le_right)]
    rw [hcong 2, hsp2.1]
    try simp only []
    unfold CountMinSketch.incFour
    try simp only []
    rw [hsp0.1, hsp1.1, hsp2.1, hsp3.1]
    try simp only []
    rw [CountMinSketch.inc_getD_other _ _ _ _
      (show ((h &&& s.block_mask) * 8 + ((rehash h >>> (2 <<< 3)) &&& 1) + 2 * 2) ≠ ((h &&& s.block_mask) * 8 + ((rehash h >>> (3 <<< 3)) &&& 1) + 2 * 3) by omega)]
    rw [CountMinSketch.inc_getD_self ((s.inc ((h &&& s.block_mask) * 8 + ((rehash h >>> (0 <<< 3)) &&& 1) + 2 * 0) (((rehash h >>> (0 <<< 3)) >>> 1) &&& 0xF)).1.inc ((h &&& s.block_mask) * 8 + ((rehash h >>> (1 <<< 3)) &&& 1) + 2 * 1) (((rehash h >>> (1 <<< 3)) >>> 1) &&& 0xF)).1 ((h &&& s.block_mask) * 8 + ((rehash h >>> (2 <<< 3)) &&& 1) + 2 * 2) (((rehash h >>> (2 <<< 3)) >>> 1) &&& 0xF)
      (by rw [CountMinSketch.inc_len, CountMinSketch.inc_len]; exact hsp2.2)
      Nat.and_le_right
      (by rw [CountMinSketch.inc_getD_other _ _ _ _ (show ((h &&& s.block_mask) * 8 + ((rehash h >>> (2 <<< 3)) &&& 1) + 2 * 2) ≠ ((h &&& s.block_mask) * 8 + ((rehash h >>> (1 <<< 3)) &&& 1) + 2 * 1) by omega),
          CountMinSketch.inc_getD_other _ _ _ _ (show ((h &&& s.block_mask) * 8 + ((rehash h >>> (2 <<< 3)) &&& 1) + 2 * 2) ≠ ((h &&& s.block_mask) * 8 + ((rehash h >>> (0 <<< 3)) &&& 1) + 2 * 0) by omega)]
          exact tableWord_lt s hw ((h &&& s.block_mask) * 8 + ((rehash h >>> (2 <<< 3)) &&& 1) + 2 * 2))]
    rw [CountMinSketch.inc_getD_other _ _ _ _
      (show ((h &&& s.block_mask) * 8 + ((rehash h >>> (2 <<< 3)) &&& 1) + 2 * 2) ≠ ((h &&& s.block_mask) * 8 + ((rehash h >>> (1 <<< 3)) &&& 1) + 2 * 1) by omega)]
    rw [CountMinSketch.inc_getD_other _ _ _ _
      (show ((h &&& s.block_mask) * 8 + ((rehash h >>> (2 <<< 3)) &&& 1) + 2 * 2) ≠ ((h &&& s.block_mask) * 8 + ((rehash h >>> (0 <<< 3)) &&& 1) + 2 * 0) by omega)]
    split
    · rename_i hc15
      rw [hc15]
      omega
    · rename_i hc15
      rw [counterOf_add_unit _ _ _ hc15, if_pos rfl]
      have hle := counterOf_le (s.table.getD ((h &&& s.block_mask) * 8 + ((rehash h >>> (2 <<< 3)) &&& 1) + 2 * 2) 0) (((rehash h >>> (2 <<< 3)) >>> 1) &&& 0xF)
      omega
  · rw [CountMinSketch.count_spec ((s.incFour h).1) (rehash h)
        (satMul (h &&& s.block_mask) 8) 3
        (by rw [hcong 3, hsp3.1, hlen4]; exact hsp3.2)
        (by rw [hcong 3, hsp3.1]; exact Nat.and_le_right),
      CountMinSketch.count_spec s (rehash h)
        (satMul (h &&& s.block_mask) 8) 3
        (by rw [hsp3.1]; exact hsp3.2)
        (by rw [hsp3.1]; exact Nat.and_le_right)]
    rw [hcong 3, hsp3.1]
    try simp only []
    unfold CountMinSketch.incFour
    try simp only []
    rw [hsp0.1, hsp1.1, hsp2.1, hsp3.1]
    try simp only []
    rw [CountMinSketch.inc_getD_self (((s.inc ((h &&& s.block_mask) * 8 + ((rehash h >>> (0 <<< 3)) &&& 1) + 2 * 0) (((rehash h >>> (0 <<< 3)) >>> 1) &&& 0xF)).1.inc ((h &&& s.block_mask) * 8 + ((rehash h >>> (1 <<< 3)) &&& 1) + 2 * 1) (((rehash h >>> (1 <<< 3)) >>> 1) &&& 0xF)).1.inc ((h &&& s.block_mask) * 8 + ((rehash h >>> (2 <<< 3)) &&& 1) + 2 * 2) (((rehash h >>> (2 <<< 3)) >>> 1) &&& 0xF)).1 ((h &&& s.block_mask) * 8 + ((rehash h >>> (3 <<< 3)) &&& 1) + 2 * 3) (((rehash h >>> (3 <<< 3)) >>> 1) &&& 0xF)
      (by rw [CountMinSketch.inc_len, CountMinSketch.inc_len, CountMinSketch.inc_len]; exact hsp3.2)
      Nat.and_le_right
      (by rw [CountMinSketch.inc_getD_other _ _ _ _ (show ((h &&& s.block_mask) * 8 + ((rehash h >>> (3 <<< 3)) &&& 1) + 2 * 3) ≠ ((h &&& s.block_mask) * 8 + ((rehash h >>> (2 <<< 3)) &&& 1) + 2 * 2) by omega),
          CountMinSketch.inc_getD_other _ _ _ _ (show ((h &&& s.block_mask) * 8 + ((rehash h >>> (3 <<< 3)) &&& 1) + 2 * 3) ≠ ((h &&& s.block_mask) * 8 + ((rehash h >>> (1 <<< 3)) &&& 1) + 2 * 1) by omega),
          CountMinSketch.inc_getD_other _ _ _ _ (show ((h &&& s.block_mask) * 8 + ((rehash h >>> (3 <<< 3)) &&& 1) + 2 * 3) ≠ ((h &&& s.block_mask) * 8 + ((rehash h >>> (0 <<< 3)) &&& 1) + 2 * 0) by omega)]
          exact tableWord_lt s hw ((h &&& s.block_mask) * 8 + ((rehash h >>> (3 <<< 3)) &&& 1) + 2 * 3))]
    rw [CountMinSketch.inc_getD_other _ _ _ _
      (show ((h &&& s.block_mask) * 8 + ((rehash h >>> (3 <<< 3)) &&& 1) + 2 * 3) ≠ ((h &&& s.block_mask) * 8 + ((rehash h >>> (2 <<< 3)) &&& 1) + 2 * 2) by omega)]
    rw [CountMinSketch.inc_getD_other _ _ _ _
      (show ((h &&& s.block_mask) * 8 + ((rehash h >>> (3 <<< 3)) &&& 1) + 2 * 3) ≠ ((h &&& s.block_mask) * 8 + ((rehash h >>> (1 <<< 3)) &&& 1) + 2 * 1) by omega)]
    rw [CountMinSketch.inc_getD_other _ _ _ _
      (show ((h &&& s.block_mask) * 8 + ((rehash h >>> (3 <<< 3)) &&& 1) + 2 * 3) ≠ ((h &&& s.block_mask) * 8 + ((rehash h >>> (0 <<< 3)) &&& 1) + 2 * 0) by omega)]
    split
    · rename_i hc15
      rw [hc15]
      omega
    · rename_i hc15
      rw [counterOf_add_unit _ _ _ hc15, if_pos rfl]
      have hle := counterOf_le (s.table.getD ((h &&& s.block_mask) * 8 + ((rehash h >>> (3 <<< 3)) &&& 1) + 2 * 3) 0) (((rehash h >>> (3 <<< 3)) >>> 1) &&& 0xF)
      omega

/-- estimate is definitionally the minimum of the four counts. -/
theorem CountMinSketch.estimate_eq_min_counts (s : CountMinSketch)
    (h2 : Nat) :
    s.estimate h2 =
      min (min (min (s.count (rehash h2) (satMul (h2 &&& s.block_mask) 8) 0)
        (s.count (rehash h2) (satMul (h2 &&& s.block_mask) 8) 1))
        (s.count (rehash h2) (satMul (h2 &&& s.block_mask) 8) 2))
        (s.count (rehash h2) (satMul (h2 &&& s.block_mask) 8) 3) := rfl

/-- No count ever decreases under incFour. -/
theorem CountMinSketch.incFour_count_mono (s : CountMinSketch) (h : Nat)
    (hw : ∀ w ∈ s.table, w < 2 ^ 64) (ch blk o : Nat) :
    s.count ch blk o ≤ (s.incFour h).1.count ch blk o := by
  unfold CountMinSketch.count
  try simp only []
  rw [CountMinSketch.index_of_congr (s.incFour h).1 s
      (CountMinSketch.incFour_admin s h).1 ch blk o,
    (CountMinSketch.incFour_admin s h).1]
  split
  · exact le_refl _
  · split
    · exact le_refl _
    · rw [shiftLeftTwo]
      exact CountMinSketch.incFour_ctr_mono s h hw _ _

/-- The estimate of every hash is monotone under incFour. -/
theorem CountMinSketch.incFour_estimate_mono (s : CountMinSketch) (h : Nat)
    (hw : ∀ w ∈ s.table, w < 2 ^ 64) (h2 : Nat) :
    s.estimate h2 ≤ (s.incFour h).1.estimate h2 := by
  rw [CountMinSketch.estimate_eq_min_counts, CountMinSketch.estimate_eq_min_counts,
    (CountMinSketch.incFour_admin s h).2]
  have m0 := CountMinSketch.incFour_count_mono s h hw (rehash h2)
    (satMul (h2 &&& s.block_mask) 8) 0
  have m1 := CountMinSketch.incFour_count_mono s h hw (rehash h2)
    (satMul (h2 &&& s.block_mask) 8) 1
  have m2 := CountMinSketch.incFour_count_mono s h hw (rehash h2)
    (satMul (h2 &&& s.block_mask) 8) 2
  have m3 := CountMinSketch.incFour_count_mono s h hw (rehash h2)
    (satMul (h2 &&& s.block_mask) 8) 3
  omega

/-- When the aging step does not trigger, add computes estimates exactly as
incFour does (the additions bookkeeping is invisible to estimate). -/
theorem CountMinSketch.add_estimate_no_aging (s : CountMinSketch) (h : Nat)
    (hna : ¬ s.sample_size ≤ satAdd (s.incFour h).1.additions 1) (h2 : Nat) :
    (s.add h).estimate h2 = (s.incFour h).1.estimate h2 := by
  unfold CountMinSketch.add
  try simp only []
  split
  · rw [if_neg (by
      try simp only []
      rw [(CountMinSketch.incFour_fields s h).1]
      exact hna)]
    rfl
  · rfl

/-- C10: under well-formedness, estimate returns the minimum of the four
4-bit counters selected for the hash; and when add does not trigger the
aging step, the estimate of the added hash becomes min(previous + 1, 15)
while the estimate of every hash (the added one included) never
decreases. -/
theorem sketch_estimate_minimum_and_monotone (s : CountMinSketch) (h : Nat)
    (hWF : s.WF)
    (hna : ¬ s.sample_size ≤ satAdd (s.incFour h).1.additions 1) :
    (∀ h2, s.estimate h2 =
      min (min (min (counterOf (s.table.getD
        (s.index_of (rehash h2) (satMul (h2 &&& s.block_mask) 8) 0).1 0)
        (s.index_of (rehash h2) (satMul (h2 &&& s.block_mask) 8) 0).2)
        (counterOf (s.table.getD
        (s.index_of (rehash h2) (satMul (h2 &&& s.block_mask) 8) 1).1 0)
        (s.index_of (rehash h2) (satMul (h2 &&& s.block_mask) 8) 1).2))
        (counterOf (s.table.getD
        (s.index_of (rehash h2) (satMul (h2 &&& s.block_mask) 8) 2).1 0)
        (s.index_of (rehash h2) (satMul (h2 &&& s.block_mask) 8) 2).2))
        (counterOf (s.table.getD
        (s.index_of (rehash h2) (satMul (h2 &&& s.block_mask) 8) 3).1 0)
        (s.index_of (rehash h2) (satMul (h2 &&& s.block_mask) 8) 3).2)) ∧
    (s.add h).estimate h = min (s.estimate h + 1) 15 ∧
    (∀ h2, s.estimate h2 ≤ (s.add h).estimate h2) := by
  refine ⟨?_, ?_, ?_⟩
  · intro h2
    have hsp0 := CountMinSketch.index_of_spec s h2 hWF 0 (by omega)
    have hsp1 := CountMinSketch.index_of_spec s h2 hWF 1 (by omega)
    have hsp2 := CountMinSketch.index_of_spec s h2 hWF 2 (by omega)
    have hsp3 := CountMinSketch.index_of_spec s h2 hWF 3 (by omega)
    rw [CountMinSketch.estimate_eq_min_counts,
      CountMinSketch.count_spec s (rehash h2) (satMul (h2 &&& s.block_mask) 8)
        0 (by rw [hsp0.1]; exact hsp0.2) (by rw [hsp0.1]; exact Nat.and_le_right),
      CountMinSketch.count_spec s (rehash h2) (satMul (h2 &&& s.block_mask) 8)
        1 (by rw [hsp1.1]; exact hsp1.2) (by rw [hsp1.1]; exact Nat.and_le_right),
      CountMinSketch.count_spec s (rehash h2) (satMul (h2 &&& s.block_mask) 8)
        2 (by rw [hsp2.1]; exact hsp2.2) (by rw [hsp2.1]; exact Nat.and_le_right),
      CountMinSketch.count_spec s (rehash h2) (satMul (h2 &&& s.block_mask) 8)
        3 (by rw [hsp3.1]; exact hsp3.2) (by rw [hsp3.1]; exact Nat.and_le_right)]
  · rw [CountMinSketch.add_estimate_no_aging s h hna h,
      CountMinSketch.estimate_eq_min_counts,
      CountMinSketch.estimate_eq_min_counts,
      (CountMinSketch.incFour_admin s h).2,
      CountMinSketch.incFour_count s h hWF 0 (by omega),
      CountMinSketch.incFour_count s h hWF 1 (by omega),
      CountMinSketch.incFour_count s h hWF 2 (by omega),
      CountMinSketch.incFour_count s h hWF 3 (by omega)]
    omega
  · intro h2
    rw [CountMinSketch.add_estimate_no_aging s h hna h2]
    exact CountMinSketch.incFour_estimate_mono s h hWF.2.2.2.2 h2

/-- C10 witness: a fresh 64-slot sketch, whose first add of hash 5 cannot
trigger aging. -/
theorem sketch_estimate_minimum_and_monotone_witness :
    (CountMinSketch.new 64).WF ∧
    ¬ (CountMinSketch.new 64).sample_size ≤
      satAdd (((CountMinSketch.new 64).incFour 5).1).additions 1 ∧
    ((CountMinSketch.new 64).add 5).estimate 5 =
      min ((CountMinSketch.new 64).estimate 5 + 1) 15 := by
  refine ⟨by decide, by decide,
    (sketch_estimate_minimum_and_monotone (CountMinSketch.new 64) 5
      (by decide) (by decide)).2.1⟩

/-- The eviction loop returns immediately once the size fits, whatever the
fuel. -/
theorem TinyLfu.mainLoop_done (n : Nat) (t : TinyLfu) (es : EntriesMap)
    (c : EvictCursor) (h : t.size ≤ t.capacity) :
    TinyLfu.evictFromMainLoop n t es c = .ok t es c.evicted := by
  cases n <;> simp [TinyLfu.evictFromMainLoop, h]

/-- A tagged key resolves to an entry with the matching region id and a live
index. -/
theorem entryTagged_find (es : EntriesMap) (k i : Nat)
    (h : entryTagged es k i = true) :
    ∃ e, es.find k = some e ∧ e.policy_list_id = i ∧
      e.policy_list_index = true := by
  unfold entryTagged at h
  rcases hfind : es.find k with _ | e <;> rw [hfind] at h
  · exact absurd h (by simp)
  · rcases Bool.and_eq_true_iff.mp h with ⟨h1, h2⟩
    exact ⟨e, rfl, by simpa using h1, h2⟩

/-- Removing a properly tagged entry always succeeds and decrements the size
counter, leaving the capacity alone. -/
theorem TinyLfu.removeEntry_ok (t : TinyLfu) (e : Entry) (k : Nat)
    (hid : e.policy_list_id = 1 ∨ e.policy_list_id = 2 ∨
      e.policy_list_id = 3)
    (hidx : e.policy_list_index = true) :
    ∃ t2, t.removeEntry e k = some t2 ∧ t2.size = t.size - 1 ∧
      t2.capacity = t.capacity := by
  rcases hid with hid | hid | hid
  · refine ⟨{ t with
              window := { list := t.window.list.removeKey k },
              size := satSub t.size 1 }, ?_, rfl, rfl⟩
    simp only [TinyLfu.removeEntry, hid, Lru.remove, hidx]
    norm_num
  · refine ⟨{ t with
              main := { t.main with
                        probation := t.main.probation.removeKey k },
              size := satSub t.size 1 }, ?_, rfl, rfl⟩
    simp only [TinyLfu.removeEntry, hid, Slru.remove, hidx]
    norm_num
  · refine ⟨{ t with
              main := { t.main with
                        protectedList :=
                          t.main.protectedList.removeKey k },
              size := satSub t.size 1 }, ?_, rfl, rfl⟩
    simp only [TinyLfu.removeEntry, hid, Slru.remove, hidx]
    norm_num

/-- prev_key of a key whose entry carries a region tag never panics. -/
theorem TinyLfu.prevKey_ok (t : TinyLfu) (es : EntriesMap) (k : Nat)
    (e : Entry) (hfind : es.find k = some e)
    (hid : e.policy_list_id = 1 ∨ e.policy_list_id = 2 ∨
      e.policy_list_id = 3) :
    ∃ p, t.prevKey es (some k) = some p := by
  rcases hid with hid | hid | hid <;>
    simp [TinyLfu.prevKey, hfind, hid]

/-- Adjusting one key leaves every other key's tag unchanged. -/
theorem entryTagged_adjust_ne (es : EntriesMap) (k : Nat) (f : Entry → Entry)
    (k2 i : Nat) (hne : k2 ≠ k) :
    entryTagged (es.adjust k f) k2 i = entryTagged es k2 i := by
  unfold entryTagged
  rw [EntriesMap.find_adjust, if_neg hne]

/-- The window drain preserves coherence, the size and capacity counters,
restores the window bound, and leaves the first drained key (when any) in
the probation list. -/
theorem TinyLfu.drain_ok : ∀ (n : Nat) (t : TinyLfu) (es : EntriesMap)
    (first : Option Nat),
    t.coherent es →
    (∀ k0, first = some k0 → k0 ∈ t.main.probation.items) →
    t.window.list.len ≤ n + t.window.list.capacity →
    (TinyLfu.evictFromWindowLoop n t es first).1.coherent
      (TinyLfu.evictFromWindowLoop n t es first).2.1 ∧
    (TinyLfu.evictFromWindowLoop n t es first).1.window.list.len ≤
      (TinyLfu.evictFromWindowLoop n t es first).1.window.list.capacity ∧
    (TinyLfu.evictFromWindowLoop n t es first).1.size = t.size ∧
    (TinyLfu.evictFromWindowLoop n t es first).1.capacity = t.capacity ∧
    (∀ k0, (TinyLfu.evictFromWindowLoop n t es first).2.2 = some k0 →
      k0 ∈ (TinyLfu.evictFromWindowLoop n t es first).1.main.probation.items) := by
  intro n
  induction n with
  | zero =>
    intro t es first hco hfirst hlen
    exact ⟨hco, by simpa using hlen, rfl, rfl, hfirst⟩
  | succ n ih =>
    intro t es first hco hfirst hlen
    by_cases hfit : t.window.list.len ≤ t.window.list.capacity
    · have hstep0 : TinyLfu.evictFromWindowLoop (n + 1) t es first =
          (t, es, first) := by
        simp only [TinyLfu.evictFromWindowLoop, hfit, if_pos, reduceIte]
      rw [hstep0]
      exact ⟨hco, hfit, rfl, rfl, hfirst⟩
    · rcases hlast : t.window.list.items.getLast? with _ | k
      · exfalso
        rw [List.getLast?_eq_none_iff] at hlast
        apply hfit
        simp [PList.len, hlast]
      · obtain ⟨l2, hW⟩ := List.getLast?_eq_some_iff.mp hlast
        obtain ⟨hnodup, htagW, htagPb, htagPt, hsum⟩ := hco
        have hkW : k ∈ t.window.list.items :=
          List.mem_of_getLast?_eq_some hlast
        obtain ⟨e, hfind, hid, hidx⟩ :=
          entryTagged_find es k 1 (htagW k hkW)
        have hnodup2 := hnodup
        rw [hW] at hnodup2
        have hWPb : ((l2 ++ [k]) ++ t.main.probation.items).Nodup :=
          hnodup2.of_append_left
        have hkl2 : k ∉ l2 := by
          have h1 : (l2 ++ [k]).Nodup := hWPb.of_append_left
          intro hc
          exact (List.disjoint_of_nodup_append h1 hc) (by simp)
        have hkPb : k ∉ t.main.probation.items := by
          intro hc
          exact (List.disjoint_of_nodup_append hWPb (by simp [hW ▸ hkW])) hc
        have hkPt : k ∉ t.main.protectedList.items := by
          intro hc
          refine (List.disjoint_of_nodup_append hnodup2 ?_) hc
          exact List.mem_append_left _ (by simp)
        obtain ⟨f2, hstep, hf2⟩ : ∃ f2,
            TinyLfu.evictFromWindowLoop (n + 1) t es first =
              TinyLfu.evictFromWindowLoop n
                { t with
                window := { list :=
                  { items := t.window.list.items.dropLast,
                    capacity := t.window.list.capacity } },
                main := { t.main with
                  probation :=
                    { items := k :: t.main.probation.items,
                      capacity := t.main.probation.capacity } } }
                (es.adjust k (fun _ =>
                { e with policy_list_index := true, policy_list_id := 2 }))
                f2 ∧
            (∀ k0, f2 = some k0 → k0 ∈ k :: t.main.probation.items) := by
          rcases first with _ | f
          · refine ⟨some k, ?_, ?_⟩
            · simp only [TinyLfu.evictFromWindowLoop, PList.popTail]
              rw [if_neg hfit]
              simp only [hlast, hfind, Slru.insert, PList.insertFront]
            · intro k0 hk0
              simp only [Option.some.injEq] at hk0
              simp [hk0]
          · refine ⟨some f, ?_, ?_⟩
            · simp only [TinyLfu.evictFromWindowLoop, PList.popTail]
              rw [if_neg hfit]
              simp only [hlast, hfind, Slru.insert, PList.insertFront]
            · intro k0 hk0
              simp only [Option.some.injEq] at hk0
              subst hk0
              exact List.mem_cons_of_mem _ (hfirst f rfl)
        rw [hstep]
        have hitems : t.window.list.items.dropLast = l2 := by
          rw [hW, List.dropLast_concat]
        have hco3 : TinyLfu.coherent
            { t with
                window := { list :=
                  { items := t.window.list.items.dropLast,
                    capacity := t.window.list.capacity } },
                main := { t.main with
                  probation :=
                    { items := k :: t.main.probation.items,
                      capacity := t.main.probation.capacity } } }
            (es.adjust k (fun _ =>
                { e with policy_list_index := true, policy_list_id := 2 })) := by
          refine ⟨?_, ?_, ?_, ?_, ?_⟩
          · show (t.window.list.items.dropLast ++
              (k :: t.main.probation.items) ++
              t.main.protectedList.items).Nodup
            rw [hitems,
              show l2 ++ (k :: t.main.probation.items) ++
                  t.main.protectedList.items =
                (l2 ++ [k]) ++ t.main.probation.items ++
                  t.main.protectedList.items from by
                simp [List.append_assoc]]
            exact hnodup2
          · intro k2 hk2
            rw [hitems] at hk2
            rw [entryTagged_adjust_ne es k _ k2 1 (fun he => hkl2 (he ▸ hk2))]
            exact htagW k2 (by rw [hW]; exact List.mem_append_left _ hk2)
          · intro k2 hk2
            rcases List.mem_cons.mp hk2 with hk2 | hk2
            · subst hk2
              unfold entryTagged
              rw [EntriesMap.find_adjust, if_pos rfl, hfind]
              simp
            · rw [entryTagged_adjust_ne es k _ k2 2 (fun he => hkPb (he ▸ hk2))]
              exact htagPb k2 hk2
          · intro k2 hk2
            rw [entryTagged_adjust_ne es k _ k2 3 (fun he => hkPt (he ▸ hk2))]
            exact htagPt k2 hk2
          · show t.size = t.window.list.items.dropLast.length +
              (k :: t.main.probation.items).length +
              t.main.protectedList.items.length
            rw [hitems]
            simp only [PList.len] at hsum
            rw [hW] at hsum
            simp only [List.length_append, List.length_cons,
              List.length_nil] at hsum ⊢
            omega
        have hlen3 :
            ({ t with
                window := { list :=
                  { items := t.window.list.items.dropLast,
                    capacity := t.window.list.capacity } },
                main := { t.main with
                  probation :=
                    { items := k :: t.main.probation.items,
                      capacity := t.main.probation.capacity } } } : TinyLfu).window.list.len ≤
              n + ({ t with
                window := { list :=
                  { items := t.window.list.items.dropLast,
                    capacity := t.window.list.capacity } },
                main := { t.main with
                  probation :=
                    { items := k :: t.main.probation.items,
                      capacity := t.main.probation.capacity } } } : TinyLfu).window.list.capacity := by
          show t.window.list.items.dropLast.length ≤
            n + t.window.list.capacity
          rw [hitems]
          have hl : t.window.list.len = l2.length + 1 := by
            simp [PList.len, hW]
          omega
        have hres := ih _ _ _ hco3 hf2 hlen3
        exact ⟨hres.1, hres.2.1, hres.2.2.1, hres.2.2.2.1, hres.2.2.2.2⟩

/-- The candidate-versus-victim loop of evict_from_main, started on a
coherent state with at most one entry of overshoot and a candidate seed
drawn from the probation list, returns normally within three iterations of
fuel. -/
theorem TinyLfu.mainLoop_ok (n : Nat) (t : TinyLfu) (es : EntriesMap)
    (first : Option Nat) (hco : t.coherent es)
    (hsz : t.size ≤ t.capacity + 1)
    (hfirst : ∀ k0, first = some k0 → k0 ∈ t.main.probation.items)
    (hn : 3 ≤ n) :
    ∃ t2 es2 ev, TinyLfu.evictFromMainLoop n t es
      { victim_queue := PolicyQueue.Probation,
        candidate_queue := PolicyQueue.Probation,
        victim := t.main.probation.tailKey, candidate := first,
        evicted := none } = .ok t2 es2 ev := by
  by_cases hgt : t.size ≤ t.capacity
  · exact ⟨t, es, none, TinyLfu.mainLoop_done _ _ _ _ hgt⟩
  · obtain ⟨m2, rfl, hm2⟩ : ∃ m2, n = m2 + 1 ∧ 2 ≤ m2 :=
      ⟨n - 1, by omega, by omega⟩
    have hone : t.size = t.capacity + 1 := by omega
    obtain ⟨hnodup, htagW, htagPb, htagPt, hsum⟩ := hco
    have hdisjWPb : t.window.list.items.Disjoint t.main.probation.items :=
      List.disjoint_of_nodup_append hnodup.of_append_left
    rcases hf : first with _ | k0
    · -- no drained candidate: refill from the window tail
      rcases hwt : t.window.list.tailKey with _ | w0
      · -- window empty
        rcases hv : t.main.probation.tailKey with _ | v0
        · -- probation empty too: switch the victim queue to protected
          have hWnil : t.window.list.items = [] :=
            List.getLast?_eq_none_iff.mp hwt
          have hPbnil : t.main.probation.items = [] :=
            List.getLast?_eq_none_iff.mp hv
          rcases hp : t.main.protectedList.tailKey with _ | p0
          · exfalso
            have hPtnil : t.main.protectedList.items = [] :=
              List.getLast?_eq_none_iff.mp hp
            simp only [PList.len, hWnil, hPbnil, hPtnil,
              List.length_nil] at hsum
            omega
          · have hp0 : p0 ∈ t.main.protectedList.items :=
              List.mem_of_getLast?_eq_some hp
            obtain ⟨ep, hfindp, hidp, hidxp⟩ :=
              entryTagged_find es p0 3 (htagPt p0 hp0)
            obtain ⟨pv, hpv⟩ :=
              TinyLfu.prevKey_ok t es p0 ep hfindp (Or.inr (Or.inr hidp))
            obtain ⟨t2, hrem, hsz2, hcap2⟩ :=
              TinyLfu.removeEntry_ok t ep p0 (Or.inr (Or.inr hidp)) hidxp
            have hev : TinyLfu.evictOne t es (some p0) none =
                some (t2, some p0) := by
              simp [TinyLfu.evictOne, hfindp, hrem]
            obtain ⟨m3, rfl⟩ : ∃ m3, m2 = m3 + 1 := ⟨m2 - 1, by omega⟩
            refine ⟨t2, es, some p0, ?_⟩
            have hstep1 : TinyLfu.evictFromMainLoop (m3 + 1 + 1) t es
                { victim_queue := PolicyQueue.Probation,
                  candidate_queue := PolicyQueue.Probation,
                  victim := none, candidate := none,
                  evicted := none } =
                TinyLfu.evictFromMainLoop (m3 + 1) t es
                { victim_queue := PolicyQueue.Protected,
                  candidate_queue := PolicyQueue.Window,
                  victim := some p0, candidate := none,
                  evicted := none } := by
              simp [TinyLfu.evictFromMainLoop, hgt, hwt, hp]
            have hstep2 : TinyLfu.evictFromMainLoop (m3 + 1) t es
                { victim_queue := PolicyQueue.Protected,
                  candidate_queue := PolicyQueue.Window,
                  victim := some p0, candidate := none,
                  evicted := none } =
                TinyLfu.evictFromMainLoop m3 t2 es
                { victim_queue := PolicyQueue.Protected,
                  candidate_queue := PolicyQueue.Window,
                  victim := pv, candidate := none, evicted := some p0 } := by
              simp [TinyLfu.evictFromMainLoop, hgt, hp, hpv, hev]
            rw [hstep1, hstep2]
            exact TinyLfu.mainLoop_done _ _ _ _ (by omega)
        · -- probation victim available, no candidate anywhere
          have hv0 : v0 ∈ t.main.probation.items :=
            List.mem_of_getLast?_eq_some hv
          obtain ⟨ev0, hfindv, hidv, hidxv⟩ :=
            entryTagged_find es v0 2 (htagPb v0 hv0)
          obtain ⟨pv, hpv⟩ :=
            TinyLfu.prevKey_ok t es v0 ev0 hfindv (Or.inr (Or.inl hidv))
          obtain ⟨t2, hrem, hsz2, hcap2⟩ :=
            TinyLfu.removeEntry_ok t ev0 v0 (Or.inr (Or.inl hidv)) hidxv
          have hev : TinyLfu.evictOne t es (some v0) none =
              some (t2, some v0) := by
            simp [TinyLfu.evictOne, hfindv, hrem]
          refine ⟨t2, es, some v0, ?_⟩
          have hstep1 : TinyLfu.evictFromMainLoop (m2 + 1) t es
              { victim_queue := PolicyQueue.Probation,
                candidate_queue := PolicyQueue.Probation,
                victim := some v0, candidate := none,
                evicted := none } =
              TinyLfu.evictFromMainLoop m2 t2 es
              { victim_queue := PolicyQueue.Probation,
                candidate_queue := PolicyQueue.Window,
                victim := pv, candidate := none, evicted := some v0 } := by
            simp [TinyLfu.evictFromMainLoop, hgt, hwt, hpv, hev]
          rw [hstep1]
          exact TinyLfu.mainLoop_done _ _ _ _ (by omega)
      · -- window candidate w0
        have hw0 : w0 ∈ t.window.list.items :=
          List.mem_of_getLast?_eq_some hwt
        obtain ⟨ew, hfindw, hidw, hidxw⟩ :=
          entryTagged_find es w0 1 (htagW w0 hw0)
        rcases hv : t.main.probation.tailKey with _ | v0
        · -- no victim: evict the candidate
          obtain ⟨pc, hpc⟩ :=
            TinyLfu.prevKey_ok t es w0 ew hfindw (Or.inl hidw)
          obtain ⟨t2, hrem, hsz2, hcap2⟩ :=
            TinyLfu.removeEntry_ok t ew w0 (Or.inl hidw) hidxw
          have hev : TinyLfu.evictOne t es (some w0) none =
              some (t2, some w0) := by
            simp [TinyLfu.evictOne, hfindw, hrem]
          refine ⟨t2, es, some w0, ?_⟩
          have hstep1 : TinyLfu.evictFromMainLoop (m2 + 1) t es
              { victim_queue := PolicyQueue.Probation,
                candidate_queue := PolicyQueue.Probation,
                victim := none, candidate := none,
                evicted := none } =
              TinyLfu.evictFromMainLoop m2 t2 es
              { victim_queue := PolicyQueue.Probation,
                candidate_queue := PolicyQueue.Window,
                victim := none, candidate := pc,
                evicted := some w0 } := by
            simp [TinyLfu.evictFromMainLoop, hgt, hwt, hpc, hev]
          rw [hstep1]
          exact TinyLfu.mainLoop_done _ _ _ _ (by omega)
        · -- candidate w0 versus victim v0 (distinct lists, so distinct)
          have hv0 : v0 ∈ t.main.probation.items :=
            List.mem_of_getLast?_eq_some hv
          have hne : v0 ≠ w0 := fun he => hdisjWPb (he ▸ hw0) hv0
          obtain ⟨ev0, hfindv, hidv, hidxv⟩ :=
            entryTagged_find es v0 2 (htagPb v0 hv0)
          rcases hadm : t.admit w0 v0 with _ | _
          · -- candidate loses: evict it
            obtain ⟨pc, hpc⟩ :=
              TinyLfu.prevKey_ok t es w0 ew hfindw (Or.inl hidw)
            obtain ⟨t2, hrem, hsz2, hcap2⟩ :=
              TinyLfu.removeEntry_ok t ew w0 (Or.inl hidw) hidxw
            have hev : TinyLfu.evictOne t es (some w0) none =
                some (t2, some w0) := by
              simp [TinyLfu.evictOne, hfindw, hrem]
            refine ⟨t2, es, some w0, ?_⟩
            have hstep1 : TinyLfu.evictFromMainLoop (m2 + 1) t es
                { victim_queue := PolicyQueue.Probation,
                  candidate_queue := PolicyQueue.Probation,
                  victim := some v0, candidate := none,
                  evicted := none } =
                TinyLfu.evictFromMainLoop m2 t2 es
                { victim_queue := PolicyQueue.Probation,
                  candidate_queue := PolicyQueue.Window,
                  victim := some v0, candidate := pc,
                  evicted := some w0 } := by
              simp [TinyLfu.evictFromMainLoop, hgt, hwt, hne, hadm,
                hpc, hev]
            rw [hstep1]
            exact TinyLfu.mainLoop_done _ _ _ _ (by omega)
          · -- candidate admitted: evict the victim
            obtain ⟨pv, hpv⟩ :=
              TinyLfu.prevKey_ok t es v0 ev0 hfindv (Or.inr (Or.inl hidv))
            obtain ⟨t2, hrem, hsz2, hcap2⟩ :=
              TinyLfu.removeEntry_ok t ev0 v0 (Or.inr (Or.inl hidv)) hidxv
            have hev : TinyLfu.evictOne t es (some v0) none =
                some (t2, some v0) := by
              simp [TinyLfu.evictOne, hfindv, hrem]
            obtain ⟨pc, hpc⟩ :=
              TinyLfu.prevKey_ok t2 es w0 ew hfindw (Or.inl hidw)
            refine ⟨t2, es, some v0, ?_⟩
            have hstep1 : TinyLfu.evictFromMainLoop (m2 + 1) t es
                { victim_queue := PolicyQueue.Probation,
                  candidate_queue := PolicyQueue.Probation,
                  victim := some v0, candidate := none,
                  evicted := none } =
                TinyLfu.evictFromMainLoop m2 t2 es
                { victim_queue := PolicyQueue.Probation,
                  candidate_queue := PolicyQueue.Window,
                  victim := pv, candidate := pc, evicted := some v0 } := by
              simp [TinyLfu.evictFromMainLoop, hgt, hwt, hne, hadm,
                hpv, hev, hpc]
            rw [hstep1]
            exact TinyLfu.mainLoop_done _ _ _ _ (by omega)
    · -- drained candidate k0 sits in the probation list
      have hk0 : k0 ∈ t.main.probation.items := hfirst k0 hf
      rcases hv : t.main.probation.tailKey with _ | v0
      · exfalso
        have : t.main.probation.items = [] :=
          List.getLast?_eq_none_iff.mp hv
        rw [this] at hk0
        exact absurd hk0 (List.not_mem_nil k0)
      · have hv0 : v0 ∈ t.main.probation.items :=
          List.mem_of_getLast?_eq_some hv
        obtain ⟨ec, hfindc, hidc, hidxc⟩ :=
          entryTagged_find es k0 2 (htagPb k0 hk0)
        obtain ⟨ev0, hfindv, hidv, hidxv⟩ :=
          entryTagged_find es v0 2 (htagPb v0 hv0)
        by_cases heq : v0 = k0
        · -- victim equals candidate
          subst heq
          obtain ⟨pv, hpv⟩ :=
            TinyLfu.prevKey_ok t es v0 ev0 hfindv (Or.inr (Or.inl hidv))
          obtain ⟨t2, hrem, hsz2, hcap2⟩ :=
            TinyLfu.removeEntry_ok t ev0 v0 (Or.inr (Or.inl hidv)) hidxv
          have hev : TinyLfu.evictOne t es (some v0) none =
              some (t2, some v0) := by
            simp [TinyLfu.evictOne, hfindv, hrem]
          refine ⟨t2, es, some v0, ?_⟩
          have hstep1 : TinyLfu.evictFromMainLoop (m2 + 1) t es
              { victim_queue := PolicyQueue.Probation,
                candidate_queue := PolicyQueue.Probation,
                victim := some v0, candidate := some v0,
                evicted := none } =
              TinyLfu.evictFromMainLoop m2 t2 es
              { victim_queue := PolicyQueue.Probation,
                candidate_queue := PolicyQueue.Probation,
                victim := pv, candidate := none, evicted := some v0 } := by
            simp [TinyLfu.evictFromMainLoop, hgt, hpv, hev]
          rw [hstep1]
          exact TinyLfu.mainLoop_done _ _ _ _ (by omega)
        · rcases hadm : t.admit k0 v0 with _ | _
          · -- candidate loses: evict it
            obtain ⟨pc, hpc⟩ :=
              TinyLfu.prevKey_ok t es k0 ec hfindc (Or.inr (Or.inl hidc))
            obtain ⟨t2, hrem, hsz2, hcap2⟩ :=
              TinyLfu.removeEntry_ok t ec k0 (Or.inr (Or.inl hidc)) hidxc
            have hev : TinyLfu.evictOne t es (some k0) none =
                some (t2, some k0) := by
              simp [TinyLfu.evictOne, hfindc, hrem]
            refine ⟨t2, es, some k0, ?_⟩
            have hstep1 : TinyLfu.evictFromMainLoop (m2 + 1) t es
                { victim_queue := PolicyQueue.Probation,
                  candidate_queue := PolicyQueue.Probation,
                  victim := some v0, candidate := some k0,
                  evicted := none } =
                TinyLfu.evictFromMainLoop m2 t2 es
                { victim_queue := PolicyQueue.Probation,
                  candidate_queue := PolicyQueue.Probation,
                  victim := some v0, candidate := pc,
                  evicted := some k0 } := by
              simp [TinyLfu.evictFromMainLoop, hgt, heq, hadm, hpc, hev]
            rw [hstep1]
            exact TinyLfu.mainLoop_done _ _ _ _ (by omega)
          · -- candidate admitted: evict the victim
            obtain ⟨pv, hpv⟩ :=
              TinyLfu.prevKey_ok t es v0 ev0 hfindv (Or.inr (Or.inl hidv))
            obtain ⟨t2, hrem, hsz2, hcap2⟩ :=
              TinyLfu.removeEntry_ok t ev0 v0 (Or.inr (Or.inl hidv)) hidxv
            have hev : TinyLfu.evictOne t es (some v0) none =
                some (t2, some v0) := by
              simp [TinyLfu.evictOne, hfindv, hrem]
            obtain ⟨pc, hpc⟩ :=
              TinyLfu.prevKey_ok t2 es k0 ec hfindc (Or.inr (Or.inl hidc))
            refine ⟨t2, es, some v0, ?_⟩
            have hstep1 : TinyLfu.evictFromMainLoop (m2 + 1) t es
                { victim_queue := PolicyQueue.Probation,
                  candidate_queue := PolicyQueue.Probation,
                  victim := some v0, candidate := some k0,
                  evicted := none } =
                TinyLfu.evictFromMainLoop m2 t2 es
                { victim_queue := PolicyQueue.Probation,
                  candidate_queue := PolicyQueue.Probation,
                  victim := pv, candidate := pc, evicted := some v0 } := by
              simp [TinyLfu.evictFromMainLoop, hgt, heq, hadm, hpv,
                hev, hpc]
            rw [hstep1]
            exact TinyLfu.mainLoop_done _ _ _ _ (by omega)

/-- C7: on every reachable policy state (coherent lists and at most one
entry of overshoot), the eviction protocol terminates: the window drain,
given one iteration per window element, restores the window bound, the
candidate-versus-victim loop of evict_from_main returns normally within
3 × capacity iterations, and the whole evict_entries call returns
normally. -/
theorem eviction_protocol_terminates (t : TinyLfu) (es : EntriesMap)
    (hco : t.coherent es) (hrs : t.reachableSize) :
    (TinyLfu.evictFromWindowLoop t.window.list.len t es none).1.window.list.len ≤
      (TinyLfu.evictFromWindowLoop t.window.list.len t es none).1.window.list.capacity ∧
    (∃ t2 es2 ev,
      TinyLfu.evictFromMainLoop (3 * t.capacity)
        (TinyLfu.evictFromWindowLoop t.window.list.len t es none).1
        (TinyLfu.evictFromWindowLoop t.window.list.len t es none).2.1
        { victim_queue := PolicyQueue.Probation,
          candidate_queue := PolicyQueue.Probation,
          victim := (TinyLfu.evictFromWindowLoop t.window.list.len t es none).1.main.probation.tailKey,
          candidate := (TinyLfu.evictFromWindowLoop t.window.list.len t es none).2.2,
          evicted := none } = .ok t2 es2 ev) ∧
    (∃ t2 es2 ev, t.evictEntries es = .ok t2 es2 ev) := by
  obtain ⟨hrs1, hrs2⟩ := hrs
  have hd := TinyLfu.drain_ok t.window.list.len t es none hco
    (fun k0 h => Option.noConfusion h) (by omega)
  refine ⟨hd.2.1, ?_, ?_⟩
  · exact TinyLfu.mainLoop_ok (3 * t.capacity) (TinyLfu.evictFromWindowLoop t.window.list.len t es none).1
      (TinyLfu.evictFromWindowLoop t.window.list.len t es none).2.1
      (TinyLfu.evictFromWindowLoop t.window.list.len t es none).2.2 hd.1
      (by rw [hd.2.2.1, hd.2.2.2.1]; exact hrs2)
      hd.2.2.2.2 (by omega)
  · obtain ⟨t2, es2, ev, hok⟩ := TinyLfu.mainLoop_ok
      (TinyLfu.evictFuel (TinyLfu.evictFromWindowLoop t.window.list.len t es none).1)
      (TinyLfu.evictFromWindowLoop t.window.list.len t es none).1
      (TinyLfu.evictFromWindowLoop t.window.list.len t es none).2.1
      (TinyLfu.evictFromWindowLoop t.window.list.len t es none).2.2 hd.1
      (by rw [hd.2.2.1, hd.2.2.2.1]; exact hrs2)
      hd.2.2.2.2 (by unfold TinyLfu.evictFuel; omega)
    refine ⟨t2, es2, ev, ?_⟩
    simp only [TinyLfu.evictEntries]
    exact hok

/-- C7 witness: a concrete coherent reachable state built by the facade. -/
theorem eviction_protocol_terminates_witness :
    (((TlfuCore.new 3 0).set [(1, 0), (2, 0), (3, 0)] 0 0 0).1.policy.coherent
      ((TlfuCore.new 3 0).set [(1, 0), (2, 0), (3, 0)] 0 0 0).1.entries) ∧
    ((TlfuCore.new 3 0).set
      [(1, 0), (2, 0), (3, 0)] 0 0 0).1.policy.reachableSize ∧
    (∃ t2 es2 ev,
      ((TlfuCore.new 3 0).set [(1, 0), (2, 0), (3, 0)] 0 0 0).1.policy.evictEntries
        ((TlfuCore.new 3 0).set [(1, 0), (2, 0), (3, 0)] 0 0 0).1.entries =
        .ok t2 es2 ev) := by
  refine ⟨by decide, by decide,
    (eviction_protocol_terminates
      ((TlfuCore.new 3 0).set [(1, 0), (2, 0), (3, 0)] 0 0 0).1.policy
      ((TlfuCore.new 3 0).set [(1, 0), (2, 0), (3, 0)] 0 0 0).1.entries
      (by decide) (by decide)).2.2⟩

/-- adjust keeps the key list. -/
theorem EntriesMap.keys_adjust (es : EntriesMap) (k : Nat) (f : Entry → Entry) :
    (es.adjust k f).keys = es.keys := by
  induction es with
  | nil => rfl
  | cons p rest ih =>
    obtain ⟨pk, pe⟩ := p
    by_cases h : pk = k <;>
      simp [EntriesMap.adjust, EntriesMap.keys, h] <;>
      simpa [EntriesMap.keys] using ih

/-- adjust keeps the entry count. -/
theorem EntriesMap.size_adjust (es : EntriesMap) (k : Nat) (f : Entry → Entry) :
    (es.adjust k f).size = es.size := by
  have h := congrArg List.length (EntriesMap.keys_adjust es k f)
  simpa [EntriesMap.keys, EntriesMap.size] using h

/-- A key resolves to nothing exactly when it is not a stored key. -/
theorem EntriesMap.find_none_iff (es : EntriesMap) (k : Nat) :
    es.find k = none ↔ k ∉ es.keys := by
  induction es with
  | nil => simp [EntriesMap.find, EntriesMap.keys]
  | cons p rest ih =>
    obtain ⟨pk, pe⟩ := p
    by_cases h : pk = k <;> simp [EntriesMap.find, EntriesMap.keys, h, ih] <;>
      omega

/-- Inserting an absent key appends it to the key list. -/
theorem EntriesMap.keys_insert_absent (es : EntriesMap) (k : Nat) (e : Entry)
    (h : es.find k = none) : (es.insert k e).keys = es.keys ++ [k] := by
  induction es with
  | nil => rfl
  | cons p rest ih =>
    obtain ⟨pk, pe⟩ := p
    by_cases hpk : pk = k
    · rw [EntriesMap.find, if_pos hpk] at h
      exact absurd h (by simp)
    · rw [EntriesMap.find, if_neg hpk] at h
      simp only [EntriesMap.insert, if_neg hpk, EntriesMap.keys, List.map_cons,
        List.cons_append]
      rw [show (EntriesMap.insert rest k e).map Prod.fst
            = EntriesMap.keys (EntriesMap.insert rest k e) from rfl,
        ih h]
      rfl

/-- Inserting an absent key grows the count by one. -/
theorem EntriesMap.size_insert_absent (es : EntriesMap) (k : Nat) (e : Entry)
    (h : es.find k = none) : (es.insert k e).size = es.size + 1 := by
  have h2 := congrArg List.length (EntriesMap.keys_insert_absent es k e h)
  simpa [EntriesMap.keys, EntriesMap.size] using h2

/-- Erasing shortens the key list to a sublist. -/
theorem EntriesMap.keys_erase_sublist (es : EntriesMap) (k : Nat) :
    (es.erase k).keys.Sublist es.keys := by
  exact List.Sublist.map Prod.fst (List.filter_sublist es)

/-- Erasing keeps unique keys unique. -/
theorem EntriesMap.keysNodup_erase (es : EntriesMap) (k : Nat)
    (h : es.keys.Nodup) : (es.erase k).keys.Nodup :=
  h.sublist (EntriesMap.keys_erase_sublist es k)

/-- Erasing a key filters it out of the key list. -/
theorem EntriesMap.keys_erase (es : EntriesMap) (k : Nat) :
    (es.erase k).keys = es.keys.filter (fun k2 => k2 ≠ k) := by
  induction es with
  | nil => rfl
  | cons p rest ih =>
    obtain ⟨pk, pe⟩ := p
    by_cases h : pk = k <;>
      simp only [EntriesMap.erase, EntriesMap.keys, List.map_cons,
        List.filter_cons, ne_eq, decide_not] at ih ⊢ <;>
      simp [h, ih]

/-- With unique keys, erasing a present key drops exactly one binding. -/
theorem EntriesMap.size_erase_present (es : EntriesMap) (k : Nat) (e : Entry)
    (hnd : es.keys.Nodup) (h : es.find k = some e) :
    (es.erase k).size = es.size - 1 := by
  have hmem : k ∈ es.keys := by
    by_contra hc
    rw [← EntriesMap.find_none_iff] at hc
    rw [hc] at h
    exact absurd h (by simp)
  have h1 : (es.erase k).size = (es.erase k).keys.length := by
    simp [EntriesMap.keys, EntriesMap.size]
  have h2 : es.size = es.keys.length := by
    simp [EntriesMap.keys, EntriesMap.size]
  have h3 : (fun k2 : Nat => decide (k2 ≠ k)) = (fun k2 : Nat => k2 != k) := by
    funext k2
    by_cases hc : k2 = k <;> simp [hc]
  rw [h1, h2, EntriesMap.keys_erase, h3, ← List.Nodup.erase_eq_filter hnd,
    List.length_erase_of_mem hmem]

/-- Adjusting a key and then erasing it is just erasing it. -/
theorem EntriesMap.adjust_erase_self (es : EntriesMap) (k : Nat)
    (f : Entry → Entry) : (es.adjust k f).erase k = es.erase k := by
  induction es with
  | nil => rfl
  | cons p rest ih =>
    obtain ⟨pk, pe⟩ := p
    by_cases h : pk = k
    · simp [EntriesMap.adjust, EntriesMap.erase, List.filter_cons, h]
    · simp only [EntriesMap.adjust, if_neg h, EntriesMap.erase,
        List.filter_cons, ne_eq, decide_not] at ih ⊢
      simp [h] at ih ⊢
      exact congrArg (List.cons (pk, pe)) ih

/-- Moving a stored key k between region lists while retagging its entry
preserves the per-list tagging and the tracking, for any redistribution of
memberships matching the retag target j. -/
theorem movedTagsTracked (W Pb Pt W2 Pb2 Pt2 : List Nat) (es : EntriesMap)
    (X : Nat → Prop) (k : Nat) (e e2 : Entry) (j : Nat)
    (hfind : es.find k = some e)
    (hidx2 : e2.policy_list_index = true) (hid2 : e2.policy_list_id = j)
    (hj : j = 1 ∨ j = 2 ∨ j = 3)
    (htagW : ∀ k2 ∈ W, entryTagged es k2 1 = true)
    (htagPb : ∀ k2 ∈ Pb, entryTagged es k2 2 = true)
    (htagPt : ∀ k2 ∈ Pt, entryTagged es k2 3 = true)
    (htr : trackedIn W Pb Pt es X)
    (hmW : ∀ k2, k2 ∈ W2 ↔ (k2 ∈ W ∧ k2 ≠ k) ∨ (j = 1 ∧ k2 = k))
    (hmPb : ∀ k2, k2 ∈ Pb2 ↔ (k2 ∈ Pb ∧ k2 ≠ k) ∨ (j = 2 ∧ k2 = k))
    (hmPt : ∀ k2, k2 ∈ Pt2 ↔ (k2 ∈ Pt ∧ k2 ≠ k) ∨ (j = 3 ∧ k2 = k)) :
    (∀ k2 ∈ W2, entryTagged (es.adjust k (fun _ => e2)) k2 1 = true) ∧
    (∀ k2 ∈ Pb2, entryTagged (es.adjust k (fun _ => e2)) k2 2 = true) ∧
    (∀ k2 ∈ Pt2, entryTagged (es.adjust k (fun _ => e2)) k2 3 = true) ∧
    trackedIn W2 Pb2 Pt2 (es.adjust k (fun _ => e2)) X := by
  have hfind2 : ∀ k2, (es.adjust k (fun _ => e2)).find k2 =
      if k2 = k then some e2 else es.find k2 := by
    intro k2
    rw [EntriesMap.find_adjust]
    by_cases h : k2 = k <;> simp [h, hfind]
  have htagk : ∀ i, e2.policy_list_id = i →
      entryTagged (es.adjust k (fun _ => e2)) k i = true := by
    intro i hi
    unfold entryTagged
    rw [hfind2 k, if_pos rfl]
    simp [hi, hidx2]
  refine ⟨?_, ?_, ?_, ?_⟩
  · intro k2 hk2
    rcases (hmW k2).mp hk2 with ⟨hin, hne⟩ | ⟨hje, he⟩
    · rw [entryTagged_adjust_ne es k _ k2 1 hne]
      exact htagW k2 hin
    · subst he
      exact htagk 1 (hid2.trans hje)
  · intro k2 hk2
    rcases (hmPb k2).mp hk2 with ⟨hin, hne⟩ | ⟨hje, he⟩
    · rw [entryTagged_adjust_ne es k _ k2 2 hne]
      exact htagPb k2 hin
    · subst he
      exact htagk 2 (hid2.trans hje)
  · intro k2 hk2
    rcases (hmPt k2).mp hk2 with ⟨hin, hne⟩ | ⟨hje, he⟩
    · rw [entryTagged_adjust_ne es k _ k2 3 hne]
      exact htagPt k2 hin
    · subst he
      exact htagk 3 (hid2.trans hje)
  · intro k2 e3 hf3
    rw [hfind2 k2] at hf3
    by_cases h : k2 = k
    · rw [if_pos h] at hf3
      obtain rfl : e2 = e3 := by simpa using hf3
      subst h
      refine Or.inr ⟨hidx2, ?_⟩
      rcases hj with hj | hj | hj
      · exact Or.inl ⟨hid2.trans hj, (hmW k2).mpr (Or.inr ⟨hj, rfl⟩)⟩
      · exact Or.inr (Or.inl ⟨hid2.trans hj,
          (hmPb k2).mpr (Or.inr ⟨hj, rfl⟩)⟩)
      · exact Or.inr (Or.inr ⟨hid2.trans hj,
          (hmPt k2).mpr (Or.inr ⟨hj, rfl⟩)⟩)
    · rw [if_neg h] at hf3
      rcases htr k2 e3 hf3 with hx | ⟨hidx, hc⟩
      · exact Or.inl hx
      · refine Or.inr ⟨hidx, ?_⟩
        rcases hc with ⟨hid, hin⟩ | ⟨hid, hin⟩ | ⟨hid, hin⟩
        · exact Or.inl ⟨hid, (hmW k2).mpr (Or.inl ⟨hin, h⟩)⟩
        · exact Or.inr (Or.inl ⟨hid, (hmPb k2).mpr (Or.inl ⟨hin, h⟩)⟩)
        · exact Or.inr (Or.inr ⟨hid, (hmPt k2).mpr (Or.inl ⟨hin, h⟩)⟩)

/-- The demotion loop preserves synchronisation, the stored keys, and every
not-yet-admitted entry. -/
theorem TinyLfu.demoteLoop_synced (X : Nat → Prop) :
    ∀ (n : Nat) (t : TinyLfu) (es : EntriesMap),
    t.synced es X →
    (TinyLfu.demoteLoop n t es).1.synced (TinyLfu.demoteLoop n t es).2 X ∧
    (TinyLfu.demoteLoop n t es).2.keys = es.keys ∧
    (∀ k2 e2, es.find k2 = some e2 → e2.policy_list_id = 0 →
      (TinyLfu.demoteLoop n t es).2.find k2 = some e2) := by
  intro n
  induction n with
  | zero =>
    intro t es hs
    exact ⟨hs, rfl, fun _ _ h _ => h⟩
  | succ n ih =>
    intro t es hs
    obtain ⟨⟨hnodup, htagW, htagPb, htagPt, hsum⟩, htr⟩ := hs
    by_cases hle : t.main.protectedList.len ≤ t.main.protectedList.capacity
    · have hstep : TinyLfu.demoteLoop (n + 1) t es = (t, es) := by
        simp [TinyLfu.demoteLoop, hle]
      rw [hstep]
      exact ⟨⟨⟨hnodup, htagW, htagPb, htagPt, hsum⟩, htr⟩, rfl, fun _ _ h _ => h⟩
    · rcases hpop : t.main.protectedList.items.getLast? with _ | k
      · have hstep : TinyLfu.demoteLoop (n + 1) t es = (t, es) := by
          simp [TinyLfu.demoteLoop, hle, PList.popTail, hpop]
        rw [hstep]
        exact ⟨⟨⟨hnodup, htagW, htagPb, htagPt, hsum⟩, htr⟩, rfl, fun _ _ h _ => h⟩
      · have hkPt : k ∈ t.main.protectedList.items :=
          List.mem_of_getLast?_eq_some hpop
        obtain ⟨e, hfind, hid, hidx⟩ := entryTagged_find es k 3 (htagPt k hkPt)
        obtain ⟨l2, hW⟩ := List.getLast?_eq_some_iff.mp hpop
        have hdisj := List.disjoint_of_nodup_append hnodup
        have hkW : k ∉ t.window.list.items := fun hc =>
          hdisj (List.mem_append_left _ hc) hkPt
        have hkPb : k ∉ t.main.probation.items := fun hc =>
          hdisj (List.mem_append_right _ hc) hkPt
        have hPtnd : t.main.protectedList.items.Nodup := hnodup.of_append_right
        have hkl2 : k ∉ l2 := by
          have h1 : (l2 ++ [k]).Nodup := hW ▸ hPtnd
          intro hc
          exact (List.disjoint_of_nodup_append h1 hc) (by simp)
        have hitems : t.main.protectedList.items.dropLast = l2 := by
          rw [hW, List.dropLast_concat]
        have hstep : TinyLfu.demoteLoop (n + 1) t es =
            TinyLfu.demoteLoop n
              { t with main :=
                  { probation := { items := k :: t.main.probation.items,
                                   capacity := t.main.probation.capacity },
                    protectedList :=
                      { items := l2,
                        capacity := t.main.protectedList.capacity } } }
              (es.adjust k (fun _ =>
                { e with policy_list_index := true, policy_list_id := 2 })) := by
          simp only [TinyLfu.demoteLoop, hle, PList.popTail, hpop, hfind,
            if_false, Slru.insert, PList.insertFront]
          rw [hitems]
        rw [hstep]
        have hm := movedTagsTracked t.window.list.items t.main.probation.items
            t.main.protectedList.items t.window.list.items
            (k :: t.main.probation.items) l2 es X k e
            { e with policy_list_index := true, policy_list_id := 2 } 2
            hfind (by simp) (by simp) (by simp)
            htagW htagPb htagPt htr
            (fun k2 => by
              constructor
              · intro h
                exact Or.inl ⟨h, fun hc => hkW (hc ▸ h)⟩
              · rintro (⟨h, _⟩ | ⟨h2, _⟩)
                · exact h
                · exact absurd h2 (by decide))
            (fun k2 => by
              constructor
              · intro h
                rcases List.mem_cons.mp h with h | h
                · exact Or.inr ⟨rfl, h⟩
                · exact Or.inl ⟨h, fun hc => hkPb (hc ▸ h)⟩
              · rintro (⟨h, _⟩ | ⟨_, h⟩)
                · exact List.mem_cons_of_mem _ h
                · exact h ▸ List.mem_cons_self _ _)
            (fun k2 => by
              constructor
              · intro h
                exact Or.inl ⟨hW ▸ List.mem_append_left _ h,
                  fun hc => hkl2 (hc ▸ h)⟩
              · rintro (⟨h, hne⟩ | ⟨h2, _⟩)
                · rw [hW] at h
                  rcases List.mem_append.mp h with h | h
                  · exact h
                  · exact absurd (by simpa using h) hne
                · exact absurd h2 (by decide))
        have hnodup' : ((t.window.list.items ++ t.main.probation.items) ++
            (l2 ++ [k])).Nodup := by
          have h0 := hnodup
          rw [hW] at h0
          exact h0
        have hnodup2 : (t.window.list.items ++ (k :: t.main.probation.items) ++
            l2).Nodup := by
          have h1 : ((t.window.list.items ++ t.main.probation.items) ++
              (l2 ++ [k])).Perm
              (k :: ((t.window.list.items ++ t.main.probation.items) ++ l2)) := by
            have h0 := List.perm_append_singleton k
              ((t.window.list.items ++ t.main.probation.items) ++ l2)
            have heq : (t.window.list.items ++ t.main.probation.items) ++
                (l2 ++ [k]) =
                ((t.window.list.items ++ t.main.probation.items) ++ l2) ++ [k] := by
              simp [List.append_assoc]
            rw [heq]
            exact h0
          have h2 : (k :: ((t.window.list.items ++ t.main.probation.items) ++
              l2)).Perm
              ((t.window.list.items ++ (k :: t.main.probation.items)) ++ l2) := by
            have h3 : (k :: (t.window.list.items ++ t.main.probation.items)).Perm
                (t.window.list.items ++ (k :: t.main.probation.items)) :=
              List.perm_middle.symm
            have h4 := h3.append_right l2
            simpa using h4
          exact (h1.trans h2).nodup hnodup'
        have hlen : t.main.protectedList.items.length = l2.length + 1 := by
          rw [hW]
          simp
        have hsum2 : t.size = t.window.list.items.length +
            (k :: t.main.probation.items).length + l2.length := by
          simp only [PList.len] at hsum
          simp only [List.length_cons]
          omega
        have hs2 := ih
          { t with main :=
              { probation := { items := k :: t.main.probation.items,
                               capacity := t.main.probation.capacity },
                protectedList :=
                  { items := l2,
                    capacity := t.main.protectedList.capacity } } }
          (es.adjust k (fun _ =>
            { e with policy_list_index := true, policy_list_id := 2 }))
          ⟨⟨hnodup2, hm.1, hm.2.1, hm.2.2.1, hsum2⟩, hm.2.2.2⟩
        refine ⟨hs2.1, ?_, ?_⟩
        · rw [hs2.2.1, EntriesMap.keys_adjust]
        · intro k2 e3 hf hid0
          have hne : k2 ≠ k := by
            intro hc
            rw [hc, hfind] at hf
            obtain rfl : e = e3 := by simpa using hf
            rw [hid] at hid0
            exact absurd hid0 (by decide)
          apply hs2.2.2
          · rw [EntriesMap.find_adjust, if_neg hne]
            exact hf
          · exact hid0

/-- The window-increase loop preserves synchronisation, the stored keys, and
every not-yet-admitted entry. -/
theorem TinyLfu.increaseWindowLoop_synced (X : Nat → Prop) :
    ∀ (n : Nat) (t : TinyLfu) (es : EntriesMap),
    t.synced es X →
    (TinyLfu.increaseWindowLoop n t es).1.synced
      (TinyLfu.increaseWindowLoop n t es).2.1 X ∧
    (TinyLfu.increaseWindowLoop n t es).2.1.keys = es.keys ∧
    (∀ k2 e2, es.find k2 = some e2 → e2.policy_list_id = 0 →
      (TinyLfu.increaseWindowLoop n t es).2.1.find k2 = some e2) := by
  intro n
  induction n with
  | zero =>
    intro t es hs
    exact ⟨hs, rfl, fun _ _ h _ => h⟩
  | succ n ih =>
    intro t es hs
    obtain ⟨⟨hnodup, htagW, htagPb, htagPt, hsum⟩, htr⟩ := hs
    rcases hpb : t.main.probation.tailKey with _ | k
    · rcases hpt : t.main.protectedList.tailKey with _ | k
      · have hstep : TinyLfu.increaseWindowLoop (n + 1) t es =
            (t, es, n + 1) := by
          simp [TinyLfu.increaseWindowLoop, hpb, hpt]
        rw [hstep]
        exact ⟨⟨⟨hnodup, htagW, htagPb, htagPt, hsum⟩, htr⟩, rfl,
          fun _ _ h _ => h⟩
      · -- tail of the protected list moves to the window front
        have hkPt : k ∈ t.main.protectedList.items :=
          List.mem_of_getLast?_eq_some hpt
        obtain ⟨e, hfind, hid, hidx⟩ := entryTagged_find es k 3 (htagPt k hkPt)
        have hdisj := List.disjoint_of_nodup_append hnodup
        have hkW : k ∉ t.window.list.items := fun hc =>
          hdisj (List.mem_append_left _ hc) hkPt
        have hkPb : k ∉ t.main.probation.items := fun hc =>
          hdisj (List.mem_append_right _ hc) hkPt
        have hPtnd : t.main.protectedList.items.Nodup := hnodup.of_append_right
        have hrem : t.main.remove e k =
            some { probation := t.main.probation,
                   protectedList :=
                     { items := t.main.protectedList.items.erase k,
                       capacity := t.main.protectedList.capacity } } := by
          simp [Slru.remove, hidx, hid, PList.removeKey]
        have hstep : TinyLfu.increaseWindowLoop (n + 1) t es =
            TinyLfu.increaseWindowLoop n
              { t with
                window := { list := { items := k :: t.window.list.items,
                                      capacity := t.window.list.capacity } },
                main := { probation := t.main.probation,
                          protectedList :=
                            { items := t.main.protectedList.items.erase k,
                              capacity := t.main.protectedList.capacity } } }
              (es.adjust k (fun _ =>
                { e with policy_list_index := true, policy_list_id := 1 })) := by
          simp only [TinyLfu.increaseWindowLoop, hpb, hpt, hfind, hrem,
            Lru.insert, PList.insertFront]
        rw [hstep]
        have hm := movedTagsTracked t.window.list.items t.main.probation.items
            t.main.protectedList.items (k :: t.window.list.items)
            t.main.probation.items (t.main.protectedList.items.erase k) es X k e
            { e with policy_list_index := true, policy_list_id := 1 } 1
            hfind (by simp) (by simp) (by simp)
            htagW htagPb htagPt htr
            (fun k2 => by
              constructor
              · intro h
                rcases List.mem_cons.mp h with h | h
                · exact Or.inr ⟨rfl, h⟩
                · exact Or.inl ⟨h, fun hc => hkW (hc ▸ h)⟩
              · rintro (⟨h, _⟩ | ⟨_, h⟩)
                · exact List.mem_cons_of_mem _ h
                · exact h ▸ List.mem_cons_self _ _)
            (fun k2 => by
              constructor
              · intro h
                exact Or.inl ⟨h, fun hc => hkPb (hc ▸ h)⟩
              · rintro (⟨h, _⟩ | ⟨h2, _⟩)
                · exact h
                · exact absurd h2 (by decide))
            (fun k2 => by
              constructor
              · intro h
                rcases (List.Nodup.mem_erase_iff hPtnd).mp h with ⟨hne, hin⟩
                exact Or.inl ⟨hin, hne⟩
              · rintro (⟨h, hne⟩ | ⟨h2, _⟩)
                · exact (List.Nodup.mem_erase_iff hPtnd).mpr ⟨hne, h⟩
                · exact absurd h2 (by decide))
        have hnodup2 : ((k :: t.window.list.items) ++ t.main.probation.items ++
            (t.main.protectedList.items.erase k)).Nodup := by
          have h1 : t.main.protectedList.items.Perm
              (k :: t.main.protectedList.items.erase k) :=
            List.perm_cons_erase hkPt
          have h2 := (h1.append_left
            (t.window.list.items ++ t.main.probation.items)).nodup
            (by simpa [List.append_assoc] using hnodup)
          have h3 : ((t.window.list.items ++ t.main.probation.items) ++
              (k :: t.main.protectedList.items.erase k)).Perm
              (k :: ((t.window.list.items ++ t.main.probation.items) ++
                t.main.protectedList.items.erase k)) := List.perm_middle
          have h4 := h3.nodup (by simpa [List.append_assoc] using h2)
          have h5 : (k :: ((t.window.list.items ++ t.main.probation.items) ++
              t.main.protectedList.items.erase k)).Perm
              ((k :: t.window.list.items) ++ t.main.probation.items ++
                t.main.protectedList.items.erase k) := by
            simp [List.append_assoc]
          exact h5.nodup h4
        have hlen : (t.main.protectedList.items.erase k).length =
            t.main.protectedList.items.length - 1 :=
          List.length_erase_of_mem hkPt
        have hlen2 : 1 ≤ t.main.protectedList.items.length :=
          List.length_pos.mpr (fun hc => by simp [hc] at hkPt)
        have hsum2 : t.size = (k :: t.window.list.items).length +
            t.main.probation.items.length +
            (t.main.protectedList.items.erase k).length := by
          simp only [PList.len] at hsum
          simp only [List.length_cons]
          omega
        have hs2 := ih
          { t with
            window := { list := { items := k :: t.window.list.items,
                                  capacity := t.window.list.capacity } },
            main := { probation := t.main.probation,
                      protectedList :=
                        { items := t.main.protectedList.items.erase k,
                          capacity := t.main.protectedList.capacity } } }
          (es.adjust k (fun _ =>
            { e with policy_list_index := true, policy_list_id := 1 }))
          ⟨⟨hnodup2, hm.1, hm.2.1, hm.2.2.1, hsum2⟩, hm.2.2.2⟩
        refine ⟨hs2.1, ?_, ?_⟩
        · rw [hs2.2.1, EntriesMap.keys_adjust]
        · intro k2 e3 hf hid0
          have hne : k2 ≠ k := by
            intro hc
            rw [hc, hfind] at hf
            obtain rfl : e = e3 := by simpa using hf
            rw [hid] at hid0
            exact absurd hid0 (by decide)
          apply hs2.2.2
          · rw [EntriesMap.find_adjust, if_neg hne]
            exact hf
          · exact hid0
    · -- tail of the probation list moves to the window front
      have hkPb : k ∈ t.main.probation.items :=
        List.mem_of_getLast?_eq_some hpb
      obtain ⟨e, hfind, hid, hidx⟩ := entryTagged_find es k 2 (htagPb k hkPb)
      have hdisjWPb := List.disjoint_of_nodup_append hnodup.of_append_left
      have hkW : k ∉ t.window.list.items := fun hc => hdisjWPb hc hkPb
      have hdisj := List.disjoint_of_nodup_append hnodup
      have hkPt : k ∉ t.main.protectedList.items := fun hc =>
        hdisj (List.mem_append_right _ hkPb) hc
      have hPbnd : t.main.probation.items.Nodup :=
        hnodup.of_append_left.of_append_right
      have hrem : t.main.remove e k =
          some { probation := { items := t.main.probation.items.erase k,
                                capacity := t.main.probation.capacity },
                 protectedList := t.main.protectedList } := by
        simp [Slru.remove, hidx, hid, PList.removeKey]
      have hstep : TinyLfu.increaseWindowLoop (n + 1) t es =
          TinyLfu.increaseWindowLoop n
            { t with
              window := { list := { items := k :: t.window.list.items,
                                    capacity := t.window.list.capacity } },
              main := { probation := { items := t.main.probation.items.erase k,
                                       capacity := t.main.probation.capacity },
                        protectedList := t.main.protectedList } }
            (es.adjust k (fun _ =>
              { e with policy_list_index := true, policy_list_id := 1 })) := by
        simp only [TinyLfu.increaseWindowLoop, hpb, hfind, hrem,
          Lru.insert, PList.insertFront]
      rw [hstep]
      have hm := movedTagsTracked t.window.list.items t.main.probation.items
          t.main.protectedList.items (k :: t.window.list.items)
          (t.main.probation.items.erase k) t.main.protectedList.items es X k e
          { e with policy_list_index := true, policy_list_id := 1 } 1
          hfind (by simp) (by simp) (by simp)
          htagW htagPb htagPt htr
          (fun k2 => by
            constructor
            · intro h
              rcases List.mem_cons.mp h with h | h
              · exact Or.inr ⟨rfl, h⟩
              · exact Or.inl ⟨h, fun hc => hkW (hc ▸ h)⟩
            · rintro (⟨h, _⟩ | ⟨_, h⟩)
              · exact List.mem_cons_of_mem _ h
              · exact h ▸ List.mem_cons_self _ _)
          (fun k2 => by
            constructor
            · intro h
              rcases (List.Nodup.mem_erase_iff hPbnd).mp h with ⟨hne, hin⟩
              exact Or.inl ⟨hin, hne⟩
            · rintro (⟨h, hne⟩ | ⟨h2, _⟩)
              · exact (List.Nodup.mem_erase_iff hPbnd).mpr ⟨hne, h⟩
              · exact absurd h2 (by decide))
          (fun k2 => by
            constructor
            · intro h
              exact Or.inl ⟨h, fun hc => hkPt (hc ▸ h)⟩
            · rintro (⟨h, _⟩ | ⟨h2, _⟩)
              · exact h
              · exact absurd h2 (by decide))
      have hnodup2 : ((k :: t.window.list.items) ++
          (t.main.probation.items.erase k) ++
          t.main.protectedList.items).Nodup := by
        have h1 : t.main.probation.items.Perm
            (k :: t.main.probation.items.erase k) :=
          List.perm_cons_erase hkPb
        have h2 := ((h1.append_left t.window.list.items).append_right
          t.main.protectedList.items).nodup hnodup
        have h3 : ((t.window.list.items ++
            (k :: t.main.probation.items.erase k)) ++
            t.main.protectedList.items).Perm
            ((k :: (t.window.list.items ++ t.main.probation.items.erase k)) ++
              t.main.protectedList.items) :=
          List.perm_middle.append_right t.main.protectedList.items
        exact h3.nodup h2
      have hlen : (t.main.probation.items.erase k).length =
          t.main.probation.items.length - 1 :=
        List.length_erase_of_mem hkPb
      have hlen2 : 1 ≤ t.main.probation.items.length :=
        List.length_pos.mpr (fun hc => by simp [hc] at hkPb)
      have hsum2 : t.size = (k :: t.window.list.items).length +
          (t.main.probation.items.erase k).length +
          t.main.protectedList.items.length := by
        simp only [PList.len] at hsum
        simp only [List.length_cons]
        omega
      have hs2 := ih
        { t with
          window := { list := { items := k :: t.window.list.items,
                                capacity := t.window.list.capacity } },
          main := { probation := { items := t.main.probation.items.erase k,
                                   capacity := t.main.probation.capacity },
                    protectedList := t.main.protectedList } }
        (es.adjust k (fun _ =>
          { e with policy_list_index := true, policy_list_id := 1 }))
        ⟨⟨hnodup2, hm.1, hm.2.1, hm.2.2.1, hsum2⟩, hm.2.2.2⟩
      refine ⟨hs2.1, ?_, ?_⟩
      · rw [hs2.2.1, EntriesMap.keys_adjust]
      · intro k2 e3 hf hid0
        have hne : k2 ≠ k := by
          intro hc
          rw [hc, hfind] at hf
          obtain rfl : e = e3 := by simpa using hf
          rw [hid] at hid0
          exact absurd hid0 (by decide)
        apply hs2.2.2
        · rw [EntriesMap.find_adjust, if_neg hne]
          exact hf
        · exact hid0

/-- The window-decrease loop preserves synchronisation, the stored keys, and
every not-yet-admitted entry. -/
theorem TinyLfu.decreaseWindowLoop_synced (X : Nat → Prop) :
    ∀ (n : Nat) (t : TinyLfu) (es : EntriesMap),
    t.synced es X →
    (TinyLfu.decreaseWindowLoop n t es).1.synced
      (TinyLfu.decreaseWindowLoop n t es).2.1 X ∧
    (TinyLfu.decreaseWindowLoop n t es).2.1.keys = es.keys ∧
    (∀ k2 e2, es.find k2 = some e2 → e2.policy_list_id = 0 →
      (TinyLfu.decreaseWindowLoop n t es).2.1.find k2 = some e2) := by
  intro n
  induction n with
  | zero =>
    intro t es hs
    exact ⟨hs, rfl, fun _ _ h _ => h⟩
  | succ n ih =>
    intro t es hs
    obtain ⟨⟨hnodup, htagW, htagPb, htagPt, hsum⟩, htr⟩ := hs
    rcases hw : t.window.list.tailKey with _ | k
    · have hstep : TinyLfu.decreaseWindowLoop (n + 1) t es =
          (t, es, n + 1) := by
        simp [TinyLfu.decreaseWindowLoop, hw]
      rw [hstep]
      exact ⟨⟨⟨hnodup, htagW, htagPb, htagPt, hsum⟩, htr⟩, rfl,
        fun _ _ h _ => h⟩
    · have hkW : k ∈ t.window.list.items := List.mem_of_getLast?_eq_some hw
      obtain ⟨e, hfind, hid, hidx⟩ := entryTagged_find es k 1 (htagW k hkW)
      have hdisjWPb := List.disjoint_of_nodup_append hnodup.of_append_left
      have hkPb : k ∉ t.main.probation.items := fun hc => hdisjWPb hkW hc
      have hdisj := List.disjoint_of_nodup_append hnodup
      have hkPt : k ∉ t.main.protectedList.items := fun hc =>
        hdisj (List.mem_append_left _ hkW) hc
      have hWnd : t.window.list.items.Nodup :=
        hnodup.of_append_left.of_append_left
      have hrem : t.window.remove e k =
          some { list := { items := t.window.list.items.erase k,
                           capacity := t.window.list.capacity } } := by
        simp [Lru.remove, hidx, PList.removeKey]
      have hstep : TinyLfu.decreaseWindowLoop (n + 1) t es =
          TinyLfu.decreaseWindowLoop n
            { t with
              window := { list := { items := t.window.list.items.erase k,
                                    capacity := t.window.list.capacity } },
              main := { probation :=
                          { items := k :: t.main.probation.items,
                            capacity := t.main.probation.capacity },
                        protectedList := t.main.protectedList } }
            (es.adjust k (fun _ =>
              { e with policy_list_index := true, policy_list_id := 2 })) := by
        simp only [TinyLfu.decreaseWindowLoop, hw, hfind, hrem,
          Slru.insert, PList.insertFront]
      rw [hstep]
      have hm := movedTagsTracked t.window.list.items t.main.probation.items
          t.main.protectedList.items (t.window.list.items.erase k)
          (k :: t.main.probation.items) t.main.protectedList.items es X k e
          { e with policy_list_index := true, policy_list_id := 2 } 2
          hfind (by simp) (by simp) (by simp)
          htagW htagPb htagPt htr
          (fun k2 => by
            constructor
            · intro h
              rcases (List.Nodup.mem_erase_iff hWnd).mp h with ⟨hne, hin⟩
              exact Or.inl ⟨hin, hne⟩
            · rintro (⟨h, hne⟩ | ⟨h2, _⟩)
              · exact (List.Nodup.mem_erase_iff hWnd).mpr ⟨hne, h⟩
              · exact absurd h2 (by decide))
          (fun k2 => by
            constructor
            · intro h
              rcases List.mem_cons.mp h with h | h
              · exact Or.inr ⟨rfl, h⟩
              · exact Or.inl ⟨h, fun hc => hkPb (hc ▸ h)⟩
            · rintro (⟨h, _⟩ | ⟨_, h⟩)
              · exact List.mem_cons_of_mem _ h
              · exact h ▸ List.mem_cons_self _ _)
          (fun k2 => by
            constructor
            · intro h
              exact Or.inl ⟨h, fun hc => hkPt (hc ▸ h)⟩
            · rintro (⟨h, _⟩ | ⟨h2, _⟩)
              · exact h
              · exact absurd h2 (by decide))
      have hnodup2 : ((t.window.list.items.erase k) ++
          (k :: t.main.probation.items) ++
          t.main.protectedList.items).Nodup := by
        have h1 : t.window.list.items.Perm
            (k :: t.window.list.items.erase k) :=
          List.perm_cons_erase hkW
        have h2 := (((h1.append_right t.main.probation.items).append_right
          t.main.protectedList.items)).nodup hnodup
        have h3 : (((k :: t.window.list.items.erase k) ++
            t.main.probation.items) ++ t.main.protectedList.items).Perm
            (((t.window.list.items.erase k) ++
              (k :: t.main.probation.items)) ++ t.main.protectedList.items) :=
          (List.perm_middle.symm).append_right t.main.protectedList.items
        exact h3.nodup h2
      have hlen : (t.window.list.items.erase k).length =
          t.window.list.items.length - 1 :=
        List.length_erase_of_mem hkW
      have hlen2 : 1 ≤ t.window.list.items.length :=
        List.length_pos.mpr (fun hc => by simp [hc] at hkW)
      have hsum2 : t.size = (t.window.list.items.erase k).length +
          (k :: t.main.probation.items).length +
          t.main.protectedList.items.length := by
        simp only [PList.len] at hsum
        simp only [List.length_cons]
        omega
      have hs2 := ih
        { t with
          window := { list := { items := t.window.list.items.erase k,
                                capacity := t.window.list.capacity } },
          main := { probation :=
                      { items := k :: t.main.probation.items,
                        capacity := t.main.probation.capacity },
                    protectedList := t.main.protectedList } }
        (es.adjust k (fun _ =>
          { e with policy_list_index := true, policy_list_id := 2 }))
        ⟨⟨hnodup2, hm.1, hm.2.1, hm.2.2.1, hsum2⟩, hm.2.2.2⟩
      refine ⟨hs2.1, ?_, ?_⟩
      · rw [hs2.2.1, EntriesMap.keys_adjust]
      · intro k2 e3 hf hid0
        have hne : k2 ≠ k := by
          intro hc
          rw [hc, hfind] at hf
          obtain rfl : e = e3 := by simpa using hf
          rw [hid] at hid0
          exact absurd hid0 (by decide)
        apply hs2.2.2
        · rw [EntriesMap.find_adjust, if_neg hne]
          exact hf
        · exact hid0

theorem capsView_capacity {a b : TinyLfu} (h : a.capsView = b.capsView) :
    a.capacity = b.capacity :=
  congrArg (fun v => v.2.2.2.2.1) h

theorem capsView_size {a b : TinyLfu} (h : a.capsView = b.capsView) :
    a.size = b.size :=
  congrArg (fun v => v.2.2.2.2.2.1) h

/-- demote_from_protected preserves synchronisation, the stored keys, every
not-yet-admitted entry, and the size and capacity counters. -/
theorem TinyLfu.demoteFromProtected_synced (t : TinyLfu) (es : EntriesMap)
    (X : Nat → Prop) (hs : t.synced es X) :
    (TinyLfu.demoteFromProtected t es).1.synced
      (TinyLfu.demoteFromProtected t es).2 X ∧
    (TinyLfu.demoteFromProtected t es).2.keys = es.keys ∧
    (∀ k2 e2, es.find k2 = some e2 → e2.policy_list_id = 0 →
      (TinyLfu.demoteFromProtected t es).2.find k2 = some e2) ∧
    (TinyLfu.demoteFromProtected t es).1.size = t.size ∧
    (TinyLfu.demoteFromProtected t es).1.capacity = t.capacity := by
  have h := TinyLfu.demoteLoop_synced X t.main.protectedList.len t es hs
  have hcv := TinyLfu.demoteLoop_capsView t.main.protectedList.len t es
  exact ⟨h.1, h.2.1, h.2.2, capsView_size hcv, capsView_capacity hcv⟩

/-- The resize move dispatch preserves synchronisation, the stored keys,
every not-yet-admitted entry, and the size and capacity counters. -/
theorem TinyLfu.resizeMove_synced (t : TinyLfu) (es : EntriesMap)
    (X : Nat → Prop) (hs : t.synced es X) :
    (TinyLfu.resizeMove t es).1.synced (TinyLfu.resizeMove t es).2 X ∧
    (TinyLfu.resizeMove t es).2.keys = es.keys ∧
    (∀ k2 e2, es.find k2 = some e2 → e2.policy_list_id = 0 →
      (TinyLfu.resizeMove t es).2.find k2 = some e2) ∧
    (TinyLfu.resizeMove t es).1.size = t.size ∧
    (TinyLfu.resizeMove t es).1.capacity = t.capacity := by
  unfold TinyLfu.resizeMove
  by_cases h1 : 0 < t.amount
  · rw [if_pos h1]
    have hr := TinyLfu.increaseWindowLoop_synced X t.amount.toNat t es hs
    have hcv := (TinyLfu.increaseWindowLoop_capsView t.amount.toNat t es).1
    have hsz : (TinyLfu.increaseWindowLoop t.amount.toNat t es).1.size =
        t.size := capsView_size hcv
    have hcp : (TinyLfu.increaseWindowLoop t.amount.toNat t es).1.capacity =
        t.capacity := capsView_capacity hcv
    exact ⟨hr.1, hr.2.1, hr.2.2, hsz, hcp⟩
  · rw [if_neg h1]
    by_cases h2 : t.amount < 0
    · rw [if_pos h2]
      have hr := TinyLfu.decreaseWindowLoop_synced X (-t.amount).toNat t es hs
      have hcv := (TinyLfu.decreaseWindowLoop_capsView (-t.amount).toNat t es).1
      have hsz : (TinyLfu.decreaseWindowLoop (-t.amount).toNat t es).1.size =
          t.size := capsView_size hcv
      have hcp : (TinyLfu.decreaseWindowLoop (-t.amount).toNat t es).1.capacity =
          t.capacity := capsView_capacity hcv
      exact ⟨hr.1, hr.2.1, hr.2.2, hsz, hcp⟩
    · rw [if_neg h2]
      exact ⟨hs, rfl, fun _ _ h _ => h, rfl, rfl⟩

/-- resize_window preserves synchronisation, the stored keys, every
not-yet-admitted entry, and the size and capacity counters. -/
theorem TinyLfu.resizeWindow_synced (t : TinyLfu) (es : EntriesMap)
    (X : Nat → Prop) (hs : t.synced es X) :
    (TinyLfu.resizeWindow t es).1.synced (TinyLfu.resizeWindow t es).2 X ∧
    (TinyLfu.resizeWindow t es).2.keys = es.keys ∧
    (∀ k2 e2, es.find k2 = some e2 → e2.policy_list_id = 0 →
      (TinyLfu.resizeWindow t es).2.find k2 = some e2) ∧
    (TinyLfu.resizeWindow t es).1.size = t.size ∧
    (TinyLfu.resizeWindow t es).1.capacity = t.capacity := by
  have h1 : (TinyLfu.resizeShift t).synced es X := hs
  have h2 := TinyLfu.demoteFromProtected_synced (TinyLfu.resizeShift t) es X h1
  have h3 := TinyLfu.resizeMove_synced
    (TinyLfu.demoteFromProtected (TinyLfu.resizeShift t) es).1
    (TinyLfu.demoteFromProtected (TinyLfu.resizeShift t) es).2 X h2.1
  refine ⟨h3.1, h3.2.1.trans h2.2.1, ?_, h3.2.2.2.1.trans h2.2.2.2.1,
    h3.2.2.2.2.trans h2.2.2.2.2⟩
  intro k2 e2 hf h0
  exact h3.2.2.1 k2 e2 (h2.2.2.1 k2 e2 hf h0) h0

/-- The adaptation trigger preserves synchronisation, the stored keys, every
not-yet-admitted entry, and the size and capacity counters. -/
theorem TinyLfu.setTrigger_synced (t : TinyLfu) (es : EntriesMap)
    (X : Nat → Prop) (raw : Int) (pvc : Nat) (hs : t.synced es X) :
    (TinyLfu.setTrigger t es raw pvc).1.synced
      (TinyLfu.setTrigger t es raw pvc).2 X ∧
    (TinyLfu.setTrigger t es raw pvc).2.keys = es.keys ∧
    (∀ k2 e2, es.find k2 = some e2 → e2.policy_list_id = 0 →
      (TinyLfu.setTrigger t es raw pvc).2.find k2 = some e2) ∧
    (TinyLfu.setTrigger t es raw pvc).1.size = t.size ∧
    (TinyLfu.setTrigger t es raw pvc).1.capacity = t.capacity := by
  unfold TinyLfu.setTrigger
  split
  · have hcl : (TinyLfu.climb t raw pvc).synced es X := hs
    exact TinyLfu.resizeWindow_synced (TinyLfu.climb t raw pvc) es X hcl
  · exact ⟨hs, rfl, fun _ _ h _ => h, rfl, rfl⟩

/-- The admission step on a stored tag-0 key: the key is pushed to the
window front and retagged, resolving the exception; the size counter grows
by exactly one below the saturation threshold. -/
theorem TinyLfu.setAdmit_synced (t : TinyLfu) (key : Nat) (es : EntriesMap)
    (e0 : Entry)
    (hs : t.synced es (fun k2 => k2 = key))
    (hfind : es.find key = some e0)
    (hid0 : e0.policy_list_id = 0)
    (hsat : t.size < USIZE_MAX) :
    (TinyLfu.setAdmit t key es).1.synced (TinyLfu.setAdmit t key es).2
      (fun _ => False) ∧
    (TinyLfu.setAdmit t key es).2.keys = es.keys ∧
    (TinyLfu.setAdmit t key es).1.size = t.size + 1 ∧
    (TinyLfu.setAdmit t key es).1.capacity = t.capacity := by
  obtain ⟨⟨hnodup, htagW, htagPb, htagPt, hsum⟩, htr⟩ := hs
  have hkW : key ∉ t.window.list.items := by
    intro hc
    obtain ⟨e1, hf1, hd1, _⟩ := entryTagged_find es key 1 (htagW key hc)
    rw [hfind] at hf1
    obtain rfl : e0 = e1 := by simpa using hf1
    rw [hid0] at hd1
    exact absurd hd1 (by decide)
  have hkPb : key ∉ t.main.probation.items := by
    intro hc
    obtain ⟨e1, hf1, hd1, _⟩ := entryTagged_find es key 2 (htagPb key hc)
    rw [hfind] at hf1
    obtain rfl : e0 = e1 := by simpa using hf1
    rw [hid0] at hd1
    exact absurd hd1 (by decide)
  have hkPt : key ∉ t.main.protectedList.items := by
    intro hc
    obtain ⟨e1, hf1, hd1, _⟩ := entryTagged_find es key 3 (htagPt key hc)
    rw [hfind] at hf1
    obtain rfl : e0 = e1 := by simpa using hf1
    rw [hid0] at hd1
    exact absurd hd1 (by decide)
  have hstep : TinyLfu.setAdmit t key es =
      ({ t with
          misses_in_sample := satAdd t.misses_in_sample 1,
          window := { list := { items := key :: t.window.list.items,
                                capacity := t.window.list.capacity } },
          size := satAdd t.size 1,
          sketch := t.sketch.add key },
       es.adjust key (fun _ =>
         { e0 with policy_list_index := true, policy_list_id := 1 })) := by
    simp only [TinyLfu.setAdmit, hfind, hid0, Lru.insert, PList.insertFront,
      if_true, reduceIte]
  rw [hstep]
  have hm := movedTagsTracked t.window.list.items t.main.probation.items
      t.main.protectedList.items (key :: t.window.list.items)
      t.main.probation.items t.main.protectedList.items es
      (fun k2 => k2 = key) key e0
      { e0 with policy_list_index := true, policy_list_id := 1 } 1
      hfind (by simp) (by simp) (by simp)
      htagW htagPb htagPt htr
      (fun k2 => by
        constructor
        · intro h
          rcases List.mem_cons.mp h with h | h
          · exact Or.inr ⟨rfl, h⟩
          · exact Or.inl ⟨h, fun hc => hkW (hc ▸ h)⟩
        · rintro (⟨h, _⟩ | ⟨_, h⟩)
          · exact List.mem_cons_of_mem _ h
          · exact h ▸ List.mem_cons_self _ _)
      (fun k2 => by
        constructor
        · intro h
          exact Or.inl ⟨h, fun hc => hkPb (hc ▸ h)⟩
        · rintro (⟨h, _⟩ | ⟨h2, _⟩)
          · exact h
          · exact absurd h2 (by decide))
      (fun k2 => by
        constructor
        · intro h
          exact Or.inl ⟨h, fun hc => hkPt (hc ▸ h)⟩
        · rintro (⟨h, _⟩ | ⟨h2, _⟩)
          · exact h
          · exact absurd h2 (by decide))
  have htr2 : trackedIn (key :: t.window.list.items) t.main.probation.items
      t.main.protectedList.items
      (es.adjust key (fun _ =>
        { e0 with policy_list_index := true, policy_list_id := 1 }))
      (fun _ => False) := by
    intro k2 e2 hf
    rcases hm.2.2.2 k2 e2 hf with ⟨hx, hidx, _⟩ | hn
    · exfalso
      subst hx
      rw [EntriesMap.find_adjust, if_pos rfl, hfind] at hf
      simp only [Option.map_some', Option.some.injEq] at hf
      have he2 : e2.policy_list_index = true := by
        rw [← hf]
      rw [he2] at hidx
      exact absurd hidx (by decide)
    · exact Or.inr hn
  have hnodup2 : ((key :: t.window.list.items) ++ t.main.probation.items ++
      t.main.protectedList.items).Nodup := by
    have hmem : key ∉ (t.window.list.items ++ t.main.probation.items ++
        t.main.protectedList.items) := by
      intro hc
      rcases List.mem_append.mp hc with hc | hc
      · rcases List.mem_append.mp hc with hc | hc
        · exact hkW hc
        · exact hkPb hc
      · exact hkPt hc
    exact List.nodup_cons.mpr ⟨hmem, hnodup⟩
  have hsadd : satAdd t.size 1 = t.size + 1 := by
    unfold satAdd
    omega
  have hsum2 : satAdd t.size 1 = (key :: t.window.list.items).length +
      t.main.probation.items.length + t.main.protectedList.items.length := by
    simp only [PList.len] at hsum
    simp only [List.length_cons]
    omega
  refine ⟨⟨⟨hnodup2, hm.1, hm.2.1, hm.2.2.1, hsum2⟩, htr2⟩,
    EntriesMap.keys_adjust es key _, hsadd, rfl⟩

/-- Erasing one key leaves every other key's tag unchanged. -/
theorem entryTagged_erase_ne (es : EntriesMap) (k : Nat) (k2 i : Nat)
    (hne : k2 ≠ k) :
    entryTagged (es.erase k) k2 i = entryTagged es k2 i := by
  unfold entryTagged
  rw [EntriesMap.find_erase, if_neg hne]

/-- Erasing a stored key from the entries map and dropping it from the
region lists preserves the per-list tagging and the tracking. -/
theorem erasedTagsTracked (W Pb Pt W2 Pb2 Pt2 : List Nat) (es : EntriesMap)
    (X : Nat → Prop) (k : Nat)
    (htagW : ∀ k2 ∈ W, entryTagged es k2 1 = true)
    (htagPb : ∀ k2 ∈ Pb, entryTagged es k2 2 = true)
    (htagPt : ∀ k2 ∈ Pt, entryTagged es k2 3 = true)
    (htr : trackedIn W Pb Pt es X)
    (hmW : ∀ k2, k2 ∈ W2 ↔ (k2 ∈ W ∧ k2 ≠ k))
    (hmPb : ∀ k2, k2 ∈ Pb2 ↔ (k2 ∈ Pb ∧ k2 ≠ k))
    (hmPt : ∀ k2, k2 ∈ Pt2 ↔ (k2 ∈ Pt ∧ k2 ≠ k)) :
    (∀ k2 ∈ W2, entryTagged (es.erase k) k2 1 = true) ∧
    (∀ k2 ∈ Pb2, entryTagged (es.erase k) k2 2 = true) ∧
    (∀ k2 ∈ Pt2, entryTagged (es.erase k) k2 3 = true) ∧
    trackedIn W2 Pb2 Pt2 (es.erase k) X := by
  refine ⟨?_, ?_, ?_, ?_⟩
  · intro k2 hk2
    obtain ⟨hin, hne⟩ := (hmW k2).mp hk2
    rw [entryTagged_erase_ne es k k2 1 hne]
    exact htagW k2 hin
  · intro k2 hk2
    obtain ⟨hin, hne⟩ := (hmPb k2).mp hk2
    rw [entryTagged_erase_ne es k k2 2 hne]
    exact htagPb k2 hin
  · intro k2 hk2
    obtain ⟨hin, hne⟩ := (hmPt k2).mp hk2
    rw [entryTagged_erase_ne es k k2 3 hne]
    exact htagPt k2 hin
  · intro k2 e2 hf2
    rw [EntriesMap.find_erase] at hf2
    by_cases h : k2 = k
    · rw [if_pos h] at hf2
      exact absurd hf2 (by simp)
    · rw [if_neg h] at hf2
      rcases htr k2 e2 hf2 with hx | ⟨hidx, hc⟩
      · exact Or.inl hx
      · refine Or.inr ⟨hidx, ?_⟩
        rcases hc with ⟨hid, hin⟩ | ⟨hid, hin⟩ | ⟨hid, hin⟩
        · exact Or.inl ⟨hid, (hmW k2).mpr ⟨hin, h⟩⟩
        · exact Or.inr (Or.inl ⟨hid, (hmPb k2).mpr ⟨hin, h⟩⟩)
        · exact Or.inr (Or.inr ⟨hid, (hmPt k2).mpr ⟨hin, h⟩⟩)

/-- Removing a listed key succeeds and leaves the state synchronised with
the entries map minus that key; the size counter decrements exactly. -/
theorem TinyLfu.removeEntry_synced (t : TinyLfu) (es : EntriesMap) (k : Nat)
    (e : Entry) (X : Nat → Prop)
    (hs : t.synced es X) (hfind : es.find k = some e)
    (hlisted : k ∈ t.window.list.items ∨ k ∈ t.main.probation.items ∨
      k ∈ t.main.protectedList.items) :
    ∃ t2, t.removeEntry e k = some t2 ∧
      t2.synced (es.erase k) X ∧
      t2.size = t.size - 1 ∧ t2.capacity = t.capacity ∧ 1 ≤ t.size := by
  obtain ⟨⟨hnodup, htagW, htagPb, htagPt, hsum⟩, htr⟩ := hs
  have hWnd : t.window.list.items.Nodup := hnodup.of_append_left.of_append_left
  have hPbnd : t.main.probation.items.Nodup :=
    hnodup.of_append_left.of_append_right
  have hPtnd : t.main.protectedList.items.Nodup := hnodup.of_append_right
  have hdisjWPb := List.disjoint_of_nodup_append hnodup.of_append_left
  have hdisj := List.disjoint_of_nodup_append hnodup
  rcases hlisted with hin | hin | hin
  · obtain ⟨e1, hf1, hid, hidx⟩ := entryTagged_find es k 1 (htagW k hin)
    obtain rfl : e = e1 := by rw [hfind] at hf1; simpa using hf1
    have hkPb : k ∉ t.main.probation.items := fun hc => hdisjWPb hin hc
    have hkPt : k ∉ t.main.protectedList.items := fun hc =>
      hdisj (List.mem_append_left _ hin) hc
    refine ⟨{ t with
              window := { list := t.window.list.removeKey k },
              size := satSub t.size 1 }, ?_, ?_, rfl, rfl, ?_⟩
    · simp only [TinyLfu.removeEntry, hid, Lru.remove, hidx]
      norm_num
    · have hm := erasedTagsTracked t.window.list.items t.main.probation.items
        t.main.protectedList.items (t.window.list.items.erase k)
        t.main.probation.items t.main.protectedList.items es X k
        htagW htagPb htagPt htr
        (fun k2 => by
          constructor
          · intro h
            obtain ⟨hne, h2⟩ := (List.Nodup.mem_erase_iff hWnd).mp h
            exact ⟨h2, hne⟩
          · rintro ⟨h2, hne⟩
            exact (List.Nodup.mem_erase_iff hWnd).mpr ⟨hne, h2⟩)
        (fun k2 => ⟨fun h => ⟨h, fun hc => hkPb (hc ▸ h)⟩, fun h => h.1⟩)
        (fun k2 => ⟨fun h => ⟨h, fun hc => hkPt (hc ▸ h)⟩, fun h => h.1⟩)
      have hsub : ((t.window.list.items.erase k ++ t.main.probation.items) ++
          t.main.protectedList.items).Sublist
          ((t.window.list.items ++ t.main.probation.items) ++
            t.main.protectedList.items) :=
        (((List.erase_sublist k t.window.list.items).append
          (List.Sublist.refl t.main.probation.items)).append
          (List.Sublist.refl t.main.protectedList.items))
      have hlen := List.length_erase_of_mem hin
      have hpos : 1 ≤ t.window.list.items.length :=
        List.length_pos.mpr (fun hc => by simp [hc] at hin)
      refine ⟨⟨hnodup.sublist hsub, hm.1, hm.2.1, hm.2.2.1, ?_⟩, hm.2.2.2⟩
      show satSub t.size 1 = (t.window.list.items.erase k).length +
        t.main.probation.items.length + t.main.protectedList.items.length
      simp only [PList.len] at hsum
      unfold satSub
      omega
    · simp only [PList.len] at hsum
      have hpos : 1 ≤ t.window.list.items.length :=
        List.length_pos.mpr (fun hc => by simp [hc] at hin)
      omega
  · obtain ⟨e1, hf1, hid, hidx⟩ := entryTagged_find es k 2 (htagPb k hin)
    obtain rfl : e = e1 := by rw [hfind] at hf1; simpa using hf1
    have hkW : k ∉ t.window.list.items := fun hc => hdisjWPb hc hin
    have hkPt : k ∉ t.main.protectedList.items := fun hc =>
      hdisj (List.mem_append_right _ hin) hc
    refine ⟨{ t with
              main := { t.main with
                        probation := t.main.probation.removeKey k },
              size := satSub t.size 1 }, ?_, ?_, rfl, rfl, ?_⟩
    · simp only [TinyLfu.removeEntry, hid, Slru.remove, hidx]
      norm_num
    · have hm := erasedTagsTracked t.window.list.items t.main.probation.items
        t.main.protectedList.items t.window.list.items
        (t.main.probation.items.erase k) t.main.protectedList.items es X k
        htagW htagPb htagPt htr
        (fun k2 => ⟨fun h => ⟨h, fun hc => hkW (hc ▸ h)⟩, fun h => h.1⟩)
        (fun k2 => by
          constructor
          · intro h
            obtain ⟨hne, h2⟩ := (List.Nodup.mem_erase_iff hPbnd).mp h
            exact ⟨h2, hne⟩
          · rintro ⟨h2, hne⟩
            exact (List.Nodup.mem_erase_iff hPbnd).mpr ⟨hne, h2⟩)
        (fun k2 => ⟨fun h => ⟨h, fun hc => hkPt (hc ▸ h)⟩, fun h => h.1⟩)
      have hsub : ((t.window.list.items ++ t.main.probation.items.erase k) ++
          t.main.protectedList.items).Sublist
          ((t.window.list.items ++ t.main.probation.items) ++
            t.main.protectedList.items) :=
        (((List.Sublist.refl t.window.list.items).append
          (List.erase_sublist k t.main.probation.items)).append
          (List.Sublist.refl t.main.protectedList.items))
      have hlen := List.length_erase_of_mem hin
      have hpos : 1 ≤ t.main.probation.items.length :=
        List.length_pos.mpr (fun hc => by simp [hc] at hin)
      refine ⟨⟨hnodup.sublist hsub, hm.1, hm.2.1, hm.2.2.1, ?_⟩, hm.2.2.2⟩
      show satSub t.size 1 = t.window.list.items.length +
        (t.main.probation.items.erase k).length +
        t.main.protectedList.items.length
      simp only [PList.len] at hsum
      unfold satSub
      omega
    · simp only [PList.len] at hsum
      have hpos : 1 ≤ t.main.probation.items.length :=
        List.length_pos.mpr (fun hc => by simp [hc] at hin)
      omega
  · obtain ⟨e1, hf1, hid, hidx⟩ := entryTagged_find es k 3 (htagPt k hin)
    obtain rfl : e = e1 := by rw [hfind] at hf1; simpa using hf1
    have hkW : k ∉ t.window.list.items := fun hc =>
      hdisj (List.mem_append_left _ hc) hin
    have hkPb : k ∉ t.main.probation.items := fun hc =>
      hdisj (List.mem_append_right _ hc) hin
    refine ⟨{ t with
              main := { t.main with
                        protectedList := t.main.protectedList.removeKey k },
              size := satSub t.size 1 }, ?_, ?_, rfl, rfl, ?_⟩
    · simp only [TinyLfu.removeEntry, hid, Slru.remove, hidx]
      norm_num
    · have hm := erasedTagsTracked t.window.list.items t.main.probation.items
        t.main.protectedList.items t.window.list.items
        t.main.probation.items (t.main.protectedList.items.erase k) es X k
        htagW htagPb htagPt htr
        (fun k2 => ⟨fun h => ⟨h, fun hc => hkW (hc ▸ h)⟩, fun h => h.1⟩)
        (fun k2 => ⟨fun h => ⟨h, fun hc => hkPb (hc ▸ h)⟩, fun h => h.1⟩)
        (fun k2 => by
          constructor
          · intro h
            obtain ⟨hne, h2⟩ := (List.Nodup.mem_erase_iff hPtnd).mp h
            exact ⟨h2, hne⟩
          · rintro ⟨h2, hne⟩
            exact (List.Nodup.mem_erase_iff hPtnd).mpr ⟨hne, h2⟩)
      have hsub : ((t.window.list.items ++ t.main.probation.items) ++
          t.main.protectedList.items.erase k).Sublist
          ((t.window.list.items ++ t.main.probation.items) ++
            t.main.protectedList.items) :=
        ((List.Sublist.refl (t.window.list.items ++ t.main.probation.items)).append
          (List.erase_sublist k t.main.protectedList.items))
      have hlen := List.length_erase_of_mem hin
      have hpos : 1 ≤ t.main.protectedList.items.length :=
        List.length_pos.mpr (fun hc => by simp [hc] at hin)
      refine ⟨⟨hnodup.sublist hsub, hm.1, hm.2.1, hm.2.2.1, ?_⟩, hm.2.2.2⟩
      show satSub t.size 1 = t.window.list.items.length +
        t.main.probation.items.length +
        (t.main.protectedList.items.erase k).length
      simp only [PList.len] at hsum
      unfold satSub
      omega
    · simp only [PList.len] at hsum
      have hpos : 1 ≤ t.main.protectedList.items.length :=
        List.length_pos.mpr (fun hc => by simp [hc] at hin)
      omega

/-- The window drain preserves synchronisation, restores the window bound,
preserves the size and capacity counters and the stored keys and every
not-yet-admitted entry, and leaves the first drained key (when any) in the
probation list. -/
theorem TinyLfu.drain_synced (X : Nat → Prop) : ∀ (n : Nat) (t : TinyLfu)
    (es : EntriesMap) (first : Option Nat),
    t.synced es X →
    (∀ k0, first = some k0 → k0 ∈ t.main.probation.items) →
    t.window.list.len ≤ n + t.window.list.capacity →
    (TinyLfu.evictFromWindowLoop n t es first).1.synced
      (TinyLfu.evictFromWindowLoop n t es first).2.1 X ∧
    (TinyLfu.evictFromWindowLoop n t es first).1.window.list.len ≤
      (TinyLfu.evictFromWindowLoop n t es first).1.window.list.capacity ∧
    (TinyLfu.evictFromWindowLoop n t es first).1.size = t.size ∧
    (TinyLfu.evictFromWindowLoop n t es first).1.capacity = t.capacity ∧
    (∀ k0, (TinyLfu.evictFromWindowLoop n t es first).2.2 = some k0 →
      k0 ∈ (TinyLfu.evictFromWindowLoop n t es first).1.main.probation.items) ∧
    (TinyLfu.evictFromWindowLoop n t es first).2.1.keys = es.keys ∧
    (∀ k2 e2, es.find k2 = some e2 → e2.policy_list_id = 0 →
      (TinyLfu.evictFromWindowLoop n t es first).2.1.find k2 = some e2) := by
  intro n
  induction n with
  | zero =>
    intro t es first hs hfirst hlen
    exact ⟨hs, by simpa using hlen, rfl, rfl, hfirst, rfl, fun _ _ h _ => h⟩
  | succ n ih =>
    intro t es first hs hfirst hlen
    obtain ⟨⟨hnodup, htagW, htagPb, htagPt, hsum⟩, htr⟩ := hs
    by_cases hfit : t.window.list.len ≤ t.window.list.capacity
    · have hstep0 : TinyLfu.evictFromWindowLoop (n + 1) t es first =
          (t, es, first) := by
        simp only [TinyLfu.evictFromWindowLoop, hfit, if_pos, reduceIte]
      rw [hstep0]
      exact ⟨⟨⟨hnodup, htagW, htagPb, htagPt, hsum⟩, htr⟩, hfit, rfl, rfl,
        hfirst, rfl, fun _ _ h _ => h⟩
    · rcases hlast : t.window.list.items.getLast? with _ | k
      · exfalso
        rw [List.getLast?_eq_none_iff] at hlast
        apply hfit
        simp [PList.len, hlast]
      · obtain ⟨l2, hW⟩ := List.getLast?_eq_some_iff.mp hlast
        have hkW : k ∈ t.window.list.items :=
          List.mem_of_getLast?_eq_some hlast
        obtain ⟨e, hfind, hid, hidx⟩ :=
          entryTagged_find es k 1 (htagW k hkW)
        have hnodup2 := hnodup
        rw [hW] at hnodup2
        have hWPb : ((l2 ++ [k]) ++ t.main.probation.items).Nodup :=
          hnodup2.of_append_left
        have hkl2 : k ∉ l2 := by
          have h1 : (l2 ++ [k]).Nodup := hWPb.of_append_left
          intro hc
          exact (List.disjoint_of_nodup_append h1 hc) (by simp)
        have hkPb : k ∉ t.main.probation.items := by
          intro hc
          exact (List.disjoint_of_nodup_append hWPb (by simp [hW ▸ hkW])) hc
        have hkPt : k ∉ t.main.protectedList.items := by
          intro hc
          refine (List.disjoint_of_nodup_append hnodup2 ?_) hc
          exact List.mem_append_left _ (by simp)
        have hitems : t.window.list.items.dropLast = l2 := by
          rw [hW, List.dropLast_concat]
        obtain ⟨f2, hstep, hf2⟩ : ∃ f2,
            TinyLfu.evictFromWindowLoop (n + 1) t es first =
              TinyLfu.evictFromWindowLoop n
                { t with
                window := { list :=
                  { items := l2,
                    capacity := t.window.list.capacity } },
                main := { t.main with
                  probation :=
                    { items := k :: t.main.probation.items,
                      capacity := t.main.probation.capacity } } }
                (es.adjust k (fun _ =>
                { e with policy_list_index := true, policy_list_id := 2 }))
                f2 ∧
            (∀ k0, f2 = some k0 → k0 ∈ k :: t.main.probation.items) := by
          rcases first with _ | f
          · refine ⟨some k, ?_, ?_⟩
            · simp only [TinyLfu.evictFromWindowLoop, PList.popTail]
              rw [if_neg hfit]
              simp only [hlast, hfind, Slru.insert, PList.insertFront]
              rw [hitems]
            · intro k0 hk0
              simp only [Option.some.injEq] at hk0
              simp [hk0]
          · refine ⟨some f, ?_, ?_⟩
            · simp only [TinyLfu.evictFromWindowLoop, PList.popTail]
              rw [if_neg hfit]
              simp only [hlast, hfind, Slru.insert, PList.insertFront]
              rw [hitems]
            · intro k0 hk0
              simp only [Option.some.injEq] at hk0
              subst hk0
              exact List.mem_cons_of_mem _ (hfirst f rfl)
        rw [hstep]
        have hm := movedTagsTracked t.window.list.items t.main.probation.items
            t.main.protectedList.items l2
            (k :: t.main.probation.items) t.main.protectedList.items es X k e
            { e with policy_list_index := true, policy_list_id := 2 } 2
            hfind (by simp) (by simp) (by simp)
            htagW htagPb htagPt htr
            (fun k2 => by
              constructor
              · intro h
                exact Or.inl ⟨hW ▸ List.mem_append_left _ h,
                  fun hc => hkl2 (hc ▸ h)⟩
              · rintro (⟨h, hne⟩ | ⟨h2, _⟩)
                · rw [hW] at h
                  rcases List.mem_append.mp h with h | h
                  · exact h
                  · exact absurd (by simpa using h) hne
                · exact absurd h2 (by decide))
            (fun k2 => by
              constructor
              · intro h
                rcases List.mem_cons.mp h with h | h
                · exact Or.inr ⟨rfl, h⟩
                · exact Or.inl ⟨h, fun hc => hkPb (hc ▸ h)⟩
              · rintro (⟨h, _⟩ | ⟨_, h⟩)
                · exact List.mem_cons_of_mem _ h
                · exact h ▸ List.mem_cons_self _ _)
            (fun k2 => by
              constructor
              · intro h
                exact Or.inl ⟨h, fun hc => hkPt (hc ▸ h)⟩
              · rintro (⟨h, _⟩ | ⟨h2, _⟩)
                · exact h
                · exact absurd h2 (by decide))
        have hnodup3 : (l2 ++ (k :: t.main.probation.items) ++
            t.main.protectedList.items).Nodup := by
          rw [show l2 ++ (k :: t.main.probation.items) ++
              t.main.protectedList.items =
              (l2 ++ [k]) ++ t.main.probation.items ++
              t.main.protectedList.items from by
            simp [List.append_assoc]]
          exact hnodup2
        have hsum2 : t.size = l2.length +
            (k :: t.main.probation.items).length +
            t.main.protectedList.items.length := by
          simp only [PList.len] at hsum
          rw [hW] at hsum
          simp only [List.length_append, List.length_cons,
            List.length_nil] at hsum ⊢
          omega
        have hlen3 : l2.length ≤ n + t.window.list.capacity := by
          have hl : t.window.list.items.length = l2.length + 1 := by
            rw [hW]
            simp
          simp only [PList.len] at hlen
          omega
        have hres := ih
          { t with
            window := { list :=
              { items := l2,
                capacity := t.window.list.capacity } },
            main := { t.main with
              probation :=
                { items := k :: t.main.probation.items,
                  capacity := t.main.probation.capacity } } }
          (es.adjust k (fun _ =>
            { e with policy_list_index := true, policy_list_id := 2 }))
          f2
          ⟨⟨hnodup3, hm.1, hm.2.1, hm.2.2.1, hsum2⟩, hm.2.2.2⟩
          hf2 hlen3
        refine ⟨hres.1, hres.2.1, hres.2.2.1, hres.2.2.2.1, hres.2.2.2.2.1,
          ?_, ?_⟩
        · rw [hres.2.2.2.2.2.1, EntriesMap.keys_adjust]
        · intro k2 e3 hf hid0
          have hne : k2 ≠ k := by
            intro hc
            rw [hc, hfind] at hf
            obtain rfl : e = e3 := by simpa using hf
            rw [hid] at hid0
            exact absurd hid0 (by decide)
          apply hres.2.2.2.2.2.2
          · rw [EntriesMap.find_adjust, if_neg hne]
            exact hf
          · exact hid0

/-- The candidate-versus-victim loop on a synchronised state with at most
one entry of overshoot: it returns normally with the entries map unchanged,
and either no eviction happened (the size already fit) or exactly one listed
key was evicted, re-synchronising the state once that key's binding is
dropped. -/
theorem TinyLfu.mainLoop_inv (n : Nat) (t : TinyLfu) (es : EntriesMap)
    (first : Option Nat)
    (hs : t.synced es (fun _ => False))
    (hsz : t.size ≤ t.capacity + 1)
    (hfirst : ∀ k0, first = some k0 → k0 ∈ t.main.probation.items)
    (hn : 3 ≤ n) :
    ∃ t2 ev, TinyLfu.evictFromMainLoop n t es
      { victim_queue := PolicyQueue.Probation,
        candidate_queue := PolicyQueue.Probation,
        victim := t.main.probation.tailKey, candidate := first,
        evicted := none } = .ok t2 es ev ∧
      t2.capacity = t.capacity ∧
      ((ev = none ∧ t2 = t ∧ t.size ≤ t.capacity) ∨
       (∃ x ex, ev = some x ∧ es.find x = some ex ∧
         t2.synced (es.erase x) (fun _ => False) ∧
         t2.size = t.size - 1 ∧ t.size = t.capacity + 1)) := by
  by_cases hgt : t.size ≤ t.capacity
  · exact ⟨t, none, TinyLfu.mainLoop_done _ _ _ _ hgt, rfl,
      Or.inl ⟨rfl, rfl, hgt⟩⟩
  · obtain ⟨m2, rfl, hm2⟩ : ∃ m2, n = m2 + 1 ∧ 2 ≤ m2 :=
      ⟨n - 1, by omega, by omega⟩
    have hone : t.size = t.capacity + 1 := by omega
    obtain ⟨hnodup, htagW, htagPb, htagPt, hsum⟩ := hs.1
    have htr := hs.2
    have hdisjWPb : t.window.list.items.Disjoint t.main.probation.items :=
      List.disjoint_of_nodup_append hnodup.of_append_left
    rcases hf : first with _ | k0
    · rcases hwt : t.window.list.tailKey with _ | w0
      · rcases hv : t.main.probation.tailKey with _ | v0
        · have hWnil : t.window.list.items = [] :=
            List.getLast?_eq_none_iff.mp hwt
          have hPbnil : t.main.probation.items = [] :=
            List.getLast?_eq_none_iff.mp hv
          rcases hp : t.main.protectedList.tailKey with _ | p0
          · exfalso
            have hPtnil : t.main.protectedList.items = [] :=
              List.getLast?_eq_none_iff.mp hp
            simp only [PList.len, hWnil, hPbnil, hPtnil,
              List.length_nil] at hsum
            omega
          · have hp0 : p0 ∈ t.main.protectedList.items :=
              List.mem_of_getLast?_eq_some hp
            obtain ⟨ep, hfindp, hidp, hidxp⟩ :=
              entryTagged_find es p0 3 (htagPt p0 hp0)
            obtain ⟨pv, hpv⟩ :=
              TinyLfu.prevKey_ok t es p0 ep hfindp (Or.inr (Or.inr hidp))
            obtain ⟨t2, hrem, hsy2, hsz2, hcap2, hpos⟩ :=
              TinyLfu.removeEntry_synced t es p0 ep (fun _ => False) hs hfindp
                (Or.inr (Or.inr hp0))
            have hev : TinyLfu.evictOne t es (some p0) none =
                some (t2, some p0) := by
              simp [TinyLfu.evictOne, hfindp, hrem]
            obtain ⟨m3, rfl⟩ : ∃ m3, m2 = m3 + 1 := ⟨m2 - 1, by omega⟩
            refine ⟨t2, some p0, ?_, hcap2, Or.inr ⟨p0, ep, rfl, hfindp,
              hsy2, hsz2, hone⟩⟩
            have hstep1 : TinyLfu.evictFromMainLoop (m3 + 1 + 1) t es
                { victim_queue := PolicyQueue.Probation,
                  candidate_queue := PolicyQueue.Probation,
                  victim := none, candidate := none,
                  evicted := none } =
                TinyLfu.evictFromMainLoop (m3 + 1) t es
                { victim_queue := PolicyQueue.Protected,
                  candidate_queue := PolicyQueue.Window,
                  victim := some p0, candidate := none,
                  evicted := none } := by
              simp [TinyLfu.evictFromMainLoop, hgt, hwt, hp]
            have hstep2 : TinyLfu.evictFromMainLoop (m3 + 1) t es
                { victim_queue := PolicyQueue.Protected,
                  candidate_queue := PolicyQueue.Window,
                  victim := some p0, candidate := none,
                  evicted := none } =
                TinyLfu.evictFromMainLoop m3 t2 es
                { victim_queue := PolicyQueue.Protected,
                  candidate_queue := PolicyQueue.Window,
                  victim := pv, candidate := none, evicted := some p0 } := by
              simp [TinyLfu.evictFromMainLoop, hgt, hp, hpv, hev]
            rw [hstep1, hstep2]
            exact TinyLfu.mainLoop_done _ _ _ _ (by omega)
        · have hv0 : v0 ∈ t.main.probation.items :=
            List.mem_of_getLast?_eq_some hv
          obtain ⟨ev0, hfindv, hidv, hidxv⟩ :=
            entryTagged_find es v0 2 (htagPb v0 hv0)
          obtain ⟨pv, hpv⟩ :=
            TinyLfu.prevKey_ok t es v0 ev0 hfindv (Or.inr (Or.inl hidv))
          obtain ⟨t2, hrem, hsy2, hsz2, hcap2, hpos⟩ :=
            TinyLfu.removeEntry_synced t es v0 ev0 (fun _ => False) hs hfindv
              (Or.inr (Or.inl hv0))
          have hev : TinyLfu.evictOne t es (some v0) none =
              some (t2, some v0) := by
            simp [TinyLfu.evictOne, hfindv, hrem]
          refine ⟨t2, some v0, ?_, hcap2, Or.inr ⟨v0, ev0, rfl, hfindv,
            hsy2, hsz2, hone⟩⟩
          have hstep1 : TinyLfu.evictFromMainLoop (m2 + 1) t es
              { victim_queue := PolicyQueue.Probation,
                candidate_queue := PolicyQueue.Probation,
                victim := some v0, candidate := none,
                evicted := none } =
              TinyLfu.evictFromMainLoop m2 t2 es
              { victim_queue := PolicyQueue.Probation,
                candidate_queue := PolicyQueue.Window,
                victim := pv, candidate := none, evicted := some v0 } := by
            simp [TinyLfu.evictFromMainLoop, hgt, hwt, hpv, hev]
          rw [hstep1]
          exact TinyLfu.mainLoop_done _ _ _ _ (by omega)
      · have hw0 : w0 ∈ t.window.list.items :=
          List.mem_of_getLast?_eq_some hwt
        obtain ⟨ew, hfindw, hidw, hidxw⟩ :=
          entryTagged_find es w0 1 (htagW w0 hw0)
        rcases hv : t.main.probation.tailKey with _ | v0
        · obtain ⟨pc, hpc⟩ :=
            TinyLfu.prevKey_ok t es w0 ew hfindw (Or.inl hidw)
          obtain ⟨t2, hrem, hsy2, hsz2, hcap2, hpos⟩ :=
            TinyLfu.removeEntry_synced t es w0 ew (fun _ => False) hs hfindw
              (Or.inl hw0)
          have hev : TinyLfu.evictOne t es (some w0) none =
              some (t2, some w0) := by
            simp [TinyLfu.evictOne, hfindw, hrem]
          refine ⟨t2, some w0, ?_, hcap2, Or.inr ⟨w0, ew, rfl, hfindw,
            hsy2, hsz2, hone⟩⟩
          have hstep1 : TinyLfu.evictFromMainLoop (m2 + 1) t es
              { victim_queue := PolicyQueue.Probation,
                candidate_queue := PolicyQueue.Probation,
                victim := none, candidate := none,
                evicted := none } =
              TinyLfu.evictFromMainLoop m2 t2 es
              { victim_queue := PolicyQueue.Probation,
                candidate_queue := PolicyQueue.Window,
                victim := none, candidate := pc,
                evicted := some w0 } := by
            simp [TinyLfu.evictFromMainLoop, hgt, hwt, hpc, hev]
          rw [hstep1]
          exact TinyLfu.mainLoop_done _ _ _ _ (by omega)
        · have hv0 : v0 ∈ t.main.probation.items :=
            List.mem_of_getLast?_eq_some hv
          have hne : v0 ≠ w0 := fun he => hdisjWPb (he ▸ hw0) hv0
          obtain ⟨ev0, hfindv, hidv, hidxv⟩ :=
            entryTagged_find es v0 2 (htagPb v0 hv0)
          rcases hadm : t.admit w0 v0 with _ | _
          · obtain ⟨pc, hpc⟩ :=
              TinyLfu.prevKey_ok t es w0 ew hfindw (Or.inl hidw)
            obtain ⟨t2, hrem, hsy2, hsz2, hcap2, hpos⟩ :=
              TinyLfu.removeEntry_synced t es w0 ew (fun _ => False) hs hfindw
                (Or.inl hw0)
            have hev : TinyLfu.evictOne t es (some w0) none =
                some (t2, some w0) := by
              simp [TinyLfu.evictOne, hfindw, hrem]
            refine ⟨t2, some w0, ?_, hcap2, Or.inr ⟨w0, ew, rfl, hfindw,
              hsy2, hsz2, hone⟩⟩
            have hstep1 : TinyLfu.evictFromMainLoop (m2 + 1) t es
                { victim_queue := PolicyQueue.Probation,
                  candidate_queue := PolicyQueue.Probation,
                  victim := some v0, candidate := none,
                  evicted := none } =
                TinyLfu.evictFromMainLoop m2 t2 es
                { victim_queue := PolicyQueue.Probation,
                  candidate_queue := PolicyQueue.Window,
                  victim := some v0, candidate := pc,
                  evicted := some w0 } := by
              simp [TinyLfu.evictFromMainLoop, hgt, hwt, hne, hadm,
                hpc, hev]
            rw [hstep1]
            exact TinyLfu.mainLoop_done _ _ _ _ (by omega)
          · obtain ⟨pv, hpv⟩ :=
              TinyLfu.prevKey_ok t es v0 ev0 hfindv (Or.inr (Or.inl hidv))
            obtain ⟨t2, hrem, hsy2, hsz2, hcap2, hpos⟩ :=
              TinyLfu.removeEntry_synced t es v0 ev0 (fun _ => False) hs hfindv
                (Or.inr (Or.inl hv0))
            have hev : TinyLfu.evictOne t es (some v0) none =
                some (t2, some v0) := by
              simp [TinyLfu.evictOne, hfindv, hrem]
            obtain ⟨pc, hpc⟩ :=
              TinyLfu.prevKey_ok t2 es w0 ew hfindw (Or.inl hidw)
            refine ⟨t2, some v0, ?_, hcap2, Or.inr ⟨v0, ev0, rfl, hfindv,
              hsy2, hsz2, hone⟩⟩
            have hstep1 : TinyLfu.evictFromMainLoop (m2 + 1) t es
                { victim_queue := PolicyQueue.Probation,
                  candidate_queue := PolicyQueue.Probation,
                  victim := some v0, candidate := none,
                  evicted := none } =
                TinyLfu.evictFromMainLoop m2 t2 es
                { victim_queue := PolicyQueue.Probation,
                  candidate_queue := PolicyQueue.Window,
                  victim := pv, candidate := pc, evicted := some v0 } := by
              simp [TinyLfu.evictFromMainLoop, hgt, hwt, hne, hadm,
                hpv, hev, hpc]
            rw [hstep1]
            exact TinyLfu.mainLoop_done _ _ _ _ (by omega)
    · have hk0 : k0 ∈ t.main.probation.items := hfirst k0 hf
      rcases hv : t.main.probation.tailKey with _ | v0
      · exfalso
        have : t.main.probation.items = [] :=
          List.getLast?_eq_none_iff.mp hv
        rw [this] at hk0
        exact absurd hk0 (List.not_mem_nil k0)
      · have hv0 : v0 ∈ t.main.probation.items :=
          List.mem_of_getLast?_eq_some hv
        obtain ⟨ec, hfindc, hidc, hidxc⟩ :=
          entryTagged_find es k0 2 (htagPb k0 hk0)
        obtain ⟨ev0, hfindv, hidv, hidxv⟩ :=
          entryTagged_find es v0 2 (htagPb v0 hv0)
        by_cases heq : v0 = k0
        · subst heq
          obtain ⟨pv, hpv⟩ :=
            TinyLfu.prevKey_ok t es v0 ev0 hfindv (Or.inr (Or.inl hidv))
          obtain ⟨t2, hrem, hsy2, hsz2, hcap2, hpos⟩ :=
            TinyLfu.removeEntry_synced t es v0 ev0 (fun _ => False) hs hfindv
              (Or.inr (Or.inl hv0))
          have hev : TinyLfu.evictOne t es (some v0) none =
              some (t2, some v0) := by
            simp [TinyLfu.evictOne, hfindv, hrem]
          refine ⟨t2, some v0, ?_, hcap2, Or.inr ⟨v0, ev0, rfl, hfindv,
            hsy2, hsz2, hone⟩⟩
          have hstep1 : TinyLfu.evictFromMainLoop (m2 + 1) t es
              { victim_queue := PolicyQueue.Probation,
                candidate_queue := PolicyQueue.Probation,
                victim := some v0, candidate := some v0,
                evicted := none } =
              TinyLfu.evictFromMainLoop m2 t2 es
              { victim_queue := PolicyQueue.Probation,
                candidate_queue := PolicyQueue.Probation,
                victim := pv, candidate := none, evicted := some v0 } := by
            simp [TinyLfu.evictFromMainLoop, hgt, hpv, hev]
          rw [hstep1]
          exact TinyLfu.mainLoop_done _ _ _ _ (by omega)
        · rcases hadm : t.admit k0 v0 with _ | _
          · obtain ⟨pc, hpc⟩ :=
              TinyLfu.prevKey_ok t es k0 ec hfindc (Or.inr (Or.inl hidc))
            obtain ⟨t2, hrem, hsy2, hsz2, hcap2, hpos⟩ :=
              TinyLfu.removeEntry_synced t es k0 ec (fun _ => False) hs hfindc
                (Or.inr (Or.inl hk0))
            have hev : TinyLfu.evictOne t es (some k0) none =
                some (t2, some k0) := by
              simp [TinyLfu.evictOne, hfindc, hrem]
            refine ⟨t2, some k0, ?_, hcap2, Or.inr ⟨k0, ec, rfl, hfindc,
              hsy2, hsz2, hone⟩⟩
            have hstep1 : TinyLfu.evictFromMainLoop (m2 + 1) t es
                { victim_queue := PolicyQueue.Probation,
                  candidate_queue := PolicyQueue.Probation,
                  victim := some v0, candidate := some k0,
                  evicted := none } =
                TinyLfu.evictFromMainLoop m2 t2 es
                { victim_queue := PolicyQueue.Probation,
                  candidate_queue := PolicyQueue.Probation,
                  victim := some v0, candidate := pc,
                  evicted := some k0 } := by
              simp [TinyLfu.evictFromMainLoop, hgt, heq, hadm, hpc, hev]
            rw [hstep1]
            exact TinyLfu.mainLoop_done _ _ _ _ (by omega)
          · obtain ⟨pv, hpv⟩ :=
              TinyLfu.prevKey_ok t es v0 ev0 hfindv (Or.inr (Or.inl hidv))
            obtain ⟨t2, hrem, hsy2, hsz2, hcap2, hpos⟩ :=
              TinyLfu.removeEntry_synced t es v0 ev0 (fun _ => False) hs hfindv
                (Or.inr (Or.inl hv0))
            have hev : TinyLfu.evictOne t es (some v0) none =
                some (t2, some v0) := by
              simp [TinyLfu.evictOne, hfindv, hrem]
            obtain ⟨pc, hpc⟩ :=
              TinyLfu.prevKey_ok t2 es k0 ec hfindc (Or.inr (Or.inl hidc))
            refine ⟨t2, some v0, ?_, hcap2, Or.inr ⟨v0, ev0, rfl, hfindv,
              hsy2, hsz2, hone⟩⟩
            have hstep1 : TinyLfu.evictFromMainLoop (m2 + 1) t es
                { victim_queue := PolicyQueue.Probation,
                  candidate_queue := PolicyQueue.Probation,
                  victim := some v0, candidate := some k0,
                  evicted := none } =
                TinyLfu.evictFromMainLoop m2 t2 es
                { victim_queue := PolicyQueue.Probation,
                  candidate_queue := PolicyQueue.Probation,
                  victim := pv, candidate := pc, evicted := some v0 } := by
              simp [TinyLfu.evictFromMainLoop, hgt, heq, hadm, hpv,
                hev, hpc]
            rw [hstep1]
            exact TinyLfu.mainLoop_done _ _ _ _ (by omega)

/-- evict_entries on a synchronised state with at most one entry of
overshoot: a normal return whose entries map keeps exactly the old keys,
with either no eviction (the size already fit) or one evicted stored key
whose removal re-synchronises the state. -/
theorem TinyLfu.evictEntries_inv (t : TinyLfu) (es : EntriesMap)
    (hs : t.synced es (fun _ => False))
    (hsz : t.size ≤ t.capacity + 1) :
    ∃ t2 es2 ev, t.evictEntries es = .ok t2 es2 ev ∧
      t2.capacity = t.capacity ∧
      es2.keys = es.keys ∧
      ((ev = none ∧ t2.synced es2 (fun _ => False) ∧ t2.size = t.size ∧
        t.size ≤ t.capacity) ∨
       (∃ x ex, ev = some x ∧ es2.find x = some ex ∧
         t2.synced (es2.erase x) (fun _ => False) ∧
         t2.size = t.size - 1 ∧ t.size = t.capacity + 1)) := by
  have hd := TinyLfu.drain_synced (fun _ => False) t.window.list.len t es none
    hs (fun k0 h => Option.noConfusion h) (by omega)
  obtain ⟨hdsy, hdfit, hdsz, hdcap, hdfirst, hdkeys, hdid0⟩ := hd
  have hm := TinyLfu.mainLoop_inv
    (TinyLfu.evictFuel (TinyLfu.evictFromWindowLoop t.window.list.len t es
      none).1)
    (TinyLfu.evictFromWindowLoop t.window.list.len t es none).1
    (TinyLfu.evictFromWindowLoop t.window.list.len t es none).2.1
    (TinyLfu.evictFromWindowLoop t.window.list.len t es none).2.2
    hdsy (by rw [hdsz, hdcap]; exact hsz) hdfirst
    (by unfold TinyLfu.evictFuel; omega)
  obtain ⟨t2, ev, hok, hcap2, hcase⟩ := hm
  refine ⟨t2, (TinyLfu.evictFromWindowLoop t.window.list.len t es none).2.1,
    ev, ?_, hcap2.trans hdcap, hdkeys, ?_⟩
  · simp only [TinyLfu.evictEntries]
    exact hok
  · rcases hcase with ⟨hev, ht2, hle⟩ | ⟨x, ex, hev, hfindx, hsy, hsz2, hover⟩
    · refine Or.inl ⟨hev, ?_, ?_, ?_⟩
      · rw [ht2]
        exact hdsy
      · rw [ht2, hdsz]
      · rw [hdsz, hdcap] at hle
        exact hle
    · refine Or.inr ⟨x, ex, hev, hfindx, hsy, ?_, ?_⟩
      · rw [hsz2, hdsz]
      · rw [hdsz, hdcap] at hover
        exact hover

/-- A policy set call on a synchronised state holding exactly one fresh
tag-0 key within capacity: the call succeeds, keeps the stored keys, and
re-synchronises the state (after dropping the evicted key's binding when one
is reported), with the size back within capacity. -/
theorem TinyLfu.set_inv (t : TinyLfu) (key : Nat) (es : EntriesMap)
    (raw : Int) (pvc : Nat) (e0 : Entry)
    (hs : t.synced es (fun k2 => k2 = key))
    (hfind : es.find key = some e0) (hid0 : e0.policy_list_id = 0)
    (hsz : t.size ≤ t.capacity)
    (hsat : t.size < USIZE_MAX) :
    ∃ t2 es2 ev, TinyLfu.set t key es raw pvc = (t2, es2, ev, true) ∧
      t2.capacity = t.capacity ∧
      es2.keys = es.keys ∧
      ((ev = none ∧ t2.synced es2 (fun _ => False) ∧
        t2.size = t.size + 1 ∧ t2.size ≤ t2.capacity) ∨
       (∃ x ex, ev = some x ∧ es2.find x = some ex ∧
         t2.synced (es2.erase x) (fun _ => False) ∧
         t2.size = t.size ∧ t2.size ≤ t2.capacity)) := by
  obtain ⟨hasy, hakeys, haid0, hasz, hacap⟩ :=
    TinyLfu.setTrigger_synced t es (fun k2 => k2 = key) raw pvc hs
  have hafind : (TinyLfu.setTrigger t es raw pvc).2.find key = some e0 :=
    haid0 key e0 hfind hid0
  obtain ⟨hbsy, hbkeys, hbsz, hbcap⟩ :=
    TinyLfu.setAdmit_synced (TinyLfu.setTrigger t es raw pvc).1 key
      (TinyLfu.setTrigger t es raw pvc).2 e0 hasy hafind hid0
      (by rw [hasz]; exact hsat)
  obtain ⟨hcsy, hckeys, hcid0, hcsz, hccap⟩ :=
    TinyLfu.demoteFromProtected_synced
      (TinyLfu.setAdmit (TinyLfu.setTrigger t es raw pvc).1 key
        (TinyLfu.setTrigger t es raw pvc).2).1
      (TinyLfu.setAdmit (TinyLfu.setTrigger t es raw pvc).1 key
        (TinyLfu.setTrigger t es raw pvc).2).2
      (fun _ => False) hbsy
  obtain ⟨t2, es2, ev, hok, hecap, hekeys, hcase⟩ :=
    TinyLfu.evictEntries_inv
      (TinyLfu.demoteFromProtected
        (TinyLfu.setAdmit (TinyLfu.setTrigger t es raw pvc).1 key
          (TinyLfu.setTrigger t es raw pvc).2).1
        (TinyLfu.setAdmit (TinyLfu.setTrigger t es raw pvc).1 key
          (TinyLfu.setTrigger t es raw pvc).2).2).1
      (TinyLfu.demoteFromProtected
        (TinyLfu.setAdmit (TinyLfu.setTrigger t es raw pvc).1 key
          (TinyLfu.setTrigger t es raw pvc).2).1
        (TinyLfu.setAdmit (TinyLfu.setTrigger t es raw pvc).1 key
          (TinyLfu.setTrigger t es raw pvc).2).2).2
      hcsy (by rw [hcsz, hccap, hbsz, hbcap, hasz, hacap]; omega)
  refine ⟨t2, es2, ev, ?_, ?_, ?_, ?_⟩
  · unfold TinyLfu.set
    simp only []
    rw [hok]
  · rw [hecap, hccap, hbcap, hacap]
  · rw [hekeys, hckeys, hbkeys, hakeys]
  · rcases hcase with ⟨hev, hsy2, hsz2, hle⟩ | ⟨x, ex, hev, hfindx, hsy2,
      hsz2, hover⟩
    · refine Or.inl ⟨hev, hsy2, ?_, ?_⟩
      · rw [hsz2, hcsz, hbsz, hasz]
      · rw [hsz2, hcsz, hbsz, hasz, hecap, hccap, hbcap, hacap]
        rw [hcsz, hbsz, hasz, hccap, hbcap, hacap] at hle
        exact hle
    · refine Or.inr ⟨x, ex, hev, hfindx, hsy2, ?_, ?_⟩
      · rw [hsz2, hcsz, hbsz, hasz]
        omega
      · rw [hsz2, hcsz, hbsz, hasz, hecap, hccap, hbcap, hacap]
        omega

/-- Adjusting a stored key applies the update to its stored entry, so the
update function can be replaced by its value there. -/
theorem EntriesMap.adjust_const (es : EntriesMap) (k : Nat) (e : Entry)
    (f : Entry → Entry) (hfind : es.find k = some e) :
    es.adjust k f = es.adjust k (fun _ => f e) := by
  induction es with
  | nil => rfl
  | cons p rest ih =>
    obtain ⟨pk, pe⟩ := p
    by_cases h : pk = k
    · rw [EntriesMap.find, if_pos h] at hfind
      obtain rfl : pe = e := by simpa using hfind
      simp [EntriesMap.adjust, h]
    · rw [EntriesMap.find, if_neg h] at hfind
      simp [EntriesMap.adjust, h, ih hfind]

/-- Reordering the region lists without changing their members or the
entries map preserves the per-list tagging and the tracking. -/
theorem sameTagsTracked (W Pb Pt W2 Pb2 Pt2 : List Nat) (es : EntriesMap)
    (X : Nat → Prop)
    (htagW : ∀ k2 ∈ W, entryTagged es k2 1 = true)
    (htagPb : ∀ k2 ∈ Pb, entryTagged es k2 2 = true)
    (htagPt : ∀ k2 ∈ Pt, entryTagged es k2 3 = true)
    (htr : trackedIn W Pb Pt es X)
    (hmW : ∀ k2, k2 ∈ W2 ↔ k2 ∈ W)
    (hmPb : ∀ k2, k2 ∈ Pb2 ↔ k2 ∈ Pb)
    (hmPt : ∀ k2, k2 ∈ Pt2 ↔ k2 ∈ Pt) :
    (∀ k2 ∈ W2, entryTagged es k2 1 = true) ∧
    (∀ k2 ∈ Pb2, entryTagged es k2 2 = true) ∧
    (∀ k2 ∈ Pt2, entryTagged es k2 3 = true) ∧
    trackedIn W2 Pb2 Pt2 es X := by
  refine ⟨fun k2 hk2 => htagW k2 ((hmW k2).mp hk2),
    fun k2 hk2 => htagPb k2 ((hmPb k2).mp hk2),
    fun k2 hk2 => htagPt k2 ((hmPt k2).mp hk2), ?_⟩
  intro k2 e2 hf2
  rcases htr k2 e2 hf2 with hx | ⟨hidx, hc⟩
  · exact Or.inl hx
  · refine Or.inr ⟨hidx, ?_⟩
    rcases hc with ⟨hid, hin⟩ | ⟨hid, hin⟩ | ⟨hid, hin⟩
    · exact Or.inl ⟨hid, (hmW k2).mpr hin⟩
    · exact Or.inr (Or.inl ⟨hid, (hmPb k2).mpr hin⟩)
    · exact Or.inr (Or.inr ⟨hid, (hmPt k2).mpr hin⟩)

/-- A policy access call on a synchronised state preserves synchronisation,
the stored keys, and the size and capacity counters, in every branch. -/
theorem TinyLfu.access_inv (t : TinyLfu) (key now : Nat) (es : EntriesMap)
    (raw : Int) (pvc : Nat)
    (hs : t.synced es (fun _ => False)) :
    (TinyLfu.access t key now es raw pvc).1.synced
      (TinyLfu.access t key now es raw pvc).2.1 (fun _ => False) ∧
    (TinyLfu.access t key now es raw pvc).2.1.keys = es.keys ∧
    (TinyLfu.access t key now es raw pvc).1.size = t.size ∧
    (TinyLfu.access t key now es raw pvc).1.capacity = t.capacity := by
  obtain ⟨hasy, hakeys, haid0, hasz, hacap⟩ :=
    TinyLfu.setTrigger_synced t es (fun _ => False) raw pvc hs
  set S := TinyLfu.setTrigger t es raw pvc with hS
  rcases hfind : S.2.find key with _ | e
  · have hstep : TinyLfu.access t key now es raw pvc =
        ({ S.1 with sketch := S.1.sketch.add key }, S.2, true) := by
      simp only [TinyLfu.access]
      rw [← hS]
      simp only [hfind]
    rw [hstep]
    exact ⟨hasy, hakeys, hasz, hacap⟩
  · have hco := hasy.1
    have htr := hasy.2
    obtain ⟨hnodup, htagW, htagPb, htagPt, hsum⟩ := hco
    by_cases hexp : e.expire ≠ 0 ∧ e.expire ≤ now
    · have hstep : TinyLfu.access t key now es raw pvc =
          ({ S.1 with
             sketch := S.1.sketch.add key,
             hit_in_sample := satAdd S.1.hit_in_sample 1 }, S.2, true) := by
        simp only [TinyLfu.access]
        rw [← hS]
        simp only [hfind]
        rw [if_pos hexp]
      rw [hstep]
      exact ⟨hasy, hakeys, hasz, hacap⟩
    · rcases htr key e hfind with ⟨hfalse, _⟩ | ⟨hidx, hcl⟩
      · exact hfalse.elim
      · rcases hcl with ⟨hid, hin⟩ | ⟨hid, hin⟩ | ⟨hid, hin⟩
        · -- window hit: touch the window list
          have hc : S.1.window.list.items.contains key = true :=
            List.elem_iff.mpr hin
          have hstep : TinyLfu.access t key now es raw pvc =
              ({ S.1 with
                 sketch := S.1.sketch.add key,
                 hit_in_sample := satAdd S.1.hit_in_sample 1,
                 window := { list :=
                   { items := key :: (S.1.window.list.items.erase key),
                     capacity := S.1.window.list.capacity } } },
               S.2, true) := by
            simp only [TinyLfu.access]
            rw [← hS]
            simp only [hfind]
            rw [if_neg hexp]
            simp only [hidx, hid, if_true, reduceIte, Lru.access,
              PList.touch, hc]
          rw [hstep]
          have hperm : S.1.window.list.items.Perm
              (key :: (S.1.window.list.items.erase key)) :=
            List.perm_cons_erase hin
          have hm := sameTagsTracked
            S.1.window.list.items S.1.main.probation.items
            S.1.main.protectedList.items
            (key :: (S.1.window.list.items.erase key))
            S.1.main.probation.items S.1.main.protectedList.items
            S.2 (fun _ => False)
            htagW htagPb htagPt htr
            (fun k2 => (hperm.mem_iff).symm)
            (fun k2 => Iff.rfl) (fun k2 => Iff.rfl)
          have hnodup2 : ((key :: (S.1.window.list.items.erase key)) ++
              S.1.main.probation.items ++
              S.1.main.protectedList.items).Nodup :=
            ((hperm.append_right _).append_right _).nodup hnodup
          have hsum2 : S.1.size =
              (key :: (S.1.window.list.items.erase key)).length +
              S.1.main.probation.items.length +
              S.1.main.protectedList.items.length := by
            have hl := hperm.length_eq
            simp only [PList.len] at hsum
            omega
          exact ⟨⟨⟨hnodup2, hm.1, hm.2.1, hm.2.2.1, hsum2⟩, hm.2.2.2⟩,
            hakeys, hasz, hacap⟩
        · -- probation hit: promote to the protected front
          have hsl : Slru.access S.1.main key S.2 =
              some ({ probation :=
                        { items := S.1.main.probation.items.erase key,
                          capacity := S.1.main.probation.capacity },
                      protectedList :=
                        { items := key :: S.1.main.protectedList.items,
                          capacity := S.1.main.protectedList.capacity } },
                    S.2.adjust key
                      (fun e2 =>
                        { e2 with
                          policy_list_index := true,
                          policy_list_id := 3 })) := by
            simp only [Slru.access, hfind, hid, hidx, PList.removeKey,
              PList.insertFront]
            simp
          have hstep : TinyLfu.access t key now es raw pvc =
              ({ S.1 with
                 sketch := S.1.sketch.add key,
                 hit_in_sample := satAdd S.1.hit_in_sample 1,
                 main := { probation :=
                             { items := S.1.main.probation.items.erase key,
                               capacity := S.1.main.probation.capacity },
                           protectedList :=
                             { items := key :: S.1.main.protectedList.items,
                               capacity := S.1.main.protectedList.capacity } } },
               S.2.adjust key
                 (fun e2 =>
                   { e2 with
                     policy_list_index := true,
                     policy_list_id := 3 }), true) := by
            simp only [TinyLfu.access]
            rw [← hS]
            simp only [hfind]
            rw [if_neg hexp]
            simp only [hidx, hid, if_true, reduceIte]
            simp only [hsl]
            simp [hid]
          rw [hstep]
          have hconst : S.2.adjust key
              (fun e2 =>
                { e2 with
                  policy_list_index := true,
                  policy_list_id := 3 }) =
              S.2.adjust key
                (fun _ =>
                  { e with
                    policy_list_index := true,
                    policy_list_id := 3 }) :=
            EntriesMap.adjust_const _ key e _ hfind
          rw [hconst]
          have hdisjWPb :=
            List.disjoint_of_nodup_append hnodup.of_append_left
          have hdisj := List.disjoint_of_nodup_append hnodup
          have hkW : key ∉ S.1.window.list.items := fun hc =>
            hdisjWPb hc hin
          have hkPt : key ∉ S.1.main.protectedList.items := fun hc =>
            hdisj (List.mem_append_right _ hin) hc
          have hPbnd : S.1.main.probation.items.Nodup :=
            hnodup.of_append_left.of_append_right
          have hm := movedTagsTracked
            S.1.window.list.items S.1.main.probation.items
            S.1.main.protectedList.items
            S.1.window.list.items (S.1.main.probation.items.erase key)
            (key :: S.1.main.protectedList.items)
            S.2 (fun _ => False) key e
            { e with policy_list_index := true, policy_list_id := 3 } 3
            hfind (by simp) (by simp) (by simp)
            htagW htagPb htagPt htr
            (fun k2 => by
              constructor
              · intro h
                exact Or.inl ⟨h, fun hc => hkW (hc ▸ h)⟩
              · rintro (⟨h, _⟩ | ⟨h2, _⟩)
                · exact h
                · exact absurd h2 (by decide))
            (fun k2 => by
              constructor
              · intro h
                obtain ⟨hne, h2⟩ := (List.Nodup.mem_erase_iff hPbnd).mp h
                exact Or.inl ⟨h2, hne⟩
              · rintro (⟨h, hne⟩ | ⟨h2, _⟩)
                · exact (List.Nodup.mem_erase_iff hPbnd).mpr ⟨hne, h⟩
                · exact absurd h2 (by decide))
            (fun k2 => by
              constructor
              · intro h
                rcases List.mem_cons.mp h with h | h
                · exact Or.inr ⟨rfl, h⟩
                · exact Or.inl ⟨h, fun hc => hkPt (hc ▸ h)⟩
              · rintro (⟨h, _⟩ | ⟨_, h⟩)
                · exact List.mem_cons_of_mem _ h
                · exact h ▸ List.mem_cons_self _ _)
          have hp0 : (S.1.main.probation.items ++
              S.1.main.protectedList.items).Perm
              ((S.1.main.probation.items.erase key) ++
                (key :: S.1.main.protectedList.items)) :=
            ((List.perm_cons_erase hin).append_right _).trans
              List.perm_middle.symm
          have hnodup2 : (S.1.window.list.items ++
              (S.1.main.probation.items.erase key) ++
              (key :: S.1.main.protectedList.items)).Nodup := by
            have h2 := (hp0.append_left S.1.window.list.items).nodup
              (by simpa [List.append_assoc] using hnodup)
            simpa [List.append_assoc] using h2
          have hsum2 : S.1.size = S.1.window.list.items.length +
              (S.1.main.probation.items.erase key).length +
              (key :: S.1.main.protectedList.items).length := by
            have hl := List.length_erase_of_mem hin
            have hpos : 1 ≤ S.1.main.probation.items.length :=
              List.length_pos.mpr (fun hc => by simp [hc] at hin)
            simp only [PList.len] at hsum
            simp only [List.length_cons]
            omega
          refine ⟨⟨⟨hnodup2, hm.1, hm.2.1, hm.2.2.1, hsum2⟩, hm.2.2.2⟩,
            ?_, hasz, hacap⟩
          rw [EntriesMap.keys_adjust]
          exact hakeys
        · -- protected hit: touch the protected list
          have hc : S.1.main.protectedList.items.contains key = true :=
            List.elem_iff.mpr hin
          have hsl : Slru.access S.1.main key S.2 =
              some ({ probation := S.1.main.probation,
                      protectedList :=
                        { items := key ::
                            (S.1.main.protectedList.items.erase key),
                          capacity := S.1.main.protectedList.capacity } },
                    S.2) := by
            simp only [Slru.access, hfind, hid, hidx, PList.touch, hc]
            simp [hid]
          have hstep : TinyLfu.access t key now es raw pvc =
              ({ S.1 with
                 sketch := S.1.sketch.add key,
                 hit_in_sample := satAdd S.1.hit_in_sample 1,
                 main := { probation := S.1.main.probation,
                           protectedList :=
                             { items := key ::
                                 (S.1.main.protectedList.items.erase key),
                               capacity :=
                                 S.1.main.protectedList.capacity } } },
               S.2, true) := by
            simp only [TinyLfu.access]
            rw [← hS]
            simp only [hfind]
            rw [if_neg hexp]
            simp only [hidx, hid, if_true, reduceIte]
            simp only [hsl]
            simp [hid]
          rw [hstep]
          have hperm : S.1.main.protectedList.items.Perm
              (key :: (S.1.main.protectedList.items.erase key)) :=
            List.perm_cons_erase hin
          have hm := sameTagsTracked
            S.1.window.list.items S.1.main.probation.items
            S.1.main.protectedList.items
            S.1.window.list.items S.1.main.probation.items
            (key :: (S.1.main.protectedList.items.erase key))
            S.2 (fun _ => False)
            htagW htagPb htagPt htr
            (fun k2 => Iff.rfl) (fun k2 => Iff.rfl)
            (fun k2 => (hperm.mem_iff).symm)
          have hnodup2 : (S.1.window.list.items ++
              S.1.main.probation.items ++
              (key :: (S.1.main.protectedList.items.erase key))).Nodup :=
            (hperm.append_left _).nodup hnodup
          have hsum2 : S.1.size = S.1.window.list.items.length +
              S.1.main.probation.items.length +
              (key :: (S.1.main.protectedList.items.erase key)).length := by
            have hl := hperm.length_eq
            simp only [PList.len] at hsum
            omega
          exact ⟨⟨⟨hnodup2, hm.1, hm.2.1, hm.2.2.1, hsum2⟩, hm.2.2.2⟩,
            hakeys, hasz, hacap⟩

/-- The entries-tag relation is reflexive. -/
theorem entriesTagEq_refl (es : EntriesMap) : entriesTagEq es es :=
  ⟨rfl, fun k e2 h => ⟨e2, h, rfl, rfl⟩⟩

/-- The entries-tag relation is transitive. -/
theorem entriesTagEq_trans {es es2 es3 : EntriesMap}
    (h1 : entriesTagEq es es2) (h2 : entriesTagEq es2 es3) :
    entriesTagEq es es3 := by
  refine ⟨h2.1.trans h1.1, ?_⟩
  intro k e3 hf3
  obtain ⟨e2, hf2, hid2, hidx2⟩ := h2.2 k e3 hf3
  obtain ⟨e, hf, hid, hidx⟩ := h1.2 k e2 hf2
  exact ⟨e, hf, hid2.trans hid, hidx2.trans hidx⟩

/-- Adjusting one key with a tag-preserving update stays in the entries-tag
relation. -/
theorem entriesTagEq_adjust (es es2 : EntriesMap) (k : Nat)
    (f : Entry → Entry)
    (hf : ∀ e, es2.find k = some e → (f e).policy_list_id = e.policy_list_id ∧
      (f e).policy_list_index = e.policy_list_index)
    (h : entriesTagEq es es2) : entriesTagEq es (es2.adjust k f) := by
  refine entriesTagEq_trans h ⟨EntriesMap.keys_adjust es2 k f, ?_⟩
  intro k2 e2 hf2
  rw [EntriesMap.find_adjust] at hf2
  by_cases hk : k2 = k
  · rw [if_pos hk] at hf2
    subst hk
    rcases hfind : es2.find k2 with _ | e
    · rw [hfind] at hf2
      exact absurd hf2 (by simp)
    · rw [hfind] at hf2
      obtain rfl : f e = e2 := by simpa using hf2
      exact ⟨e, rfl, (hf e hfind).1, (hf e hfind).2⟩
  · rw [if_neg hk] at hf2
    exact ⟨e2, hf2, rfl, rfl⟩

/-- Descheduling clears only the wheel fields of the entry. -/
theorem TimerWheel.deschedule_tags (w : TimerWheel) (k : Nat) (e : Entry) :
    ((w.deschedule k e).2).policy_list_id = e.policy_list_id ∧
    ((w.deschedule k e).2).policy_list_index = e.policy_list_index := by
  simp [TimerWheel.deschedule]

/-- Scheduling rewrites only the wheel fields of the entry. -/
theorem TimerWheel.schedule_tags (w : TimerWheel) (k : Nat) (e : Entry) :
    ((w.schedule k e).2).policy_list_id = e.policy_list_id ∧
    ((w.schedule k e).2).policy_list_index = e.policy_list_index := by
  simp only [TimerWheel.schedule]
  split
  · split
    · simp [TimerWheel.deschedule]
    · simp [TimerWheel.deschedule]
  · simp [TimerWheel.deschedule]

/-- One bucket pass of expire rewrites only wheel fields of entries. -/
theorem TimerWheel.expireBucket_tagEq (w : TimerWheel) (idx : Nat × Nat)
    (es0 es : EntriesMap) (h : entriesTagEq es0 es) :
    entriesTagEq es0 (w.expireBucket idx es).2.1 := by
  unfold TimerWheel.expireBucket
  simp only []
  have hstep1 := foldlPreserve
    (fun (acc : TimerWheel × EntriesMap) => entriesTagEq es0 acc.2)
    (fun (acc : TimerWheel × EntriesMap) k =>
      match acc.2.find k with
      | some e =>
        ((acc.1.deschedule k e).1, acc.2.adjust k
          (fun _ => (acc.1.deschedule k e).2))
      | none => acc)
    ((w.bucket idx.1 idx.2).items.filter (fun k =>
      match es.find k with
      | some e => decide (e.expire ≤ w.nanos)
      | none => false))
    (w, es) h
    (fun acc k _ hacc => by
      rcases hfind : acc.2.find k with _ | e
      · simpa [hfind] using hacc
      · simp only [hfind]
        refine entriesTagEq_adjust es0 acc.2 k _ ?_ hacc
        intro e2 hfind2
        obtain rfl : e = e2 := by rw [hfind] at hfind2; simpa using hfind2
        exact TimerWheel.deschedule_tags acc.1 k e)
  exact foldlPreserve
    (fun (acc : TimerWheel × EntriesMap) => entriesTagEq es0 acc.2)
    (fun (acc : TimerWheel × EntriesMap) k =>
      match acc.2.find k with
      | some e =>
        ((acc.1.schedule k e).1, acc.2.adjust k
          (fun _ => (acc.1.schedule k e).2))
      | none => acc)
    ((w.bucket idx.1 idx.2).items.filter (fun k =>
      match es.find k with
      | some e => decide (w.nanos < e.expire)
      | none => false))
    _ hstep1
    (fun acc k _ hacc => by
      rcases hfind : acc.2.find k with _ | e
      · simpa [hfind] using hacc
      · simp only [hfind]
        refine entriesTagEq_adjust es0 acc.2 k _ ?_ hacc
        intro e2 hfind2
        obtain rfl : e = e2 := by rw [hfind] at hfind2; simpa using hfind2
        exact TimerWheel.schedule_tags acc.1 k e)

/-- One level pass of expire rewrites only wheel fields of entries. -/
theorem TimerWheel.expireLevel_tagEq (w : TimerWheel)
    (index prevTicks delta : Nat) (es : EntriesMap) :
    entriesTagEq es (w.expireLevel index prevTicks delta es).2.1 := by
  unfold TimerWheel.expireLevel
  split
  · exact entriesTagEq_refl es
  · simp only []
    exact foldlPreserve
      (fun (acc : TimerWheel × EntriesMap × List Nat) =>
        entriesTagEq es acc.2.1)
      _ _ _ (entriesTagEq_refl es)
      (fun acc j _ hacc => by
        simp only []
        split
        · exact hacc
        · exact TimerWheel.expireBucket_tagEq acc.1 _ es acc.2.1 hacc)

/-- The level loop of advance rewrites only wheel fields of entries. -/
theorem TimerWheel.advanceLevels_tagEq : ∀ (levels : List Nat)
    (w : TimerWheel) (previous now : Nat) (es : EntriesMap),
    entriesTagEq es
      (TimerWheel.advanceLevels levels w previous now es).2.1 := by
  intro levels
  induction levels with
  | nil =>
    intro w previous now es
    exact entriesTagEq_refl es
  | cons i rest ih =>
    intro w previous now es
    simp only [TimerWheel.advanceLevels]
    split
    · exact entriesTagEq_refl es
    · exact entriesTagEq_trans
        (TimerWheel.expireLevel_tagEq w i _ _ es)
        (ih _ previous now _)

/-- advance rewrites only wheel fields of entries. -/
theorem TimerWheel.advance_tagEq (w : TimerWheel) (now : Nat)
    (es : EntriesMap) :
    entriesTagEq es (w.advance now es).2.1 :=
  TimerWheel.advanceLevels_tagEq [0, 1, 2, 3, 4] _ w.nanos now es

/-- Synchronisation transfers across the entries-tag relation. -/
theorem TinyLfu.synced_tagEq (t : TinyLfu) (es es2 : EntriesMap)
    (X : Nat → Prop) (hs : t.synced es X) (h : entriesTagEq es es2) :
    t.synced es2 X := by
  obtain ⟨⟨hnodup, htagW, htagPb, htagPt, hsum⟩, htr⟩ := hs
  have htag : ∀ k i, entryTagged es k i = true → entryTagged es2 k i = true := by
    intro k i hk
    obtain ⟨e, hfind, hid, hidx⟩ := entryTagged_find es k i hk
    have hmem : k ∈ es2.keys := by
      rw [h.1]
      by_contra hc
      rw [← EntriesMap.find_none_iff] at hc
      rw [hc] at hfind
      exact absurd hfind (by simp)
    rcases hfind2 : es2.find k with _ | e2
    · rw [EntriesMap.find_none_iff] at hfind2
      exact absurd hmem hfind2
    · obtain ⟨e3, hfind3, hid3, hidx3⟩ := h.2 k e2 hfind2
      obtain rfl : e = e3 := by rw [hfind] at hfind3; simpa using hfind3
      simp only [entryTagged, hfind2]
      rw [hid3, hidx3, hid, hidx]
      simp
  refine ⟨⟨hnodup, fun k hk => htag k 1 (htagW k hk),
    fun k hk => htag k 2 (htagPb k hk),
    fun k hk => htag k 3 (htagPt k hk), hsum⟩, ?_⟩
  intro k e2 hf2
  obtain ⟨e, hfind, hid, hidx⟩ := h.2 k e2 hf2
  rcases htr k e hfind with ⟨hx, hi, hd⟩ | ⟨hi, hcl⟩
  · exact Or.inl ⟨hx, hidx.trans hi, hid.trans hd⟩
  · refine Or.inr ⟨hidx.trans hi, ?_⟩
    rcases hcl with ⟨hd, hin⟩ | ⟨hd, hin⟩ | ⟨hd, hin⟩
    · exact Or.inl ⟨hid.trans hd, hin⟩
    · exact Or.inr (Or.inl ⟨hid.trans hd, hin⟩)
    · exact Or.inr (Or.inr ⟨hid.trans hd, hin⟩)

/-- The entry count is the key count. -/
theorem EntriesMap.size_eq_keys_length (es : EntriesMap) :
    es.size = es.keys.length := by
  simp [EntriesMap.size, EntriesMap.keys]

/-- Inserting one key leaves every other key's tag unchanged. -/
theorem entryTagged_insert_ne (es : EntriesMap) (k : Nat) (e : Entry)
    (k2 i : Nat) (hne : k2 ≠ k) :
    entryTagged (es.insert k e) k2 i = entryTagged es k2 i := by
  unfold entryTagged
  rw [EntriesMap.find_insert, if_neg hne]

/-- Inserting a fresh tag-0 key preserves synchronisation, with the fresh
key as the one exception. -/
theorem TinyLfu.synced_insert_fresh (t : TinyLfu) (es : EntriesMap)
    (key : Nat) (e0 : Entry) (hs : t.synced es (fun _ => False))
    (hidx : e0.policy_list_index = false) (hid : e0.policy_list_id = 0)
    (habs : es.find key = none) :
    t.synced (es.insert key e0) (fun k2 => k2 = key) := by
  obtain ⟨⟨hnodup, htagW, htagPb, htagPt, hsum⟩, htr⟩ := hs
  have hne : ∀ i k2, entryTagged es k2 i = true → k2 ≠ key := by
    intro i k2 hk2 hc
    obtain ⟨e, hfind, _, _⟩ := entryTagged_find es k2 i hk2
    rw [hc, habs] at hfind
    exact absurd hfind (by simp)
  refine ⟨⟨hnodup, ?_, ?_, ?_, hsum⟩, ?_⟩
  · intro k2 hk2
    rw [entryTagged_insert_ne es key e0 k2 1 (hne 1 k2 (htagW k2 hk2))]
    exact htagW k2 hk2
  · intro k2 hk2
    rw [entryTagged_insert_ne es key e0 k2 2 (hne 2 k2 (htagPb k2 hk2))]
    exact htagPb k2 hk2
  · intro k2 hk2
    rw [entryTagged_insert_ne es key e0 k2 3 (hne 3 k2 (htagPt k2 hk2))]
    exact htagPt k2 hk2
  · intro k2 e2 hf2
    rw [EntriesMap.find_insert] at hf2
    by_cases hk : k2 = key
    · rw [if_pos hk] at hf2
      obtain rfl : e0 = e2 := by simpa using hf2
      exact Or.inl ⟨hk, hidx, hid⟩
    · rw [if_neg hk] at hf2
      rcases htr k2 e2 hf2 with ⟨hx, _⟩ | hn
      · exact hx.elim
      · exact Or.inr hn

/-- A found key's removal step (shared by remove_internal, the expired-key
drops of advance, and the evicted-key drop of set_entry): the policy removal
succeeds, and the state with the key's binding erased satisfies every
data component of the invariant. -/
theorem TlfuCore.removalStep_inv (t : TinyLfu) (es : EntriesMap) (k : Nat)
    (e : Entry) (hsy : t.synced es (fun _ => False))
    (hnd : es.keys.Nodup) (hsz : es.size = t.size)
    (hfind : es.find k = some e) :
    ∃ t2, t.removeEntry e k = some t2 ∧
      t2.synced (es.erase k) (fun _ => False) ∧
      (es.erase k).keys.Nodup ∧ (es.erase k).size = t2.size ∧
      t2.size = t.size - 1 ∧ t2.capacity = t.capacity := by
  have hlisted : k ∈ t.window.list.items ∨ k ∈ t.main.probation.items ∨
      k ∈ t.main.protectedList.items := by
    rcases hsy.2 k e hfind with ⟨hfalse, _⟩ | ⟨_, hcl⟩
    · exact hfalse.elim
    · rcases hcl with ⟨_, hin⟩ | ⟨_, hin⟩ | ⟨_, hin⟩
      · exact Or.inl hin
      · exact Or.inr (Or.inl hin)
      · exact Or.inr (Or.inr hin)
  obtain ⟨t2, hrem, hsy2, hsz2, hcap2, hpos⟩ :=
    TinyLfu.removeEntry_synced t es k e (fun _ => False) hsy hfind hlisted
  refine ⟨t2, hrem, hsy2, EntriesMap.keysNodup_erase es k hnd, ?_, hsz2,
    hcap2⟩
  rw [EntriesMap.size_erase_present es k e hnd hfind, hsz2, hsz]

/-- remove_internal preserves the facade invariant and the capacity. -/
theorem TlfuCore.removeInternal_inv (c : TlfuCore) (key : Nat)
    (hinv : c.Inv) : (c.removeInternal key).Inv ∧
    (c.removeInternal key).policy.capacity = c.policy.capacity := by
  obtain ⟨hsy, hnd, hsz, hle, hcap1, hcapM⟩ := hinv
  unfold TlfuCore.removeInternal
  rcases hfind : c.entries.find key with _ | e
  · exact ⟨⟨hsy, hnd, hsz, hle, hcap1, hcapM⟩, rfl⟩
  · obtain ⟨t2, hrem, hsy2, hnd2, hsz2, hsize2, hcap2⟩ :=
      TlfuCore.removalStep_inv c.policy c.entries key e hsy hnd hsz hfind
    simp only [hrem]
    refine ⟨⟨hsy2, hnd2, hsz2, ?_, ?_, ?_⟩, ?_⟩
    · show t2.size ≤ t2.capacity
      omega
    · show 1 ≤ t2.capacity
      omega
    · show t2.capacity < USIZE_MAX
      omega
    · show t2.capacity = c.policy.capacity
      omega

/-- The existing-key path of set_entry preserves the facade invariant and
the capacity; the policy is not consulted at all. -/
theorem TlfuCore.setEntryExisting_inv (c : TlfuCore) (key ttl now : Nat)
    (hinv : c.Inv) : (c.setEntryExisting key ttl now).1.Inv ∧
    (c.setEntryExisting key ttl now).1.policy.capacity =
      c.policy.capacity := by
  obtain ⟨hsy, hnd, hsz, hle, hcap1, hcapM⟩ := hinv
  unfold TlfuCore.setEntryExisting
  have h1 : entriesTagEq c.entries
      (c.entries.adjust key (fun e => { e with expire := expireNs now ttl })) :=
    entriesTagEq_adjust c.entries c.entries key _
      (fun e _ => ⟨rfl, rfl⟩) (entriesTagEq_refl c.entries)
  rcases hfind : (c.entries.adjust key
      (fun e => { e with expire := expireNs now ttl })).find key with _ | e
  · simp only [hfind]
    have hkeys := h1.1
    refine ⟨⟨TinyLfu.synced_tagEq c.policy c.entries _ (fun _ => False) hsy h1,
      ?_, ?_, hle, hcap1, hcapM⟩, trivial⟩
    · rw [hkeys]
      exact hnd
    · rw [EntriesMap.size_eq_keys_length, hkeys,
        ← EntriesMap.size_eq_keys_length]
      exact hsz
  · simp only [hfind]
    have h2 : entriesTagEq c.entries
        ((c.entries.adjust key
          (fun e2 => { e2 with expire := expireNs now ttl })).adjust key
          (fun _ => (c.wheel.schedule key e).2)) := by
      refine entriesTagEq_adjust c.entries _ key _ ?_ h1
      intro e2 hfind2
      obtain rfl : e = e2 := by rw [hfind] at hfind2; simpa using hfind2
      exact TimerWheel.schedule_tags c.wheel key e
    have hkeys := h2.1
    refine ⟨⟨TinyLfu.synced_tagEq c.policy c.entries _ (fun _ => False) hsy h2,
      ?_, ?_, hle, hcap1, hcapM⟩, trivial⟩
    · rw [hkeys]
      exact hnd
    · rw [EntriesMap.size_eq_keys_length, hkeys,
        ← EntriesMap.size_eq_keys_length]
      exact hsz

/-- set_entry preserves the facade invariant and the capacity on both
paths. -/
theorem TlfuCore.setEntry_inv (c : TlfuCore) (key ttl now : Nat) (raw : Int)
    (pvc : Nat) (hinv : c.Inv) :
    (c.setEntry key ttl now raw pvc).1.Inv ∧
    (c.setEntry key ttl now raw pvc).1.policy.capacity =
      c.policy.capacity := by
  unfold TlfuCore.setEntry
  rcases hfind : c.entries.find key with _ | efound
  · -- fresh key: schedule, insert, offer to the policy
    obtain ⟨hsy, hnd, hsz, hle, hcap1, hcapM⟩ := hinv
    simp only []
    have hid0 : ((c.wheel.schedule key
        { Entry.mk0 with expire := expireNs now ttl }).2).policy_list_id = 0 :=
      (TimerWheel.schedule_tags c.wheel key _).1
    have hidx0 : ((c.wheel.schedule key
        { Entry.mk0 with expire := expireNs now ttl }).2).policy_list_index =
        false :=
      (TimerWheel.schedule_tags c.wheel key _).2
    have hs1 := TinyLfu.synced_insert_fresh c.policy c.entries key
      (c.wheel.schedule key { Entry.mk0 with expire := expireNs now ttl }).2
      hsy hidx0 hid0 hfind
    have hfind1 : (c.entries.insert key (c.wheel.schedule key
        { Entry.mk0 with expire := expireNs now ttl }).2).find key =
        some (c.wheel.schedule key
          { Entry.mk0 with expire := expireNs now ttl }).2 := by
      rw [EntriesMap.find_insert, if_pos rfl]
    have hkmem : key ∉ c.entries.keys :=
      (EntriesMap.find_none_iff c.entries key).mp hfind
    have hkeys1 : (c.entries.insert key (c.wheel.schedule key
        { Entry.mk0 with expire := expireNs now ttl }).2).keys =
        c.entries.keys ++ [key] :=
      EntriesMap.keys_insert_absent c.entries key _ hfind
    have hnd1 : (c.entries.insert key (c.wheel.schedule key
        { Entry.mk0 with expire := expireNs now ttl }).2).keys.Nodup := by
      rw [hkeys1]
      exact List.Nodup.append hnd (List.nodup_singleton key)
        (by simpa using hkmem)
    have hsize1 : (c.entries.insert key (c.wheel.schedule key
        { Entry.mk0 with expire := expireNs now ttl }).2).size =
        c.entries.size + 1 :=
      EntriesMap.size_insert_absent c.entries key _ hfind
    obtain ⟨t2, es2, ev, hset, hcap2, hkeys2, hcase⟩ :=
      TinyLfu.set_inv c.policy key
        (c.entries.insert key (c.wheel.schedule key
          { Entry.mk0 with expire := expireNs now ttl }).2)
        raw pvc _ hs1 hfind1 hid0 hle (by omega)
    unfold TlfuCore.setEntryFinish TlfuCore.setEntryOutcome
    simp only []
    rw [hset]
    simp only [if_true]
    have hnd2 : es2.keys.Nodup := by
      rw [hkeys2]
      exact hnd1
    have hsize2 : es2.size = c.entries.size + 1 := by
      rw [EntriesMap.size_eq_keys_length, hkeys2,
        ← EntriesMap.size_eq_keys_length]
      exact hsize1
    rcases hcase with ⟨hev, hsy2, hsz2, hle2⟩ |
      ⟨x, ex, hev, hfindx, hsy2, hsz2, hle2⟩
    · subst hev
      simp only []
      refine ⟨⟨hsy2, hnd2, ?_, hle2, ?_, ?_⟩, ?_⟩
      · show es2.size = t2.size
        omega
      · show 1 ≤ t2.capacity
        omega
      · show t2.capacity < USIZE_MAX
        omega
      · show t2.capacity = c.policy.capacity
        omega
    · subst hev
      simp only []
      unfold TlfuCore.dropEvicted
      simp only [hfindx]
      rw [EntriesMap.adjust_erase_self]
      have hx : (es2.erase x).size = es2.size - 1 :=
        EntriesMap.size_erase_present es2 x ex hnd2 hfindx
      refine ⟨⟨hsy2, EntriesMap.keysNodup_erase es2 x hnd2, ?_, hle2, ?_,
        ?_⟩, ?_⟩
      · show (es2.erase x).size = t2.size
        omega
      · show 1 ≤ t2.capacity
        omega
      · show t2.capacity < USIZE_MAX
        omega
      · show t2.capacity = c.policy.capacity
        omega
  · exact TlfuCore.setEntryExisting_inv c key ttl now hinv

/-- One batch step of the facade set preserves the facade invariant and the
capacity. -/
theorem TlfuCore.setStep_fullInv (c : TlfuCore) (evicted : List Nat)
    (key : Nat) (ttl : Int) (now : Nat) (raw : Int) (pvc : Nat)
    (hinv : c.Inv) :
    (TlfuCore.setStep c evicted key ttl now raw pvc).1.Inv ∧
    (TlfuCore.setStep c evicted key ttl now raw pvc).1.policy.capacity =
      c.policy.capacity := by
  unfold TlfuCore.setStep
  by_cases httl : ttl = -1
  · rw [if_pos httl]
    exact TlfuCore.removeInternal_inv c key hinv
  · rw [if_neg httl]
    by_cases hcont : evicted.contains key = true
    · rw [if_pos hcont]
      exact ⟨hinv, rfl⟩
    · rw [if_neg hcont]
      have h := TlfuCore.setEntry_inv c key ttl.natAbs now raw pvc hinv
      rcases hev : (c.setEntry key ttl.natAbs now raw pvc).2 with _ | ek <;>
        simp only [hev] <;> exact h

/-- The batch fold of the facade set preserves the facade invariant and the
capacity. -/
theorem TlfuCore.setFold_fullInv (batch : List (Nat × Int)) (now : Nat)
    (raw : Int) (pvc : Nat) (c : TlfuCore) (evicted : List Nat)
    (hinv : c.Inv) :
    (batch.foldl
      (fun (acc : TlfuCore × List Nat) kv =>
        TlfuCore.setStep acc.1 acc.2 kv.1 kv.2 now raw pvc)
      (c, evicted)).1.Inv ∧
    (batch.foldl
      (fun (acc : TlfuCore × List Nat) kv =>
        TlfuCore.setStep acc.1 acc.2 kv.1 kv.2 now raw pvc)
      (c, evicted)).1.policy.capacity = c.policy.capacity :=
  foldlPreserve
    (fun (acc : TlfuCore × List Nat) =>
      acc.1.Inv ∧ acc.1.policy.capacity = c.policy.capacity)
    (fun (acc : TlfuCore × List Nat) kv =>
      TlfuCore.setStep acc.1 acc.2 kv.1 kv.2 now raw pvc)
    batch (c, evicted) ⟨hinv, rfl⟩
    (fun a2 kv _ h =>
      ⟨(TlfuCore.setStep_fullInv a2.1 a2.2 kv.1 kv.2 now raw pvc h.1).1,
       ((TlfuCore.setStep_fullInv a2.1 a2.2 kv.1 kv.2 now raw pvc
         h.1).2).trans h.2⟩)

/-- A facade set call preserves the facade invariant and the capacity: the
final retention pass finds every evicted key already dropped and changes
nothing. -/
theorem TlfuCore.set_fullInv (c : TlfuCore) (batch : List (Nat × Int))
    (now : Nat) (raw : Int) (pvc : Nat) (hinv : c.Inv) :
    (TlfuCore.set c batch now raw pvc).1.Inv ∧
    (TlfuCore.set c batch now raw pvc).1.policy.capacity =
      c.policy.capacity := by
  unfold TlfuCore.set
  simp only []
  have hfold := TlfuCore.setFold_fullInv batch now raw pvc c [] hinv
  have hmem := TlfuCore.setFold_inv batch now raw pvc c [] (by simp)
  unfold TlfuCore.retainEvicted
  rw [TlfuCore.retainFold_fixed _ _ _ hmem]
  exact hfold

/-- A facade access call preserves the facade invariant and the capacity. -/
theorem TlfuCore.access_fullInv (c : TlfuCore) (keys : List Nat) (now : Nat)
    (raw : Int) (pvc : Nat) (hinv : c.Inv) :
    (TlfuCore.access c keys now raw pvc).Inv ∧
    (TlfuCore.access c keys now raw pvc).policy.capacity =
      c.policy.capacity := by
  unfold TlfuCore.access
  refine foldlPreserve
    (fun (acc : TlfuCore) =>
      acc.Inv ∧ acc.policy.capacity = c.policy.capacity)
    _ keys c ⟨hinv, rfl⟩ ?_
  intro a2 k _ h
  obtain ⟨⟨hsy, hnd, hsz, hle, hcap1, hcapM⟩, hcap⟩ := h
  obtain ⟨h1, h2, h3, h4⟩ :=
    TinyLfu.access_inv a2.policy k now a2.entries raw pvc hsy
  simp only []
  refine ⟨⟨h1, ?_, ?_, ?_, ?_, ?_⟩, ?_⟩
  · show (a2.policy.access k now a2.entries raw pvc).2.1.keys.Nodup
    rw [h2]
    exact hnd
  · show (a2.policy.access k now a2.entries raw pvc).2.1.size =
      (a2.policy.access k now a2.entries raw pvc).1.size
    rw [EntriesMap.size_eq_keys_length, h2,
      ← EntriesMap.size_eq_keys_length, h3]
    exact hsz
  · show (a2.policy.access k now a2.entries raw pvc).1.size ≤
      (a2.policy.access k now a2.entries raw pvc).1.capacity
    omega
  · show 1 ≤ (a2.policy.access k now a2.entries raw pvc).1.capacity
    omega
  · show (a2.policy.access k now a2.entries raw pvc).1.capacity < USIZE_MAX
    omega
  · show (a2.policy.access k now a2.entries raw pvc).1.capacity =
      c.policy.capacity
    omega

/-- A facade advance call preserves the facade invariant and the capacity:
the wheel pass rewrites only wheel fields, and each genuinely expired key is
dropped from the entries map and the policy together. -/
theorem TlfuCore.advance_fullInv (c : TlfuCore) (now : Nat) (hinv : c.Inv) :
    (c.advance now).1.Inv ∧
    (c.advance now).1.policy.capacity = c.policy.capacity := by
  obtain ⟨hsy, hnd, hsz, hle, hcap1, hcapM⟩ := hinv
  unfold TlfuCore.advance
  simp only []
  have htq := TimerWheel.advance_tagEq c.wheel now c.entries
  have hsy1 : c.policy.synced (c.wheel.advance now c.entries).2.1
      (fun _ => False) :=
    TinyLfu.synced_tagEq c.policy c.entries _ (fun _ => False) hsy htq
  have hnd1 : (c.wheel.advance now c.entries).2.1.keys.Nodup := by
    rw [htq.1]
    exact hnd
  have hsz1 : (c.wheel.advance now c.entries).2.1.size = c.policy.size := by
    rw [EntriesMap.size_eq_keys_length, htq.1,
      ← EntriesMap.size_eq_keys_length]
    exact hsz
  refine foldlPreserve
    (fun (acc : TlfuCore) =>
      acc.Inv ∧ acc.policy.capacity = c.policy.capacity)
    _ (c.wheel.advance now c.entries).2.2 _
    ⟨⟨hsy1, hnd1, hsz1, hle, hcap1, hcapM⟩, rfl⟩ ?_
  intro a2 k _ h
  obtain ⟨⟨hsy2, hnd2, hsz2, hle2, hcap2, hcapM2⟩, hcap⟩ := h
  rcases hfind : a2.entries.find k with _ | e
  · simpa [hfind] using
      ⟨⟨hsy2, hnd2, hsz2, hle2, hcap2, hcapM2⟩, hcap⟩
  · simp only [hfind]
    obtain ⟨t2, hrem, hsy3, hnd3, hsz3, hsize3, hcap3⟩ :=
      TlfuCore.removalStep_inv a2.policy a2.entries k e hsy2 hnd2 hsz2 hfind
    simp only [hrem]
    refine ⟨⟨hsy3, hnd3, hsz3, ?_, ?_, ?_⟩, ?_⟩
    · show t2.size ≤ t2.capacity
      omega
    · show 1 ≤ t2.capacity
      omega
    · show t2.capacity < USIZE_MAX
      omega
    · show t2.capacity = c.policy.capacity
      omega

/-- A facade remove call preserves the facade invariant and the capacity. -/
theorem TlfuCore.remove_fullInv (c : TlfuCore) (key : Nat) (hinv : c.Inv) :
    (c.remove key).1.Inv ∧
    (c.remove key).1.policy.capacity = c.policy.capacity := by
  unfold TlfuCore.remove
  rcases hfind : c.entries.find key with _ | e
  · exact ⟨hinv, rfl⟩
  · exact TlfuCore.removeInternal_inv c key hinv

/-- Every public facade call preserves the facade invariant and the
capacity. -/
theorem FacadeOp.apply_inv (c : TlfuCore) (op : FacadeOp) (hinv : c.Inv) :
    (FacadeOp.apply c op).Inv ∧
    (FacadeOp.apply c op).policy.capacity = c.policy.capacity := by
  cases op with
  | setBatch batch now raw pvc =>
    exact TlfuCore.set_fullInv c batch now raw pvc hinv
  | accessKeys keys now raw pvc =>
    exact TlfuCore.access_fullInv c keys now raw pvc hinv
  | advanceTo now => exact TlfuCore.advance_fullInv c now hinv
  | removeKey key => exact TlfuCore.remove_fullInv c key hinv

/-- Runs of public facade calls preserve the facade invariant and the
capacity. -/
theorem TlfuCore.runOps_inv (ops : List FacadeOp) : ∀ (c : TlfuCore),
    c.Inv → (c.runOps ops).Inv ∧
    (c.runOps ops).policy.capacity = c.policy.capacity := by
  induction ops with
  | nil =>
    intro c hinv
    exact ⟨hinv, rfl⟩
  | cons op rest ih =>
    intro c hinv
    have h := FacadeOp.apply_inv c op hinv
    have h2 := ih (FacadeOp.apply c op) h.1
    exact ⟨h2.1, h2.2.trans h.2⟩

/-- The freshly constructed facade satisfies the invariant for every
positive capacity below usize::MAX. -/
theorem TlfuCore.Inv_new (cap startNanos : Nat) (h1 : 1 ≤ cap)
    (hM : cap < USIZE_MAX) : (TlfuCore.new cap startNanos).Inv := by
  have hcap : (TlfuCore.new cap startNanos).policy.capacity = cap := by
    show (if cap = 0 then 1 else cap) = cap
    rw [if_neg (by omega)]
  refine ⟨⟨⟨?_, ?_, ?_, ?_, rfl⟩, ?_⟩, ?_, rfl, ?_, ?_, ?_⟩
  · show (([] : List Nat) ++ [] ++ []).Nodup
    simp
  · intro k hk
    exact absurd hk (List.not_mem_nil k)
  · intro k hk
    exact absurd hk (List.not_mem_nil k)
  · intro k hk
    exact absurd hk (List.not_mem_nil k)
  · intro k e hf
    exact absurd hf (by simp [EntriesMap.find])
  · exact List.nodup_nil
  · show 0 ≤ (TlfuCore.new cap startNanos).policy.capacity
    omega
  · omega
  · omega

/-- Under the invariant, the entry count stays within the capacity. -/
theorem TlfuCore.len_le_capacity (c : TlfuCore) (hinv : c.Inv) :
    c.len ≤ c.policy.capacity := by
  obtain ⟨_, _, hsz, hle, _, _⟩ := hinv
  unfold TlfuCore.len
  omega

/-- C1: len() never exceeds the configured capacity at quiescent points.
Universally: for every capacity at least 1 (and below usize::MAX, where the
saturating size counter of the source is exact — the model's keys range
over unbounded naturals, so at usize::MAX itself more distinct keys exist
than any usize-sized map could ever hold) and every sequence of public
facade calls (set batches, accesses, advances, removes) run from
TlfuCore::new, the entry count at the resulting quiescent point is at most
the capacity.  The proof maintains the facade invariant (region-list and
entries-map synchronisation, unique stored keys, exact size accounting and
the size within the positive capacity) across every call.  Concretely: for
capacities 1, 2 and 3, after the facade sets a batch of five distinct keys
with ttl 0, len() equals the capacity, and still does after accessing one
key and repeating the same batch. -/
theorem set_batch_len_equals_capacity :
    (∀ (cap startNanos : Nat) (ops : List FacadeOp),
      1 ≤ cap → cap < USIZE_MAX →
      ((TlfuCore.new cap startNanos).runOps ops).len ≤ cap) ∧
    ((((TlfuCore.new 1 0).set [(1,0),(2,0),(3,0),(4,0),(5,0)] 0 0 0).1.len = 1) ∧
     ((((((TlfuCore.new 1 0).set [(1,0),(2,0),(3,0),(4,0),(5,0)] 0 0 0).1.access
        [1] 0 0 0).set [(1,0),(2,0),(3,0),(4,0),(5,0)] 0 0 0).1.len) = 1)) ∧
    ((((TlfuCore.new 2 0).set [(1,0),(2,0),(3,0),(4,0),(5,0)] 0 0 0).1.len = 2) ∧
     ((((((TlfuCore.new 2 0).set [(1,0),(2,0),(3,0),(4,0),(5,0)] 0 0 0).1.access
        [1] 0 0 0).set [(1,0),(2,0),(3,0),(4,0),(5,0)] 0 0 0).1.len) = 2)) ∧
    ((((TlfuCore.new 3 0).set [(1,0),(2,0),(3,0),(4,0),(5,0)] 0 0 0).1.len = 3) ∧
     ((((((TlfuCore.new 3 0).set [(1,0),(2,0),(3,0),(4,0),(5,0)] 0 0 0).1.access
        [1] 0 0 0).set [(1,0),(2,0),(3,0),(4,0),(5,0)] 0 0 0).1.len) = 3)) := by
  refine ⟨?_, ⟨by decide, by decide⟩, ⟨by decide, by decide⟩,
    by decide, by decide⟩
  intro cap startNanos ops h1 hM
  have h := TlfuCore.runOps_inv ops (TlfuCore.new cap startNanos)
    (TlfuCore.Inv_new cap startNanos h1 hM)
  have hlen := TlfuCore.len_le_capacity _ h.1
  have hcap : (TlfuCore.new cap startNanos).policy.capacity = cap := by
    show (if cap = 0 then 1 else cap) = cap
    rw [if_neg (by omega)]
  rw [h.2, hcap] at hlen
  exact hlen

/-- C1 witness: the universal bound applied to a concrete capacity-2 cache
and a concrete mixed run of all four public calls. -/
theorem set_batch_len_equals_capacity_witness :
    1 ≤ 2 ∧ 2 < USIZE_MAX ∧
    ((TlfuCore.new 2 0).runOps
      [FacadeOp.setBatch [(1, 0), (2, 0), (3, 0)] 0 0 0,
       FacadeOp.accessKeys [1] 0 0 0,
       FacadeOp.advanceTo 5,
       FacadeOp.removeKey 2]).len ≤ 2 :=
  ⟨by decide, by decide,
   set_batch_len_equals_capacity.1 2 0
     [FacadeOp.setBatch [(1, 0), (2, 0), (3, 0)] 0 0 0,
      FacadeOp.accessKeys [1] 0 0 0,
      FacadeOp.advanceTo 5,
      FacadeOp.removeKey 2]
     (by decide) (by decide)⟩

end Theine
